import Mathlib

/-!
# Scheduling-Algo: rank computations and the three list schedulers

A shallow embedding of `src/project.cpp`.

* A C++ `int` value (time, deadline, count) is an `Int`.  Every `int` addition on time
  values (ranks, finish times, busy accumulators) is `addInt`: the sum reduced to the
  32-bit two's-complement range, which is what the usual compilers make of an overflowing
  `int` sum.  The counters that grow by one per task are bounded by the number of tasks
  and are not reduced.  The sentinel `std::numeric_limits<int>::max()` is the constant
  `INT_MAX`.
* A `std::vector` is a `List`; an index into a vector is a `Nat`.  Every vector read
  or write that would fall outside the vector makes the embedded function return `none`.
* `std::sort` leaves the order of equal keys open; the embedding uses the stable
  insertion sort, and the loops are defined over an arbitrary processing order so that
  general statements do not depend on that choice.
-/

namespace SchedulingAlgo

/-! ## Data model -/

/-- The record `struct Task`. -/
structure Task where
  id : Int
  deadline : Int
  executionTime : Int
  dependencies : List Nat
deriving DecidableEq, Repr

/-- The record `struct Processor`. -/
structure Processor where
  id : Int
  availableTime : List Int
  totalExecutionTime : Int
deriving DecidableEq, Repr

/-- The value `std::numeric_limits<int>::max()`. -/
def INT_MAX : Int := 2147483647

/-- The 32-bit `int` that holds the mathematical value `x`: reduction modulo `2^32` into
the range `-2^31 .. 2^31 - 1`. -/
def wrap32 (x : Int) : Int := (x + 2147483648) % 4294967296 - 2147483648

/-- The C++ sum `a + b` of two `int` values. -/
def addInt (a b : Int) : Int := wrap32 (a + b)

/-- What a scheduler leaves behind: the returned count, the processor collection and the
task vector (both are passed by reference). -/
structure SchedResult where
  count : Int
  processors : List Processor
  tasks : List Task
deriving DecidableEq, Repr

/-! ## computeUpwardRanks (lines 28-44) -/

/-- The inner loop `for (int pred : tasks[i].dependencies)` of `computeUpwardRanks`:
`upwardRanks[i] = max(upwardRanks[i], upwardRanks[pred] + tasks[i].executionTime)`. -/
def upwardInner (exec : Int) (i : Nat) : List Nat → List Int → Option (List Int)
  | [], up => some up
  | pred :: rest, up =>
    match up[i]?, up[pred]? with
    | some a, some b => upwardInner exec i rest (up.set i (max a (addInt b exec)))
    | _, _ => none

/-- The outer loop of `computeUpwardRanks` over the task indices `is`. -/
def upwardLoop (tasks : List Task) : List Nat → List Int → Option (List Int)
  | [], up => some up
  | i :: is, up =>
    match tasks[i]? with
    | none => none
    | some t =>
      match upwardInner t.executionTime i t.dependencies up with
      | none => none
      | some up1 => upwardLoop tasks is up1

/-- The function `computeUpwardRanks`: every entry starts at the task's execution time,
then the tasks are visited in index order. -/
def computeUpwardRanks (tasks : List Task) : Option (List Int) :=
  upwardLoop tasks (List.range tasks.length) (tasks.map (fun t => t.executionTime))

/-! ## computeDownwardRanks (lines 46-64) -/

/-- The inner loop `for (int j = 0; j < tasks.size(); j++)` of `computeDownwardRanks`:
when `i` occurs among the dependencies of task `j`,
`downwardRanks[i] = max(downwardRanks[i], downwardRanks[j] + tasks[j].executionTime)`. -/
def downwardInner (tasks : List Task) (i : Nat) : List Nat → List Int → Option (List Int)
  | [], d => some d
  | j :: js, d =>
    match tasks[j]? with
    | none => none
    | some tj =>
      if i ∈ tj.dependencies then
        match d[i]?, d[j]? with
        | some a, some b =>
          downwardInner tasks i js (d.set i (max a (addInt b tj.executionTime)))
        | _, _ => none
      else downwardInner tasks i js d

/-- The outer loop of `computeDownwardRanks` over the task indices `is`. -/
def downwardLoop (tasks : List Task) : List Nat → List Int → Option (List Int)
  | [], d => some d
  | i :: is, d =>
    match downwardInner tasks i (List.range tasks.length) d with
    | none => none
    | some d1 => downwardLoop tasks is d1

/-- The function `computeDownwardRanks`: every entry starts at the task's execution time,
then the tasks are visited in reverse index order. -/
def computeDownwardRanks (tasks : List Task) : Option (List Int) :=
  downwardLoop tasks (List.range tasks.length).reverse (tasks.map (fun t => t.executionTime))

/-! ## Processor bookkeeping shared by the schedulers -/

/-- The loop `for (int i = 0; i < numProcessors; i++) processors.push_back(...)`: appends
`numProcessors` fresh processors whose time vector holds `slots` zeros. -/
def pushProcessors (numProcessors : Int) (slots : Nat) (processors : List Processor) :
    List Processor :=
  processors ++ (List.range numProcessors.toNat).map
    (fun (i : Nat) => ({ id := Int.ofNat i, availableTime := List.replicate slots 0,
                         totalExecutionTime := 0 } : Processor))

/-- The three statements that commit a task in `scheduleD_EDF`:
`finishTime = processors[p].availableTime[0] + executionTime`, stored back into slot 0,
and `totalExecutionTime += executionTime`. -/
def assignTo (processors : List Processor) (p : Nat) (exec : Int) : Option (List Processor) :=
  match processors[p]? with
  | none => none
  | some pr =>
    match pr.availableTime[0]? with
    | none => none
    | some a =>
      some (processors.set p
        { pr with availableTime := pr.availableTime.set 0 (addInt a exec),
                  totalExecutionTime := addInt pr.totalExecutionTime exec })

/-- A vector element selected by a C++ `int` index; a negative index is outside the vector. -/
def procAt (processors : List Processor) (idx : Int) : Option Processor :=
  if idx < 0 then none else processors[idx.toNat]?

/-! ## scheduleD_EDF (lines 66-125) -/

/-- The stable ascending sort by deadline standing for
`std::sort(tasks.begin(), tasks.end(), t1.deadline < t2.deadline)`. -/
def sortByDeadline (tasks : List Task) : List Task :=
  tasks.insertionSort (fun a b => a.deadline ≤ b.deadline)

/-- The scan of `std::min_element` after its first element: `smallest` is the current
minimum at index `best`, `p` is the index of the next element; the comparator is
`p1.availableTime[0] < p2.availableTime[0]`. -/
def minElementFrom : List Processor → Nat → Nat → Processor → Option Nat
  | [], _, best, _ => some best
  | pr :: rest, p, best, smallest =>
    match pr.availableTime[0]?, smallest.availableTime[0]? with
    | some a, some b =>
      if a < b then minElementFrom rest (p + 1) p pr
      else minElementFrom rest (p + 1) best smallest
    | _, _ => none

/-- The index `std::min_element(processors.begin(), processors.end(), ...) - processors.begin()`;
on an empty range `min_element` returns `end`, which is index 0. -/
def minElement : List Processor → Option Nat
  | [] => some 0
  | pr :: rest => minElementFrom rest 1 0 pr

/-- The loop `for (int i = 0; i < numProcessors; i++)` of the adaptive branch, which keeps
`processorIndex` and `earliestAvailableTime`; `i` is the index of the next processor. -/
def edfEarliest : List Processor → Nat → Int → Int → Option (Int × Int)
  | [], _, processorIndex, earliest => some (processorIndex, earliest)
  | pr :: rest, i, processorIndex, earliest =>
    match pr.availableTime[0]? with
    | none => none
    | some a =>
      if a < earliest then edfEarliest rest (i + 1) (i : Int) a
      else edfEarliest rest (i + 1) processorIndex earliest

/-- The local variables of `scheduleD_EDF` that live across loop iterations.  The local
`readyQueue` is only pushed to and popped from, never read, and is left out. -/
structure EdfState where
  processors : List Processor
  missedDeadlines : Int
  useDM : Bool
  successfullyScheduledTasks : Int
deriving DecidableEq, Repr

/-- One iteration of `for (const Task& task : tasks)` in `scheduleD_EDF`. -/
def edfStep (numProcessors : Int) (s : EdfState) (task : Task) : Option EdfState :=
  if s.useDM then
    match minElement s.processors with
    | none => none
    | some processorIndex =>
      match assignTo s.processors processorIndex task.executionTime with
      | none => none
      | some ps =>
        some { s with processors := ps,
                      successfullyScheduledTasks := s.successfullyScheduledTasks + 1 }
  else
    match edfEarliest (s.processors.take numProcessors.toNat) 0 (-1) INT_MAX with
    | none => none
    | some (processorIndex, earliestAvailableTime) =>
      if earliestAvailableTime ≤ task.deadline then
        if processorIndex < 0 then none
        else
          match assignTo s.processors processorIndex.toNat task.executionTime with
          | none => none
          | some ps =>
            some { s with processors := ps,
                          successfullyScheduledTasks := s.successfullyScheduledTasks + 1 }
      else
        if s.missedDeadlines + 1 ≥ 2 then
          some { s with missedDeadlines := 0, useDM := true }
        else
          some { s with missedDeadlines := s.missedDeadlines + 1 }

/-- The loop `for (const Task& task : tasks)` of `scheduleD_EDF`. -/
def edfLoop (numProcessors : Int) : List Task → EdfState → Option EdfState
  | [], s => some s
  | task :: rest, s =>
    match edfStep numProcessors s task with
    | none => none
    | some s1 => edfLoop numProcessors rest s1

/-- The function `scheduleD_EDF`.  `processors` is the collection the caller passes by
reference (the driver passes an empty one); the result records the sorted task vector,
since the function sorts the caller's vector in place. -/
def scheduleD_EDF (tasks : List Task) (numProcessors : Int) (processors : List Processor) :
    Option SchedResult :=
  let sorted := sortByDeadline tasks
  match edfLoop numProcessors sorted
      { processors := pushProcessors numProcessors tasks.length processors,
        missedDeadlines := 0, useDM := false, successfullyScheduledTasks := 0 } with
  | none => none
  | some s =>
    some { count := s.successfullyScheduledTasks, processors := s.processors, tasks := sorted }

/-! ## scheduleHEFT (lines 127-185) -/

/-- The loop `for (int pred : tasks[i].dependencies)` of the inline upward-rank pass:
`maxPredecessorRank = max(maxPredecessorRank, upwardRanks[pred])`. -/
def heftMaxPred (up : List Int) : List Nat → Int → Option Int
  | [], m => some m
  | pred :: rest, m =>
    match up[pred]? with
    | none => none
    | some b => heftMaxPred up rest (max m b)

/-- The inline upward-rank pass of `scheduleHEFT` over the task indices `is`:
`upwardRanks[i] = tasks[i].executionTime + maxPredecessorRank`. -/
def heftUpwardLoop (tasks : List Task) : List Nat → List Int → Option (List Int)
  | [], up => some up
  | i :: is, up =>
    match tasks[i]? with
    | none => none
    | some t =>
      match heftMaxPred up t.dependencies 0 with
      | none => none
      | some m =>
        if i < up.length then heftUpwardLoop tasks is (up.set i (addInt t.executionTime m))
        else none

/-- The upward ranks as `scheduleHEFT` computes them inline (lines 135-145). -/
def heftUpwardRanks (tasks : List Task) : Option (List Int) :=
  heftUpwardLoop tasks (List.range tasks.length) (List.replicate tasks.length 0)

/-- The loop `for (int j = 0; j < tasks.size(); j++)` of the inline downward-rank pass:
when `i` occurs among the dependencies of task `j`,
`maxSuccessorRank = max(maxSuccessorRank, downwardRanks[j])`. -/
def heftMaxSucc (tasks : List Task) (down : List Int) (i : Nat) : List Nat → Int → Option Int
  | [], m => some m
  | j :: js, m =>
    match tasks[j]? with
    | none => none
    | some tj =>
      if i ∈ tj.dependencies then
        match down[j]? with
        | none => none
        | some b => heftMaxSucc tasks down i js (max m b)
      else heftMaxSucc tasks down i js m

/-- The inline downward-rank pass of `scheduleHEFT` over the task indices `is`:
`downwardRanks[i] = tasks[i].executionTime + maxSuccessorRank`. -/
def heftDownwardLoop (tasks : List Task) : List Nat → List Int → Option (List Int)
  | [], down => some down
  | i :: is, down =>
    match tasks[i]? with
    | none => none
    | some t =>
      match heftMaxSucc tasks down i (List.range tasks.length) 0 with
      | none => none
      | some m =>
        if i < down.length then
          heftDownwardLoop tasks is (down.set i (addInt t.executionTime m))
        else none

/-- The downward ranks as `scheduleHEFT` computes them inline (lines 136, 147-156). -/
def heftDownwardRanks (tasks : List Task) : Option (List Int) :=
  heftDownwardLoop tasks (List.range tasks.length).reverse (List.replicate tasks.length 0)

/-- The index vector `sortedTasks` of `scheduleHEFT`: `0 .. n-1` sorted by decreasing
upward rank (stable). -/
def heftSortedTasks (n : Nat) (up : List Int) : List Nat :=
  (List.range n).insertionSort (fun a b => up.getD a 0 ≥ up.getD b 0)

/-- The loop `for (int p = 0; p < processors.size(); p++)` of `scheduleHEFT`, keeping
`minFinishTime` and `bestProcessor`; `p` is the index of the next processor and
`finishTime = max(processors[p].availableTime[0], upwardRanks[taskIndex]) + executionTime`. -/
def heftBest (rank exec : Int) : List Processor → Nat → Int → Int → Option (Int × Int)
  | [], _, minFinishTime, bestProcessor => some (minFinishTime, bestProcessor)
  | pr :: rest, p, minFinishTime, bestProcessor =>
    match pr.availableTime[0]? with
    | none => none
    | some a =>
      if addInt (max a rank) exec < minFinishTime then
        heftBest rank exec rest (p + 1) (addInt (max a rank) exec) p
      else heftBest rank exec rest (p + 1) minFinishTime bestProcessor

/-- The two statements that commit a task in `scheduleHEFT`:
`processors[bestProcessor].availableTime[0] = minFinishTime` and
`processors[bestProcessor].totalExecutionTime += executionTime`. -/
def heftCommit (processors : List Processor) (bestProcessor minFinishTime exec : Int) :
    Option (List Processor) :=
  match procAt processors bestProcessor with
  | none => none
  | some pr =>
    if 0 < pr.availableTime.length then
      some (processors.set bestProcessor.toNat
        { pr with availableTime := pr.availableTime.set 0 minFinishTime,
                  totalExecutionTime := addInt pr.totalExecutionTime exec })
    else none

/-- One iteration of `for (int taskIndex : sortedTasks)` in `scheduleHEFT`. -/
def heftStep (tasks : List Task) (up : List Int) (processors : List Processor)
    (taskIndex : Nat) : Option (List Processor) :=
  match tasks[taskIndex]?, up[taskIndex]? with
  | some t, some rank =>
    match heftBest rank t.executionTime processors 0 INT_MAX (-1) with
    | none => none
    | some (minFinishTime, bestProcessor) =>
      heftCommit processors bestProcessor minFinishTime t.executionTime
  | _, _ => none

/-- The loop `for (int taskIndex : sortedTasks)` of `scheduleHEFT`, with the running
count `successfullyScheduledTasks`. -/
def heftLoop (tasks : List Task) (up : List Int) :
    List Nat → List Processor → Int → Option (List Processor × Int)
  | [], processors, count => some (processors, count)
  | taskIndex :: rest, processors, count =>
    match heftStep tasks up processors taskIndex with
    | none => none
    | some ps => heftLoop tasks up rest ps (count + 1)

/-- The function `scheduleHEFT`. -/
def scheduleHEFT (tasks : List Task) (numProcessors : Int) (processors : List Processor) :
    Option SchedResult :=
  match heftUpwardRanks tasks, heftDownwardRanks tasks with
  | some up, some _ =>
    match heftLoop tasks up (heftSortedTasks tasks.length up)
        (pushProcessors numProcessors 1 processors) 0 with
    | none => none
    | some (ps, count) => some { count := count, processors := ps, tasks := tasks }
  | _, _ => none

/-! ## scheduleCPOP (lines 187-245) -/

/-- The value `*std::max_element(v.begin(), v.end())`; an empty vector has none. -/
def maxElement : List Int → Option Int
  | [] => none
  | a :: rest => some (rest.foldl max a)

/-- The index vector `sortedTasks` of `scheduleCPOP`: `0 .. n-1` sorted by decreasing
`upwardRanks + downwardRanks` (stable). -/
def cpopSortedTasks (n : Nat) (up down : List Int) : List Nat :=
  (List.range n).insertionSort
    (fun a b => addInt (up.getD a 0) (down.getD a 0) ≥ addInt (up.getD b 0) (down.getD b 0))

/-- The loop `for (int p = 0; p < processors.size(); p++)` of `scheduleCPOP`, keeping
`minFinishTime` and `bestProcessor`; the candidate is
`max_element(availableTime) + upwardRanks[taskIndex] + executionTime`. -/
def cpopBest (rank exec : Int) : List Processor → Nat → Int → Int → Option (Int × Int)
  | [], _, minFinishTime, bestProcessor => some (minFinishTime, bestProcessor)
  | pr :: rest, p, minFinishTime, bestProcessor =>
    match maxElement pr.availableTime with
    | none => none
    | some a =>
      if addInt (addInt a rank) exec < minFinishTime then
        cpopBest rank exec rest (p + 1) (addInt (addInt a rank) exec) p
      else cpopBest rank exec rest (p + 1) minFinishTime bestProcessor

/-- The two statements that commit a task in `scheduleCPOP`:
`processors[bestProcessor].availableTime[taskIndex] = minFinishTime` and
`processors[bestProcessor].totalExecutionTime += executionTime`. -/
def cpopCommit (processors : List Processor) (bestProcessor : Int) (taskIndex : Nat)
    (minFinishTime exec : Int) : Option (List Processor) :=
  match procAt processors bestProcessor with
  | none => none
  | some pr =>
    if taskIndex < pr.availableTime.length then
      some (processors.set bestProcessor.toNat
        { pr with availableTime := pr.availableTime.set taskIndex minFinishTime,
                  totalExecutionTime := addInt pr.totalExecutionTime exec })
    else none

/-- One iteration of `for (int taskIndex : sortedTasks)` in `scheduleCPOP`. -/
def cpopStep (tasks : List Task) (up : List Int) (processors : List Processor)
    (taskIndex : Nat) : Option (List Processor) :=
  match tasks[taskIndex]?, up[taskIndex]? with
  | some t, some rank =>
    match cpopBest rank t.executionTime processors 0 INT_MAX (-1) with
    | none => none
    | some (minFinishTime, bestProcessor) =>
      cpopCommit processors bestProcessor taskIndex minFinishTime t.executionTime
  | _, _ => none

/-- The loop `for (int taskIndex : sortedTasks)` of `scheduleCPOP`, with the running
count `successfullyScheduledTasks`. -/
def cpopLoop (tasks : List Task) (up : List Int) :
    List Nat → List Processor → Int → Option (List Processor × Int)
  | [], processors, count => some (processors, count)
  | taskIndex :: rest, processors, count =>
    match cpopStep tasks up processors taskIndex with
    | none => none
    | some ps => cpopLoop tasks up rest ps (count + 1)

/-- The function `scheduleCPOP`. -/
def scheduleCPOP (tasks : List Task) (numProcessors : Int) (processors : List Processor) :
    Option SchedResult :=
  match computeUpwardRanks tasks, computeDownwardRanks tasks with
  | some up, some down =>
    match cpopLoop tasks up (cpopSortedTasks tasks.length up down)
        (pushProcessors numProcessors tasks.length processors) 0 with
    | none => none
    | some (ps, count) => some { count := count, processors := ps, tasks := tasks }
  | _, _ => none

/-! ## The driver's makespan loop (lines 348-351, 377-380, 406-409) -/

/-- The loop `parallelExecutionTime = max(parallelExecutionTime, processor.availableTime[0])`
of `main`, started from `acc`. -/
def parallelExecutionTime : List Processor → Int → Option Int
  | [], acc => some acc
  | pr :: rest, acc =>
    match pr.availableTime[0]? with
    | none => none
    | some a => parallelExecutionTime rest (max acc a)

/-! ## The deadline-adaptive scheduler as the specification words it -/

/-- The two modes of the specified state machine. -/
inductive Mode where
  | Adaptive
  | DeadlineMonotonic
deriving DecidableEq, Repr

/-- A processor of the specified state machine: its next-free time and its busy
accumulator. -/
structure SpecProcessor where
  nextFree : Int
  busy : Int
deriving DecidableEq, Repr

/-- The state of the specified state machine. -/
structure SpecState where
  mode : Mode
  consecutiveMisses : Nat
  processors : List SpecProcessor
  scheduled : Int
deriving DecidableEq, Repr

/-- Specified selection: the processor with the smallest next-free time, ties broken by
lowest index; `p` is the index of the next processor, `best` the choice so far. -/
def specSelectFrom : List SpecProcessor → Nat → Nat → Int → Nat
  | [], _, best, _ => best
  | pr :: rest, p, best, bestTime =>
    if pr.nextFree < bestTime then specSelectFrom rest (p + 1) p pr.nextFree
    else specSelectFrom rest (p + 1) best bestTime

/-- Specified selection over a processor pool; there is no choice in an empty pool. -/
def specSelect : List SpecProcessor → Option (Nat × Int)
  | [] => none
  | pr :: rest =>
    let best := specSelectFrom rest 1 0 pr.nextFree
    match (pr :: rest)[best]? with
    | none => none
    | some chosen => some (best, chosen.nextFree)

/-- Specified bookkeeping of an assignment: advance the next-free time by the execution
time and add the execution time to the busy accumulator. -/
def specAssign (ps : List SpecProcessor) (p : Nat) (exec : Int) : List SpecProcessor :=
  match ps[p]? with
  | none => ps
  | some pr => ps.set p { nextFree := pr.nextFree + exec, busy := pr.busy + exec }

/-- One task of the specified state machine (section 4.2 of the specification): in
`DeadlineMonotonic` assign unconditionally; in `Adaptive` assign and reset the
consecutive-miss counter when the smallest next-free time is at most the deadline,
otherwise drop the task and increment the counter, switching to `DeadlineMonotonic`
(and resetting the counter) when it reaches 2. -/
def specStep (s : SpecState) (task : Task) : Option SpecState :=
  match specSelect s.processors with
  | none => none
  | some (p, time) =>
    match s.mode with
    | Mode.DeadlineMonotonic =>
      some { s with processors := specAssign s.processors p task.executionTime,
                    scheduled := s.scheduled + 1 }
    | Mode.Adaptive =>
      if time ≤ task.deadline then
        some { s with processors := specAssign s.processors p task.executionTime,
                      scheduled := s.scheduled + 1, consecutiveMisses := 0 }
      else if s.consecutiveMisses + 1 = 2 then
        some { s with mode := Mode.DeadlineMonotonic, consecutiveMisses := 0 }
      else
        some { s with consecutiveMisses := s.consecutiveMisses + 1 }

/-- The specified state machine run over a task sequence. -/
def specLoop : List Task → SpecState → Option SpecState
  | [], s => some s
  | task :: rest, s =>
    match specStep s task with
    | none => none
    | some s1 => specLoop rest s1

/-- The count the specified deadline-adaptive scheduler returns: tasks sorted ascending
by deadline, initial mode `Adaptive`, all processors free at time 0. -/
def specD_EDF (tasks : List Task) (numProcessors : Int) : Option Int :=
  match specLoop (sortByDeadline tasks)
      { mode := Mode.Adaptive, consecutiveMisses := 0,
        processors := List.replicate numProcessors.toNat { nextFree := 0, busy := 0 },
        scheduled := 0 } with
  | none => none
  | some s => some s.scheduled

/-! ## Specification vocabulary for the rank claims -/

/-- The execution time of task `i` (0 outside the list). -/
def execOf (tasks : List Task) (i : Nat) : Int :=
  match tasks[i]? with
  | some t => t.executionTime
  | none => 0

/-- The dependency list of task `i` (empty outside the list). -/
def depsOf (tasks : List Task) (i : Nat) : List Nat :=
  match tasks[i]? with
  | some t => t.dependencies
  | none => []

/-- Every dependency index is strictly less than the task's own index. -/
def DepsBelow (tasks : List Task) : Prop :=
  ∀ i, i < tasks.length → ∀ pred ∈ depsOf tasks i, pred < i

instance (tasks : List Task) : Decidable (DepsBelow tasks) := by
  unfold DepsBelow; infer_instance

/-- Every execution time is positive. -/
def ExecPositive (tasks : List Task) : Prop :=
  ∀ i, i < tasks.length → 0 < execOf tasks i

instance (tasks : List Task) : Decidable (ExecPositive tasks) := by
  unfold ExecPositive; infer_instance

/-- Every execution time is non-negative. -/
def ExecNonneg (tasks : List Task) : Prop :=
  ∀ i, i < tasks.length → 0 ≤ execOf tasks i

instance (tasks : List Task) : Decidable (ExecNonneg tasks) := by
  unfold ExecNonneg; infer_instance

/-- A well-formed task list: dependency indices below the task's own index and positive
execution times. -/
def WellFormed (tasks : List Task) : Prop := DepsBelow tasks ∧ ExecPositive tasks

instance (tasks : List Task) : Decidable (WellFormed tasks) := by
  unfold WellFormed; infer_instance

/-- A dependency path: a list of task indices in which every task is a recorded
dependency of the task that follows it. -/
def IsDepPath (tasks : List Task) (p : List Nat) : Prop :=
  List.Chain' (fun a b => a ∈ depsOf tasks b) p

instance (tasks : List Task) (p : List Nat) : Decidable (IsDepPath tasks p) := by
  unfold IsDepPath; infer_instance

/-- A chain task list: task 0 has no dependencies and each task `i > 0` depends exactly
on task `i - 1`. -/
def IsChainList (tasks : List Task) : Prop :=
  ∀ i, i < tasks.length → depsOf tasks i = if i = 0 then [] else [i - 1]

instance (tasks : List Task) : Decidable (IsChainList tasks) := by
  unfold IsChainList; infer_instance

/-- The sum `executionTime[0] + ... + executionTime[i]`. -/
def execSum (tasks : List Task) (i : Nat) : Int :=
  ((List.range (i + 1)).map (execOf tasks)).sum

/-- The value `max(executionTime[i], max over all tasks j whose dependency set contains i
of (d[j] + executionTime[j]))` for a rank vector `d`. -/
def maxOverDependents (tasks : List Task) (d : List Int) (i : Nat) : Int :=
  ((List.range tasks.length).filter (fun j => decide (i ∈ depsOf tasks j))).foldl
    (fun acc j => max acc (d.getD j 0 + execOf tasks j)) (execOf tasks i)

/-- The sum of all execution times as a mathematical integer; `main` accumulates the same
sum in its `int` variable `sequentialExecutionTime` (lines 329-332). -/
def sequentialExecutionTime (tasks : List Task) : Int :=
  (tasks.map (fun t => t.executionTime)).sum

/-- The candidate finish time of `scheduleHEFT` on one processor, the `int`
`max(availableTime[0], upwardRank) + executionTime`. -/
def heftCandidate (rank exec : Int) (pr : Processor) : Int :=
  addInt (max (pr.availableTime.getD 0 0) rank) exec

/-- The candidate finish time of `scheduleCPOP` on one processor, the `int`
`max_element(availableTime) + upwardRank + executionTime`. -/
def cpopCandidate (rank exec : Int) (pr : Processor) : Int :=
  addInt (addInt ((maxElement pr.availableTime).getD 0) rank) exec

/-- The sum of the execution times of the tasks on a path. -/
def pathWeight (tasks : List Task) (p : List Nat) : Int :=
  (p.map (execOf tasks)).sum

/-- A scheduler call returned `count` and left processor 0 with `finish` in slot 0 of its
time vector and `busy` in its busy accumulator. -/
def LeavesProcessorZero (r : Option SchedResult) (count finish busy : Int) : Prop :=
  r.map (fun res => (res.count,
      res.processors[0]?.map (fun pr => (pr.availableTime[0]?, pr.totalExecutionTime))))
    = some (count, some (some finish, busy))

instance (r : Option SchedResult) (count finish busy : Int) :
    Decidable (LeavesProcessorZero r count finish busy) := by
  unfold LeavesProcessorZero; infer_instance

/-- The recurrence that an upward-rank vector satisfies at task `i`. -/
def UpRec (tasks : List Task) (up : List Int) (i : Nat) : Prop :=
  execOf tasks i ≤ up.getD i 0 ∧
  (∀ pred ∈ depsOf tasks i, up.getD pred 0 + execOf tasks i ≤ up.getD i 0) ∧
  (up.getD i 0 = execOf tasks i ∨
    ∃ pred ∈ depsOf tasks i, up.getD i 0 = up.getD pred 0 + execOf tasks i)

/-- The recurrence that a downward-rank vector satisfies at task `i`. -/
def DownRec (tasks : List Task) (d : List Int) (i : Nat) : Prop :=
  execOf tasks i ≤ d.getD i 0 ∧
  (∀ j, j < tasks.length → i ∈ depsOf tasks j → d.getD j 0 + execOf tasks j ≤ d.getD i 0) ∧
  (d.getD i 0 = execOf tasks i ∨
    ∃ j, j < tasks.length ∧ i ∈ depsOf tasks j ∧ d.getD i 0 = d.getD j 0 + execOf tasks j)

/-- The recurrence that the inline upward-rank vector of `scheduleHEFT` satisfies at task
`i`: own execution time plus the largest predecessor rank (0 when there is none). -/
def HeftUpRec (tasks : List Task) (up : List Int) (i : Nat) : Prop :=
  up.getD i 0 =
    execOf tasks i + (depsOf tasks i).foldl (fun acc x => max acc (up.getD x 0)) 0

/-! ## Concrete task lists -/

/-- The diamond with a shortcut used to instantiate the rank theorems: task 1 depends
on task 0, task 2 on tasks 0 and 1. -/
def rankExample : List Task :=
  [⟨1, 5, 3, []⟩, ⟨2, 6, 1, [0]⟩, ⟨3, 7, 2, [0, 1]⟩]

/-- A three-task chain with execution times 2, 1 and 5. -/
def chainExample : List Task :=
  [⟨1, 5, 2, []⟩, ⟨2, 6, 1, [0]⟩, ⟨3, 7, 5, [1]⟩]

/-- A two-task chain whose execution times are both 2000000000: each fits an `int`, their
sum does not. -/
def overflowChain : List Task :=
  [⟨1, 10, 2000000000, []⟩, ⟨2, 10, 2000000000, [0]⟩]

/-- Task 0 (execution time 1) is the only dependency of task 1 (execution time
2000000000). -/
def downwardOverflowExample : List Task :=
  [⟨1, 10, 1, []⟩, ⟨2, 10, 2000000000, [0]⟩]

/-- A single task with execution time 1500000000. -/
def singleLongTask : List Task := [⟨1, 10, 1500000000, []⟩]

/-- Two independent tasks with execution time 1000000000 each. -/
def twoLongTasks : List Task := [⟨1, 10, 1000000000, []⟩, ⟨2, 10, 1000000000, []⟩]

/-- Five tasks already in deadline order, as (deadline, executionTime):
(1, 5), (2, 1), (5, 5), (6, 1), (7, 1). -/
def missResetExample : List Task :=
  [⟨1, 1, 5, []⟩, ⟨2, 2, 1, []⟩, ⟨3, 5, 5, []⟩, ⟨4, 6, 1, []⟩, ⟨5, 7, 1, []⟩]

/-- Scenario B: two tasks with execution time 5 and deadline 1. -/
def scenarioB : List Task := [⟨1, 1, 5, []⟩, ⟨2, 1, 5, []⟩]

/-- Scenario A: a single task with execution time 3, deadline 10 and no dependencies. -/
def scenarioA : List Task := [⟨1, 10, 3, []⟩]

/-- Scenario C: two tasks without dependencies with execution time 4 and 6. -/
def scenarioC : List Task := [⟨1, 20, 4, []⟩, ⟨2, 20, 6, []⟩]

/-- Task 0 (execution time 3) is the only dependency of task 1 (execution time 1). -/
def downwardExample : List Task := [⟨1, 5, 3, []⟩, ⟨2, 6, 1, [0]⟩]

/-- Two independent tasks with execution times 1073741823 and 1. -/
def heftSentinelExample : List Task := [⟨1, 10, 1073741823, []⟩, ⟨2, 10, 1, []⟩]

/-- Task 1 (execution time 2) depends on task 0 (execution time 715827881). -/
def cpopSentinelExample : List Task := [⟨1, 10, 715827881, []⟩, ⟨2, 10, 2, [0]⟩]

/-! ## Vocabulary for the run of scheduleD_EDF -/

/-- The state in which the driver's call of `scheduleD_EDF` (empty incoming processor
collection) enters its task loop. -/
def edfInitial (tasks : List Task) (numProcessors : Int) : EdfState :=
  { processors := pushProcessors numProcessors tasks.length [],
    missedDeadlines := 0, useDM := false, successfullyScheduledTasks := 0 }

/-- The state of `scheduleD_EDF` after the first `k` tasks of the deadline-sorted order. -/
def edfStateAfter (tasks : List Task) (numProcessors : Int) (k : Nat) : Option EdfState :=
  edfLoop numProcessors ((sortByDeadline tasks).take k) (edfInitial tasks numProcessors)

/-- The task at position `k` of the deadline-sorted order is dropped: the loop reaches
the position, gets past it, and the count of scheduled tasks is unchanged. -/
def DroppedAt (tasks : List Task) (numProcessors : Int) (k : Nat) : Prop :=
  k < tasks.length ∧
  ∃ s s1, edfStateAfter tasks numProcessors k = some s ∧
    edfStateAfter tasks numProcessors (k + 1) = some s1 ∧
    s1.successfullyScheduledTasks = s.successfullyScheduledTasks

/-- The task at position `j` of the deadline-sorted order is assigned without a deadline
check and counted: the loop reaches it in the `useDM` branch, commits it to the processor
that `min_element` selects, increments the count and stays in that branch. -/
def AssignedUncheckedAt (tasks : List Task) (numProcessors : Int) (j : Nat) : Prop :=
  ∃ s task p ps, edfStateAfter tasks numProcessors j = some s ∧
    (sortByDeadline tasks)[j]? = some task ∧ s.useDM = true ∧
    minElement s.processors = some p ∧
    assignTo s.processors p task.executionTime = some ps ∧
    edfStateAfter tasks numProcessors (j + 1) =
      some { s with processors := ps,
                    successfullyScheduledTasks := s.successfullyScheduledTasks + 1 }

/-- A processor collection that the loops can index: it is non-empty and every time
vector has a slot 0. -/
def ProcsOk (ps : List Processor) : Prop :=
  ps ≠ [] ∧ ∀ pr ∈ ps, 0 < pr.availableTime.length

/-- The invariant of the task loop of `scheduleD_EDF` after `k` tasks: in the
deadline-checking branch the counter is 0 or 1 and counts the tasks dropped so far; in
the `useDM` branch exactly two tasks have been dropped. -/
def EdfInv (k : Nat) (s : EdfState) : Prop :=
  ProcsOk s.processors ∧
  ((s.useDM = false ∧ 0 ≤ s.missedDeadlines ∧ s.missedDeadlines ≤ 1 ∧
      s.successfullyScheduledTasks + s.missedDeadlines = k) ∨
   (s.useDM = true ∧ s.successfullyScheduledTasks + 2 = k))

/-- Four tasks in deadline order, as (deadline, executionTime): (1, 5), (2, 1), (3, 1),
(4, 1); with one processor the second and third are dropped. -/
def twoDropsExample : List Task :=
  [⟨1, 1, 5, []⟩, ⟨2, 2, 1, []⟩, ⟨3, 3, 1, []⟩, ⟨4, 4, 1, []⟩]

/-! ## Vocabulary for the driver and the processor collection -/

/-- The largest entry over all slots of all processors' time vectors (no value when there
is no slot at all). -/
def maxRecordedFinish (ps : List Processor) : Option Int :=
  maxElement (ps.flatMap (fun pr => pr.availableTime))

/-- The sum over all processors of the busy accumulator `totalExecutionTime`. -/
def busySum (ps : List Processor) : Int :=
  (ps.map (fun pr => pr.totalExecutionTime)).sum

/-- Task 1 (deadline 5) depends on task 0 (deadline 10): sorting by deadline swaps
them. -/
def reorderExample : List Task := [⟨1, 10, 3, []⟩, ⟨2, 5, 1, [0]⟩]

/-- Two independent tasks with execution times 1 and 6. -/
def makespanExample : List Task := [⟨1, 10, 1, []⟩, ⟨2, 10, 6, []⟩]

/-- The first task (deadline 0) runs for 2147483647 time units, the second has deadline
2147483647. -/
def edfSentinelExample : List Task := [⟨1, 0, 2147483647, []⟩, ⟨2, 2147483647, 1, []⟩]

/-- A single task with deadline 5 and execution time 3. -/
def singleTaskExample : List Task := [⟨1, 5, 3, []⟩]

/-! ## Vector lemmas -/

theorem getElem?_eq_some_getD (l : List Int) (i : Nat) (h : i < l.length) :
    l[i]? = some (l.getD i 0) := by
  rw [List.getD_eq_getElem?_getD, List.getElem?_eq_getElem h]; rfl

theorem getD_set_self (l : List Int) (i : Nat) (v : Int) (h : i < l.length) :
    (l.set i v).getD i 0 = v := by
  rw [List.getD_eq_getElem?_getD, List.getElem?_set_self h]; rfl

theorem getD_set_ne (l : List Int) (i j : Nat) (v : Int) (h : i ≠ j) :
    (l.set i v).getD j 0 = l.getD j 0 := by
  rw [List.getD_eq_getElem?_getD, List.getD_eq_getElem?_getD, List.getElem?_set_ne h]

theorem set_getD_self (l : List Int) (i : Nat) (h : i < l.length) :
    l.set i (l.getD i 0) = l := by
  apply List.ext_getElem?
  intro j
  by_cases hij : i = j
  · subst hij
    rw [List.getElem?_set_self h, getElem?_eq_some_getD l i h]
  · rw [List.getElem?_set_ne hij]

theorem execOf_eq (tasks : List Task) (i : Nat) (t : Task) (h : tasks[i]? = some t) :
    execOf tasks i = t.executionTime := by
  simp [execOf, h]

theorem depsOf_eq (tasks : List Task) (i : Nat) (t : Task) (h : tasks[i]? = some t) :
    depsOf tasks i = t.dependencies := by
  simp [depsOf, h]

theorem getD_map_exec (tasks : List Task) (i : Nat) :
    (tasks.map (fun t => t.executionTime)).getD i 0 = execOf tasks i := by
  rw [List.getD_eq_getElem?_getD, List.getElem?_map]
  unfold execOf
  cases tasks[i]? <;> rfl

/-! ## Folding a maximum over a list of candidates -/

theorem foldl_max_congr {α : Type} (g h : α → Int) (ds : List α) (a : Int)
    (hgh : ∀ x ∈ ds, g x = h x) :
    ds.foldl (fun acc x => max acc (g x)) a = ds.foldl (fun acc x => max acc (h x)) a := by
  induction ds generalizing a with
  | nil => rfl
  | cons d rest ih =>
    simp only [List.foldl_cons]
    rw [hgh d (List.mem_cons_self _ _)]
    exact ih _ (fun x hx => hgh x (List.mem_cons_of_mem _ hx))

theorem foldl_max_ge_init {α : Type} (g : α → Int) (ds : List α) (a : Int) :
    a ≤ ds.foldl (fun acc x => max acc (g x)) a := by
  induction ds generalizing a with
  | nil => exact le_refl _
  | cons d rest ih =>
    simp only [List.foldl_cons]
    exact le_trans (le_max_left _ _) (ih _)

theorem foldl_max_ge_mem {α : Type} (g : α → Int) (ds : List α) (a : Int) (x : α)
    (hx : x ∈ ds) :
    g x ≤ ds.foldl (fun acc x => max acc (g x)) a := by
  induction ds generalizing a with
  | nil => cases hx
  | cons d rest ih =>
    simp only [List.foldl_cons]
    rcases List.mem_cons.mp hx with h | h
    · subst h
      exact le_trans (le_max_right _ _) (foldl_max_ge_init g rest _)
    · exact ih _ h

theorem foldl_max_attained {α : Type} (g : α → Int) (ds : List α) (a : Int) :
    ds.foldl (fun acc x => max acc (g x)) a = a ∨
      ∃ x ∈ ds, ds.foldl (fun acc x => max acc (g x)) a = g x := by
  induction ds generalizing a with
  | nil => exact Or.inl rfl
  | cons d rest ih =>
    simp only [List.foldl_cons]
    rcases ih (max a (g d)) with h | ⟨x, hx, h⟩
    · rcases max_choice a (g d) with hm | hm
      · left; rw [h, hm]
      · right; exact ⟨d, List.mem_cons_self _ _, by rw [h, hm]⟩
    · right; exact ⟨x, List.mem_cons_of_mem _ hx, h⟩

theorem foldl_max_unique {α : Type} (g : α → Int) (ds : List α) (a v : Int) (ha : a ≤ v)
    (hub : ∀ x ∈ ds, g x ≤ v) (hatt : v = a ∨ ∃ x ∈ ds, v = g x) :
    ds.foldl (fun acc x => max acc (g x)) a = v := by
  apply le_antisymm
  · rcases foldl_max_attained g ds a with h | ⟨x, hx, h⟩
    · rw [h]; exact ha
    · rw [h]; exact hub x hx
  · rcases hatt with h | ⟨x, hx, h⟩
    · rw [h]; exact foldl_max_ge_init g ds a
    · rw [h]; exact foldl_max_ge_mem g ds a x hx

/-! ## 32-bit addition and prefix sums of execution times -/

theorem INT_MAX_eq : INT_MAX = 2147483647 := rfl

/-- An `int` sum whose mathematical value lies in the `int` range is that value. -/
theorem addInt_eq (a b : Int) (h1 : -2147483648 ≤ a + b) (h2 : a + b ≤ INT_MAX) :
    addInt a b = a + b := by
  have h3 := INT_MAX_eq
  unfold addInt wrap32
  omega

theorem execSum_zero (tasks : List Task) : execSum tasks 0 = execOf tasks 0 := by
  unfold execSum
  simp [List.range_succ]

theorem execSum_succ (tasks : List Task) (i : Nat) :
    execSum tasks (i + 1) = execSum tasks i + execOf tasks (i + 1) := by
  unfold execSum
  rw [List.range_succ, List.map_append, List.sum_append]
  simp

theorem execSum_nonneg (tasks : List Task) (i : Nat) (hi : i < tasks.length)
    (hnn : ExecNonneg tasks) : 0 ≤ execSum tasks i := by
  induction i with
  | zero => rw [execSum_zero]; exact hnn 0 hi
  | succ i ih =>
    rw [execSum_succ]
    have := ih (by omega)
    have := hnn (i + 1) hi
    omega

theorem sequentialExecutionTime_eq (tasks : List Task) :
    sequentialExecutionTime tasks = ((List.range tasks.length).map (execOf tasks)).sum := by
  unfold sequentialExecutionTime
  congr 1
  apply List.ext_getElem?
  intro i
  rw [List.getElem?_map, List.getElem?_map]
  by_cases hi : i < tasks.length
  · rw [List.getElem?_range hi, List.getElem?_eq_getElem hi]
    simp [execOf, List.getElem?_eq_getElem hi]
  · rw [List.getElem?_eq_none (by omega), List.getElem?_eq_none (by simp; omega)]
    rfl

theorem execSum_mono (tasks : List Task) (hnn : ExecNonneg tasks)
    (i j : Nat) (hij : i ≤ j) (hj : j < tasks.length) : execSum tasks i ≤ execSum tasks j := by
  induction j with
  | zero =>
    have : i = 0 := by omega
    rw [this]
  | succ j ih =>
    by_cases h : i = j + 1
    · rw [h]
    · have h1 := ih (by omega) (by omega)
      have h2 := hnn (j + 1) hj
      rw [execSum_succ]
      omega

theorem execSum_le_total (tasks : List Task)
    (hnn : ExecNonneg tasks) (i : Nat) (hi : i < tasks.length) :
    execSum tasks i ≤ sequentialExecutionTime tasks := by
  have h := execSum_mono tasks hnn i (tasks.length - 1) (by omega) (by omega)
  have h2 : execSum tasks (tasks.length - 1) = sequentialExecutionTime tasks := by
    rw [sequentialExecutionTime_eq]
    unfold execSum
    have : tasks.length - 1 + 1 = tasks.length := by omega
    rw [this]
  rw [h2] at h
  exact h

theorem execOf_le_execSum (tasks : List Task)
    (hnn : ExecNonneg tasks) (i : Nat) (hi : i < tasks.length) :
    execOf tasks i ≤ execSum tasks i := by
  cases i with
  | zero => rw [execSum_zero]
  | succ i =>
    rw [execSum_succ]
    have := execSum_nonneg tasks i (by omega) hnn
    omega

theorem execSum_add_le (tasks : List Task)
    (hnn : ExecNonneg tasks) (x i : Nat) (hx : x < i)
    (hi : i < tasks.length) : execSum tasks x + execOf tasks i ≤ execSum tasks i := by
  cases i with
  | zero => omega
  | succ i =>
    rw [execSum_succ]
    have := execSum_mono tasks hnn x i (by omega) (by omega)
    omega

theorem execPositive_nonneg (tasks : List Task) (hp : ExecPositive tasks) :
    ExecNonneg tasks :=
  fun j hj => le_of_lt (hp j hj)

theorem sequentialExecutionTime_nonneg (tasks : List Task) (hnn : ExecNonneg tasks) :
    0 ≤ sequentialExecutionTime tasks := by
  rw [sequentialExecutionTime_eq]
  apply List.sum_nonneg
  intro x hx
  obtain ⟨i, hi, rfl⟩ := List.mem_map.mp hx
  exact hnn i (List.mem_range.mp hi)

/-! ## The loops of computeUpwardRanks -/

theorem upwardInner_eq (exec : Int) (i : Nat) (ds : List Nat) (up : List Int)
    (hi : i < up.length) (hds : ∀ pred ∈ ds, pred < up.length ∧ pred ≠ i) :
    upwardInner exec i ds up =
      some (up.set i (ds.foldl (fun acc pred => max acc (addInt (up.getD pred 0) exec))
        (up.getD i 0))) := by
  induction ds generalizing up with
  | nil =>
    unfold upwardInner
    rw [List.foldl_nil, set_getD_self up i hi]
  | cons pred rest ih =>
    have hp := hds pred (List.mem_cons_self _ _)
    have hrest : ∀ x ∈ rest,
        x < (up.set i (max (up.getD i 0) (addInt (up.getD pred 0) exec))).length ∧ x ≠ i := by
      intro x hx
      rw [List.length_set]
      exact hds x (List.mem_cons_of_mem _ hx)
    have hi1 : i < (up.set i (max (up.getD i 0) (addInt (up.getD pred 0) exec))).length := by
      rw [List.length_set]; exact hi
    unfold upwardInner
    rw [getElem?_eq_some_getD up i hi, getElem?_eq_some_getD up pred hp.1]
    simp only
    rw [ih _ hi1 hrest, List.set_set, getD_set_self _ _ _ hi, List.foldl_cons]
    congr 2
    apply foldl_max_congr
    intro x hx
    rw [getD_set_ne _ _ _ _ (fun h => (hds x (List.mem_cons_of_mem _ hx)).2 h.symm)]

/-- When the recurrence holds at every task below `k` and the execution times are
non-negative, every rank below `k` lies between the task's execution time and the sum of
the execution times up to the task. -/
theorem upRec_bounds (tasks : List Task) (hw : DepsBelow tasks) (hnn : ExecNonneg tasks)
    (up : List Int) (k : Nat) (hk : k ≤ tasks.length)
    (hrec : ∀ i, i < k → UpRec tasks up i) (i : Nat) (hi : i < k) :
    execOf tasks i ≤ up.getD i 0 ∧ up.getD i 0 ≤ execSum tasks i := by
  induction i using Nat.strong_induction_on with
  | _ i ih =>
    obtain ⟨h1, _, h3⟩ := hrec i hi
    refine ⟨h1, ?_⟩
    rcases h3 with h0 | ⟨x, hx, hx2⟩
    · have := execOf_le_execSum tasks hnn i (by omega)
      omega
    · have hlt : x < i := hw i (by omega) x hx
      have h1 := (ih x hlt (by omega)).2
      have h2 := execSum_add_le tasks hnn x i hlt (by omega)
      omega

theorem upwardLoop_inv (tasks : List Task) (hw : DepsBelow tasks) (hnn : ExecNonneg tasks)
    (hS : sequentialExecutionTime tasks ≤ INT_MAX) (m k : Nat)
    (up : List Int) (hkm : k + m = tasks.length) (hlen : up.length = tasks.length)
    (hdone : ∀ i, i < k → UpRec tasks up i)
    (htodo : ∀ i, k ≤ i → i < tasks.length → up.getD i 0 = execOf tasks i) :
    ∃ r, upwardLoop tasks (List.range' k m) up = some r ∧ r.length = tasks.length ∧
      ∀ i, i < tasks.length → UpRec tasks r i := by
  induction m generalizing k up with
  | zero =>
    refine ⟨up, by simp [upwardLoop], hlen, ?_⟩
    intro i hi
    exact hdone i (by omega)
  | succ m ih =>
    have hk : k < tasks.length := by omega
    obtain ⟨t, ht⟩ : ∃ t, tasks[k]? = some t := ⟨tasks[k], List.getElem?_eq_getElem hk⟩
    have hdeps : depsOf tasks k = t.dependencies := depsOf_eq tasks k t ht
    have hexec : execOf tasks k = t.executionTime := execOf_eq tasks k t ht
    have hds : ∀ pred ∈ t.dependencies, pred < up.length ∧ pred ≠ k := by
      intro pred hpred
      have := hw k hk pred (by rw [hdeps]; exact hpred)
      omega
    rw [List.range'_succ]
    unfold upwardLoop
    rw [ht]
    simp only
    rw [upwardInner_eq t.executionTime k t.dependencies up (by omega) hds]
    simp only
    have hkk : k < up.length := by omega
    have hfold : t.dependencies.foldl
          (fun acc pred => max acc (addInt (up.getD pred 0) t.executionTime)) (up.getD k 0)
        = t.dependencies.foldl
          (fun acc pred => max acc (up.getD pred 0 + t.executionTime)) (up.getD k 0) := by
      apply foldl_max_congr (fun pred => addInt (up.getD pred 0) t.executionTime)
        (fun pred => up.getD pred 0 + t.executionTime)
      intro x hx
      have hxk : x < k := hw k hk x (by rw [hdeps]; exact hx)
      have hb := upRec_bounds tasks hw hnn up k (by omega) hdone x hxk
      have h0 := hnn x (by omega)
      have h1 := execSum_add_le tasks hnn x k hxk hk
      have h2 := execSum_le_total tasks hnn k hk
      have h3 := hnn k hk
      rw [hexec] at h1 h3
      exact addInt_eq _ _ (by omega) (by omega)
    rw [hfold]
    apply ih (k + 1) _ (by omega) (by rw [List.length_set]; exact hlen)
    · intro i hi
      by_cases hik : i = k
      · subst hik
        unfold UpRec
        rw [getD_set_self _ _ _ hkk, hdeps, hexec, htodo i (le_refl _) hk, hexec]
        refine ⟨foldl_max_ge_init _ _ _, ?_, ?_⟩
        · intro pred hpred
          rw [getD_set_ne _ _ _ _ (fun h => (hds pred hpred).2 h.symm)]
          exact foldl_max_ge_mem (fun x => up.getD x 0 + t.executionTime) _ _ pred hpred
        · rcases foldl_max_attained (fun x => up.getD x 0 + t.executionTime)
              t.dependencies t.executionTime with h | ⟨x, hx, h⟩
          · exact Or.inl h
          · right
            refine ⟨x, hx, ?_⟩
            rw [getD_set_ne _ _ _ _ (fun h => (hds x hx).2 h.symm)]
            exact h
      · have hlt : i < k := by omega
        obtain ⟨h1, h2, h3⟩ := hdone i hlt
        have hpk : ∀ pred ∈ depsOf tasks i, k ≠ pred := by
          intro pred hpred
          have := hw i (by omega) pred hpred
          omega
        unfold UpRec
        rw [getD_set_ne _ _ _ _ (fun h => hik h.symm)]
        refine ⟨h1, ?_, ?_⟩
        · intro pred hpred
          rw [getD_set_ne _ _ _ _ (hpk pred hpred)]
          exact h2 pred hpred
        · rcases h3 with h | ⟨x, hx, h⟩
          · exact Or.inl h
          · right
            refine ⟨x, hx, ?_⟩
            rw [getD_set_ne _ _ _ _ (hpk x hx)]
            exact h
    · intro i hki hi
      rw [getD_set_ne _ _ _ _ (by omega)]
      exact htodo i (by omega) hi

/-- On a task list whose dependency indices lie below the task's own index, whose
execution times are non-negative and sum to at most `INT_MAX`, `computeUpwardRanks`
returns a vector of the list's length that satisfies the upward recurrence at every
task. -/
theorem computeUpwardRanks_rec (tasks : List Task) (hw : DepsBelow tasks)
    (hnn : ExecNonneg tasks) (hS : sequentialExecutionTime tasks ≤ INT_MAX) :
    ∃ r, computeUpwardRanks tasks = some r ∧ r.length = tasks.length ∧
      ∀ i, i < tasks.length → UpRec tasks r i := by
  unfold computeUpwardRanks
  rw [List.range_eq_range']
  apply upwardLoop_inv tasks hw hnn hS tasks.length 0 _ (by omega) (by simp)
  · intro i hi; omega
  · intro i _ _
    exact getD_map_exec tasks i

/-! ## Upward ranks and dependency paths -/

theorem upRec_path_le (tasks : List Task) (hw : DepsBelow tasks) (r : List Int)
    (hr : ∀ i, i < tasks.length → UpRec tasks r i) (q : List Nat) :
    List.Chain' (fun a b => b ∈ depsOf tasks a) q →
      ∀ i, q.head? = some i → i < tasks.length → (q.map (execOf tasks)).sum ≤ r.getD i 0 := by
  induction q with
  | nil => intro _ i h; simp at h
  | cons a rest ih =>
    intro hc i hhead hi
    have hai : a = i := by simpa using hhead
    subst hai
    cases rest with
    | nil => simpa using (hr a hi).1
    | cons j rest2 =>
      rw [List.chain'_cons] at hc
      have hj : j < a := hw a hi j hc.1
      have h1 := ih hc.2 j rfl (by omega)
      have h2 := (hr a hi).2.1 j hc.1
      rw [List.map_cons, List.sum_cons]
      omega

theorem upRec_path_attained (tasks : List Task) (hw : DepsBelow tasks) (r : List Int)
    (hr : ∀ i, i < tasks.length → UpRec tasks r i) (i : Nat) (hi : i < tasks.length) :
    ∃ q, List.Chain' (fun a b => b ∈ depsOf tasks a) q ∧ q.head? = some i ∧
      (q.map (execOf tasks)).sum = r.getD i 0 := by
  induction i using Nat.strong_induction_on with
  | _ i ih =>
    rcases (hr i hi).2.2 with h | ⟨pred, hpred, h⟩
    · exact ⟨[i], List.chain'_singleton i, rfl, by rw [h]; simp⟩
    · have hlt : pred < i := hw i hi pred hpred
      obtain ⟨q, hq, hhead, hsum⟩ := ih pred hlt (by omega)
      refine ⟨i :: q, ?_, rfl, ?_⟩
      · cases q with
        | nil => simp at hhead
        | cons b rest =>
          have hb : b = pred := by simpa using hhead
          subst hb
          exact List.Chain'.cons hpred hq
      · rw [List.map_cons, List.sum_cons, hsum, h]; omega

theorem isDepPath_reverse (tasks : List Task) (p : List Nat) :
    List.Chain' (fun a b => b ∈ depsOf tasks a) p.reverse ↔ IsDepPath tasks p := by
  unfold IsDepPath
  rw [List.chain'_reverse]
  rfl

theorem pathWeight_reverse (tasks : List Task) (p : List Nat) :
    pathWeight tasks p.reverse = pathWeight tasks p := by
  unfold pathWeight
  rw [List.map_reverse, List.sum_reverse]

/-- C5, as stated, fails: `overflowChain` has its dependency indices below the task's own
index and positive execution times, the path 0, 1 ends at task 1 and weighs 4000000000,
but the `int` sum at line 39 wraps to a negative value which `max` discards, so
`computeUpwardRanks` returns 2000000000 for task 1, less than the weight of that path. -/
theorem computeUpwardRanks_longest_path_counterexample :
    DepsBelow overflowChain ∧ ExecPositive overflowChain ∧
    addInt 2000000000 2000000000 = -294967296 ∧
    computeUpwardRanks overflowChain = some [2000000000, 2000000000] ∧
    IsDepPath overflowChain [0, 1] ∧ [0, 1].getLast? = some 1 ∧
    pathWeight overflowChain [0, 1] = 4000000000 ∧
    ¬ (∃ r, computeUpwardRanks overflowChain = some r ∧
        ∀ p, IsDepPath overflowChain p → p.getLast? = some 1 →
          pathWeight overflowChain p ≤ r.getD 1 0) := by
  have hpath : IsDepPath overflowChain [0, 1] := by
    unfold IsDepPath
    exact List.chain'_pair.mpr (by decide)
  refine ⟨by decide, by decide, by decide, by decide, hpath, by decide, by decide, ?_⟩
  rintro ⟨r, hr, h⟩
  have hr2 : computeUpwardRanks overflowChain = some [2000000000, 2000000000] := by decide
  rw [hr2] at hr
  cases hr
  have := h [0, 1] hpath rfl
  revert this
  decide

/-- C5 (amended): on a task list whose dependency indices all lie strictly below the
task's own index, whose execution times are non-negative and whose summed execution time
is at most `INT_MAX`, `computeUpwardRanks` returns a vector whose entry `i` is the
maximum, over all dependency paths that end at `i`, of the summed execution times on the
path: some path ending at `i` has exactly that weight and no path ending at `i` weighs
more. -/
theorem computeUpwardRanks_longest_path (tasks : List Task) (hw : DepsBelow tasks)
    (hnn : ExecNonneg tasks) (hS : sequentialExecutionTime tasks ≤ INT_MAX) :
    ∃ r, computeUpwardRanks tasks = some r ∧ r.length = tasks.length ∧
      ∀ i, i < tasks.length →
        (∃ p, IsDepPath tasks p ∧ p.getLast? = some i ∧ pathWeight tasks p = r.getD i 0) ∧
        (∀ p, IsDepPath tasks p → p.getLast? = some i → pathWeight tasks p ≤ r.getD i 0) := by
  obtain ⟨r, hr, hlen, hrec⟩ := computeUpwardRanks_rec tasks hw hnn hS
  refine ⟨r, hr, hlen, ?_⟩
  intro i hi
  constructor
  · obtain ⟨q, hq, hhead, hsum⟩ := upRec_path_attained tasks hw r hrec i hi
    refine ⟨q.reverse, ?_, ?_, ?_⟩
    · rw [← isDepPath_reverse, List.reverse_reverse]; exact hq
    · rw [List.getLast?_reverse]; exact hhead
    · rw [pathWeight_reverse]; exact hsum
  · intro p hp hlast
    have h := upRec_path_le tasks hw r hrec p.reverse ((isDepPath_reverse tasks p).mpr hp) i
      (by rw [List.head?_reverse]; exact hlast) hi
    rw [← pathWeight_reverse]
    exact h

/-- The hypotheses of the amended C5 hold on `rankExample`, and the theorem applies
there. -/
theorem computeUpwardRanks_longest_path_witness :
    DepsBelow rankExample ∧ ExecNonneg rankExample ∧
    sequentialExecutionTime rankExample ≤ INT_MAX ∧
    ∃ r, computeUpwardRanks rankExample = some r ∧ r.length = rankExample.length ∧
      ∀ i, i < rankExample.length →
        (∃ p, IsDepPath rankExample p ∧ p.getLast? = some i ∧
          pathWeight rankExample p = r.getD i 0) ∧
        (∀ p, IsDepPath rankExample p → p.getLast? = some i →
          pathWeight rankExample p ≤ r.getD i 0) :=
  ⟨by decide, by decide, by decide,
    computeUpwardRanks_longest_path rankExample (by decide) (by decide) (by decide)⟩

/-- C6, as stated, fails: `overflowChain` is well-formed and task 1 has the dependency 0,
but the `int` sum at line 39 wraps to a negative value which `max` discards, so
`computeUpwardRanks` returns for task 1 exactly its execution time 2000000000. -/
theorem computeUpwardRanks_ge_exec_counterexample :
    WellFormed overflowChain ∧
    computeUpwardRanks overflowChain = some [2000000000, 2000000000] ∧
    execOf overflowChain 1 = 2000000000 ∧ depsOf overflowChain 1 = [0] ∧
    ¬ (∃ r, computeUpwardRanks overflowChain = some r ∧
        ∀ i, i < overflowChain.length →
          execOf overflowChain i ≤ r.getD i 0 ∧
          (r.getD i 0 = execOf overflowChain i ↔ depsOf overflowChain i = [])) := by
  refine ⟨by decide, by decide, by decide, by decide, ?_⟩
  rintro ⟨r, hr, h⟩
  have hr2 : computeUpwardRanks overflowChain = some [2000000000, 2000000000] := by decide
  rw [hr2] at hr
  cases hr
  have h1 : ([2000000000, 2000000000] : List Int).getD 1 0 = execOf overflowChain 1 := by
    decide
  have := (h 1 (by decide)).2.mp h1
  revert this
  decide

/-- C6 (amended): on a well-formed task list (dependency indices below the task's own
index, positive execution times) whose summed execution time is at most `INT_MAX`,
`computeUpwardRanks` returns a vector with `upwardRank[i] ≥ executionTime[i]` for every
task, with equality exactly when task `i` has no dependencies. -/
theorem computeUpwardRanks_ge_exec (tasks : List Task) (hw : WellFormed tasks)
    (hS : sequentialExecutionTime tasks ≤ INT_MAX) :
    ∃ r, computeUpwardRanks tasks = some r ∧ r.length = tasks.length ∧
      ∀ i, i < tasks.length →
        execOf tasks i ≤ r.getD i 0 ∧
        (r.getD i 0 = execOf tasks i ↔ depsOf tasks i = []) := by
  obtain ⟨r, hr, hlen, hrec⟩ := computeUpwardRanks_rec tasks hw.1
    (execPositive_nonneg tasks hw.2) hS
  refine ⟨r, hr, hlen, ?_⟩
  intro i hi
  obtain ⟨h1, h2, h3⟩ := hrec i hi
  refine ⟨h1, ?_, ?_⟩
  · intro heq
    cases hd : depsOf tasks i with
    | nil => rfl
    | cons pred rest =>
      exfalso
      have hmem : pred ∈ depsOf tasks i := by rw [hd]; exact List.mem_cons_self _ _
      have hlt : pred < i := hw.1 i hi pred hmem
      have hp := (hrec pred (by omega)).1
      have hpos := hw.2 pred (by omega)
      have := h2 pred hmem
      omega
  · intro hd
    rcases h3 with h | ⟨pred, hpred, _⟩
    · exact h
    · rw [hd] at hpred; cases hpred

/-- The hypotheses of the amended C6 hold on `rankExample`, and the theorem applies
there. -/
theorem computeUpwardRanks_ge_exec_witness :
    WellFormed rankExample ∧ sequentialExecutionTime rankExample ≤ INT_MAX ∧
    ∃ r, computeUpwardRanks rankExample = some r ∧ r.length = rankExample.length ∧
      ∀ i, i < rankExample.length →
        execOf rankExample i ≤ r.getD i 0 ∧
        (r.getD i 0 = execOf rankExample i ↔ depsOf rankExample i = []) :=
  ⟨by decide, by decide, computeUpwardRanks_ge_exec rankExample (by decide) (by decide)⟩

/-- C7, as stated, fails: `overflowChain` is a chain with positive execution times, each
of which fits an `int`; the `int` sum at line 39 wraps to a negative value which `max`
discards, so the upward rank of task 1 is 2000000000, not the sum 4000000000. -/
theorem computeUpwardRanks_chain_counterexample :
    IsChainList overflowChain ∧ ExecPositive overflowChain ∧
    computeUpwardRanks overflowChain = some [2000000000, 2000000000] ∧
    execSum overflowChain 1 = 4000000000 ∧
    ¬ (∃ r, computeUpwardRanks overflowChain = some r ∧
        ∀ i, i < overflowChain.length → r.getD i 0 = execSum overflowChain i) := by
  refine ⟨by decide, by decide, by decide, by decide, ?_⟩
  rintro ⟨r, hr, h⟩
  have hr2 : computeUpwardRanks overflowChain = some [2000000000, 2000000000] := by decide
  rw [hr2] at hr
  cases hr
  have := h 1 (by decide)
  revert this
  decide

/-- C7 (amended): on a chain task list whose execution times are non-negative and sum to
at most `INT_MAX`, `computeUpwardRanks` returns
`upwardRank[i] = executionTime[0] + ... + executionTime[i]` for every task `i`. -/
theorem computeUpwardRanks_chain (tasks : List Task) (hc : IsChainList tasks)
    (hnn : ExecNonneg tasks) (hS : sequentialExecutionTime tasks ≤ INT_MAX) :
    ∃ r, computeUpwardRanks tasks = some r ∧ r.length = tasks.length ∧
      ∀ i, i < tasks.length → r.getD i 0 = execSum tasks i := by
  have hw : DepsBelow tasks := by
    intro i hi pred hpred
    rw [hc i hi] at hpred
    by_cases h0 : i = 0
    · simp [h0] at hpred
    · simp [h0] at hpred; omega
  obtain ⟨r, hr, hlen, hrec⟩ := computeUpwardRanks_rec tasks hw hnn hS
  refine ⟨r, hr, hlen, ?_⟩
  intro i hi
  induction i with
  | zero =>
    rcases (hrec 0 hi).2.2 with h | ⟨pred, hpred, _⟩
    · rw [h, execSum_zero]
    · rw [hc 0 hi] at hpred; simp at hpred
  | succ i ih =>
    have hprev := ih (by omega)
    have hmem : i ∈ depsOf tasks (i + 1) := by rw [hc (i + 1) hi]; simp
    obtain ⟨h1, h2, h3⟩ := hrec (i + 1) hi
    have hge := h2 i hmem
    have hs := execSum_nonneg tasks i (by omega) hnn
    rw [execSum_succ]
    rcases h3 with h | ⟨pred, hpred, h⟩
    · omega
    · rw [hc (i + 1) hi] at hpred
      simp at hpred
      subst hpred
      omega

/-- The hypotheses of the amended C7 hold on `chainExample`, and the theorem applies
there. -/
theorem computeUpwardRanks_chain_witness :
    IsChainList chainExample ∧ ExecNonneg chainExample ∧
    sequentialExecutionTime chainExample ≤ INT_MAX ∧
    ∃ r, computeUpwardRanks chainExample = some r ∧ r.length = chainExample.length ∧
      ∀ i, i < chainExample.length → r.getD i 0 = execSum chainExample i :=
  ⟨by decide, by decide, by decide,
    computeUpwardRanks_chain chainExample (by decide) (by decide) (by decide)⟩

/-! ## The loops of computeDownwardRanks -/

theorem downwardInner_eq (tasks : List Task) (i : Nat) (js : List Nat) (d : List Int)
    (hlen : d.length = tasks.length) (hi : i < d.length)
    (hjs : ∀ j ∈ js, j < tasks.length ∧ (i ∈ depsOf tasks j → j ≠ i)) :
    downwardInner tasks i js d =
      some (d.set i ((js.filter (fun j => decide (i ∈ depsOf tasks j))).foldl
        (fun acc j => max acc (addInt (d.getD j 0) (execOf tasks j))) (d.getD i 0))) := by
  induction js generalizing d with
  | nil =>
    unfold downwardInner
    rw [List.filter_nil, List.foldl_nil, set_getD_self d i hi]
  | cons j rest ih =>
    have hj := hjs j (List.mem_cons_self _ _)
    obtain ⟨tj, htj⟩ : ∃ t, tasks[j]? = some t := ⟨tasks[j], List.getElem?_eq_getElem hj.1⟩
    have hdeps : depsOf tasks j = tj.dependencies := depsOf_eq tasks j tj htj
    have hexec : execOf tasks j = tj.executionTime := execOf_eq tasks j tj htj
    unfold downwardInner
    rw [htj]
    simp only
    by_cases hmem : i ∈ tj.dependencies
    · have hmem2 : i ∈ depsOf tasks j := by rw [hdeps]; exact hmem
      rw [if_pos hmem, getElem?_eq_some_getD d i hi,
        getElem?_eq_some_getD d j (by rw [hlen]; exact hj.1)]
      simp only
      rw [ih _ (by rw [List.length_set]; exact hlen) (by rw [List.length_set]; exact hi)
        (fun x hx => hjs x (List.mem_cons_of_mem _ hx))]
      rw [List.set_set, getD_set_self _ _ _ hi, List.filter_cons_of_pos (by simpa using hmem2),
        List.foldl_cons, hexec]
      congr 2
      apply foldl_max_congr
      intro x hx
      have hx2 := List.mem_filter.mp hx
      have hne : x ≠ i := (hjs x (List.mem_cons_of_mem _ hx2.1)).2 (by simpa using hx2.2)
      rw [getD_set_ne _ _ _ _ (fun h => hne h.symm)]
    · have hmem2 : ¬ i ∈ depsOf tasks j := by rw [hdeps]; exact hmem
      rw [if_neg hmem, ih d hlen hi (fun x hx => hjs x (List.mem_cons_of_mem _ hx)),
        List.filter_cons_of_neg (by simpa using hmem2)]


theorem downwardInner_some (tasks : List Task) (i : Nat) (js : List Nat) (d : List Int)
    (hlen : d.length = tasks.length) (hi : i < tasks.length)
    (hjs : ∀ j ∈ js, j < tasks.length) :
    ∃ r, downwardInner tasks i js d = some r ∧ r.length = tasks.length := by
  induction js generalizing d with
  | nil => exact ⟨d, rfl, hlen⟩
  | cons j rest ih =>
    have hj := hjs j (List.mem_cons_self _ _)
    have hrest : ∀ x ∈ rest, x < tasks.length := fun x hx => hjs x (List.mem_cons_of_mem _ hx)
    obtain ⟨tj, htj⟩ : ∃ t, tasks[j]? = some t := ⟨tasks[j], List.getElem?_eq_getElem hj⟩
    unfold downwardInner
    rw [htj]
    simp only
    by_cases hmem : i ∈ tj.dependencies
    · rw [if_pos hmem, getElem?_eq_some_getD d i (by omega),
        getElem?_eq_some_getD d j (by omega)]
      simp only
      exact ih _ (by rw [List.length_set]; exact hlen) hrest
    · rw [if_neg hmem]
      exact ih d hlen hrest

theorem downwardLoop_some (tasks : List Task) (is : List Nat) (d : List Int)
    (hlen : d.length = tasks.length) (his : ∀ i ∈ is, i < tasks.length) :
    ∃ r, downwardLoop tasks is d = some r ∧ r.length = tasks.length := by
  induction is generalizing d with
  | nil => exact ⟨d, rfl, hlen⟩
  | cons i rest ih =>
    obtain ⟨d1, h1, hl1⟩ := downwardInner_some tasks i (List.range tasks.length) d hlen
      (his i (List.mem_cons_self _ _)) (fun j hj => List.mem_range.mp hj)
    unfold downwardLoop
    rw [h1]
    simp only
    exact ih d1 hl1 (fun x hx => his x (List.mem_cons_of_mem _ hx))

/-- The function `computeDownwardRanks` never reads outside its vectors: it returns a
vector of the task list's length. -/
theorem computeDownwardRanks_some (tasks : List Task) :
    ∃ r, computeDownwardRanks tasks = some r ∧ r.length = tasks.length := by
  unfold computeDownwardRanks
  apply downwardLoop_some tasks _ _ (by simp)
  intro i hi
  exact List.mem_range.mp (List.mem_reverse.mp hi)

theorem downRec_congr (tasks : List Task) (hw : DepsBelow tasks) (d : List Int) (k : Nat)
    (v : Int) (i : Nat) (hki : k < i) (h : DownRec tasks d i) :
    DownRec tasks (d.set k v) i := by
  obtain ⟨h1, h2, h3⟩ := h
  have hjk : ∀ j, j < tasks.length → i ∈ depsOf tasks j → k ≠ j := by
    intro j hj hmem
    have := hw j hj i hmem
    omega
  unfold DownRec
  rw [getD_set_ne _ _ _ _ (by omega)]
  refine ⟨h1, ?_, ?_⟩
  · intro j hj hmem
    rw [getD_set_ne _ _ _ _ (hjk j hj hmem)]
    exact h2 j hj hmem
  · rcases h3 with h | ⟨j, hj, hmem, h⟩
    · exact Or.inl h
    · right
      refine ⟨j, hj, hmem, ?_⟩
      rw [getD_set_ne _ _ _ _ (hjk j hj hmem)]
      exact h

/-- When the downward recurrence holds at every task from `k` on and the execution times
are non-negative, every rank from `k` on is at least the task's execution time and at
most the task's execution time plus twice the execution times of the later tasks. -/
theorem downRec_bounds (tasks : List Task) (hw : DepsBelow tasks) (hnn : ExecNonneg tasks)
    (d : List Int) (k : Nat)
    (hrec : ∀ i, k ≤ i → i < tasks.length → DownRec tasks d i) (m : Nat) :
    ∀ i, tasks.length - i ≤ m → k ≤ i → i < tasks.length →
      execOf tasks i ≤ d.getD i 0 ∧
      d.getD i 0 + 2 * execSum tasks i
        ≤ 2 * sequentialExecutionTime tasks + execOf tasks i := by
  induction m with
  | zero => intro i h1 _ h3; omega
  | succ m ih =>
    intro i hm hki hi
    obtain ⟨h1, _, h3⟩ := hrec i hki hi
    refine ⟨h1, ?_⟩
    rcases h3 with h0 | ⟨j, hj, hmem, hj2⟩
    · have := execSum_le_total tasks hnn i hi
      omega
    · have hlt : i < j := hw j hj i hmem
      have hb := (ih j (by omega) (by omega) hj).2
      have h2 := execSum_add_le tasks hnn i j hlt hj
      have h4 := hnn i hi
      omega

theorem downwardLoop_inv (tasks : List Task) (hw : DepsBelow tasks) (hnn : ExecNonneg tasks)
    (hS : 2 * sequentialExecutionTime tasks ≤ INT_MAX) (k : Nat)
    (d : List Int) (hk : k ≤ tasks.length) (hlen : d.length = tasks.length)
    (hdone : ∀ i, k ≤ i → i < tasks.length → DownRec tasks d i)
    (htodo : ∀ i, i < k → d.getD i 0 = execOf tasks i) :
    ∃ r, downwardLoop tasks (List.range k).reverse d = some r ∧ r.length = tasks.length ∧
      ∀ i, i < tasks.length → DownRec tasks r i := by
  induction k generalizing d with
  | zero =>
    refine ⟨d, by simp [downwardLoop], hlen, ?_⟩
    intro i hi
    exact hdone i (Nat.zero_le _) hi
  | succ k ih =>
    have hkn : k < tasks.length := by omega
    have hkd : k < d.length := by omega
    have hjs : ∀ j ∈ List.range tasks.length,
        j < tasks.length ∧ (k ∈ depsOf tasks j → j ≠ k) := by
      intro j hj
      have hjn : j < tasks.length := List.mem_range.mp hj
      refine ⟨hjn, ?_⟩
      intro hmem
      have := hw j hjn k hmem
      omega
    rw [List.range_succ, List.reverse_append, List.reverse_singleton, List.singleton_append]
    unfold downwardLoop
    rw [downwardInner_eq tasks k _ d hlen hkd hjs]
    simp only
    have hfold :
        ((List.range tasks.length).filter (fun j => decide (k ∈ depsOf tasks j))).foldl
          (fun acc j => max acc (addInt (d.getD j 0) (execOf tasks j))) (d.getD k 0)
        = ((List.range tasks.length).filter (fun j => decide (k ∈ depsOf tasks j))).foldl
          (fun acc j => max acc (d.getD j 0 + execOf tasks j)) (d.getD k 0) := by
      apply foldl_max_congr (fun j => addInt (d.getD j 0) (execOf tasks j))
        (fun j => d.getD j 0 + execOf tasks j)
      intro x hx
      have hx2 := List.mem_filter.mp hx
      have hxn : x < tasks.length := List.mem_range.mp hx2.1
      have hxm : k ∈ depsOf tasks x := by simpa using hx2.2
      have hkx : k < x := hw x hxn k hxm
      have hb := downRec_bounds tasks hw hnn d (k + 1) hdone tasks.length x (by omega)
        (by omega) hxn
      have h0 := hnn x hxn
      have h1 := execOf_le_execSum tasks hnn x hxn
      exact addInt_eq _ _ (by omega) (by omega)
    rw [hfold]
    apply ih _ (by omega) (by rw [List.length_set]; exact hlen)
    · intro i hki hi
      by_cases hik : i = k
      · subst hik
        unfold DownRec
        rw [getD_set_self _ _ _ hkd, htodo i (by omega)]
        refine ⟨foldl_max_ge_init _ _ _, ?_, ?_⟩
        · intro j hj hmem
          rw [getD_set_ne _ _ _ _ (fun h => (hjs j (List.mem_range.mpr hj)).2 hmem h.symm)]
          exact foldl_max_ge_mem (fun x => d.getD x 0 + execOf tasks x) _ _ j
            (List.mem_filter.mpr ⟨List.mem_range.mpr hj, by simpa using hmem⟩)
        · rcases foldl_max_attained (fun x => d.getD x 0 + execOf tasks x)
              ((List.range tasks.length).filter (fun j => decide (i ∈ depsOf tasks j)))
              (execOf tasks i) with h | ⟨x, hx, h⟩
          · exact Or.inl h
          · right
            have hx2 := List.mem_filter.mp hx
            have hxn : x < tasks.length := List.mem_range.mp hx2.1
            have hxm : i ∈ depsOf tasks x := by simpa using hx2.2
            refine ⟨x, hxn, hxm, ?_⟩
            rw [getD_set_ne _ _ _ _ (fun h => (hjs x hx2.1).2 hxm h.symm)]
            exact h
      · exact downRec_congr tasks hw d k _ i (by omega) (hdone i (by omega) hi)
    · intro i hi
      rw [getD_set_ne _ _ _ _ (by omega)]
      exact htodo i (by omega)

/-- On a task list whose dependency indices lie below the task's own index, whose
execution times are non-negative and whose doubled sum is at most `INT_MAX`,
`computeDownwardRanks` returns a vector of the list's length that satisfies the downward
recurrence at every task. -/
theorem computeDownwardRanks_rec (tasks : List Task) (hw : DepsBelow tasks)
    (hnn : ExecNonneg tasks) (hS : 2 * sequentialExecutionTime tasks ≤ INT_MAX) :
    ∃ r, computeDownwardRanks tasks = some r ∧ r.length = tasks.length ∧
      ∀ i, i < tasks.length → DownRec tasks r i := by
  unfold computeDownwardRanks
  apply downwardLoop_inv tasks hw hnn hS tasks.length _ (le_refl _) (by simp)
  · intro i h1 h2; omega
  · intro i _
    exact getD_map_exec tasks i

/-- C8, as stated, fails: `downwardOverflowExample` has its dependency indices below the
task's own index and positive execution times; for task 0 the `int` sum
`downwardRanks[1] + tasks[1].executionTime` at line 58 wraps to a negative value which
`max` discards, so `computeDownwardRanks` returns 1 for task 0, while
`max(1, d[1] + executionTime[1])` is 4000000000. -/
theorem computeDownwardRanks_fixpoint_counterexample :
    DepsBelow downwardOverflowExample ∧ ExecPositive downwardOverflowExample ∧
    addInt 2000000000 2000000000 = -294967296 ∧
    computeDownwardRanks downwardOverflowExample = some [1, 2000000000] ∧
    maxOverDependents downwardOverflowExample [1, 2000000000] 0 = 4000000000 ∧
    ¬ (∃ d, computeDownwardRanks downwardOverflowExample = some d ∧
        ∀ i, i < downwardOverflowExample.length →
          d.getD i 0 = maxOverDependents downwardOverflowExample d i) := by
  refine ⟨by decide, by decide, by decide, by decide, by decide, ?_⟩
  rintro ⟨d, hd, h⟩
  have hd2 : computeDownwardRanks downwardOverflowExample = some [1, 2000000000] := by
    decide
  rw [hd2] at hd
  cases hd
  have := h 0 (by decide)
  revert this
  decide

/-- C8 (amended): on a task list whose dependency indices all lie strictly below the
task's own index, whose execution times are non-negative and whose doubled summed
execution time is at most `INT_MAX`, the vector `d` returned by `computeDownwardRanks`
satisfies, for every task `i`, `d[i] = max(executionTime[i], max over all tasks j whose
dependency set contains i of (d[j] + executionTime[j]))`, where `d[j]` is the final value
of task `j`. -/
theorem computeDownwardRanks_fixpoint (tasks : List Task) (hw : DepsBelow tasks)
    (hnn : ExecNonneg tasks) (hS : 2 * sequentialExecutionTime tasks ≤ INT_MAX) :
    ∃ d, computeDownwardRanks tasks = some d ∧ d.length = tasks.length ∧
      ∀ i, i < tasks.length → d.getD i 0 = maxOverDependents tasks d i := by
  obtain ⟨d, hd, hlen, hrec⟩ := computeDownwardRanks_rec tasks hw hnn hS
  refine ⟨d, hd, hlen, ?_⟩
  intro i hi
  obtain ⟨h1, h2, h3⟩ := hrec i hi
  unfold maxOverDependents
  symm
  apply foldl_max_unique (fun j => d.getD j 0 + execOf tasks j) _ _ _ h1
  · intro x hx
    have hx2 := List.mem_filter.mp hx
    exact h2 x (List.mem_range.mp hx2.1) (by simpa using hx2.2)
  · rcases h3 with h | ⟨j, hj, hmem, h⟩
    · exact Or.inl h
    · exact Or.inr ⟨j, List.mem_filter.mpr ⟨List.mem_range.mpr hj, by simpa using hmem⟩, h⟩

/-- The hypotheses of the amended C8 hold on `rankExample`, and the theorem applies
there. -/
theorem computeDownwardRanks_fixpoint_witness :
    DepsBelow rankExample ∧ ExecNonneg rankExample ∧
    2 * sequentialExecutionTime rankExample ≤ INT_MAX ∧
    ∃ d, computeDownwardRanks rankExample = some d ∧ d.length = rankExample.length ∧
      ∀ i, i < rankExample.length → d.getD i 0 = maxOverDependents rankExample d i :=
  ⟨by decide, by decide, by decide,
    computeDownwardRanks_fixpoint rankExample (by decide) (by decide) (by decide)⟩

/-! ## The deadline-adaptive scheduler against its specified state machine -/

/-- C1 fails on the code: with one processor on `missResetExample` the tasks with
deadline 2 and 6 are dropped with a successful assignment (deadline 5) between them;
`scheduleD_EDF` does not reset its counter at that assignment (the counter is still 1
after three tasks), switches mode at the second drop, accepts the last task and returns 3,
whereas the specified state machine drops the last task too and returns 2. -/
theorem scheduleD_EDF_not_specified_machine :
    edfLoop 1 (missResetExample.take 2) ⟨[⟨0, [0, 0, 0, 0, 0], 0⟩], 0, false, 0⟩
      = some ⟨[⟨0, [5, 0, 0, 0, 0], 5⟩], 1, false, 1⟩ ∧
    edfLoop 1 (missResetExample.take 3) ⟨[⟨0, [0, 0, 0, 0, 0], 0⟩], 0, false, 0⟩
      = some ⟨[⟨0, [10, 0, 0, 0, 0], 10⟩], 1, false, 2⟩ ∧
    edfLoop 1 (missResetExample.take 4) ⟨[⟨0, [0, 0, 0, 0, 0], 0⟩], 0, false, 0⟩
      = some ⟨[⟨0, [10, 0, 0, 0, 0], 10⟩], 0, true, 2⟩ ∧
    (scheduleD_EDF missResetExample 1 []).map (fun r => r.count) = some 3 ∧
    specD_EDF missResetExample 1 = some 2 ∧
    (scheduleD_EDF missResetExample 1 []).map (fun r => r.count)
      ≠ specD_EDF missResetExample 1 := by
  decide

/-! ## The scenarios -/

/-- C2, as stated, fails: on scenario B with one processor `scheduleD_EDF` does not
return 0. -/
theorem scenarioB_counterexample :
    ¬ ((scheduleD_EDF scenarioB 1 []).map (fun r => r.count) = some 0) := by
  decide

/-- C2 (amended): on scenario B with one processor the first task is assigned (the
processor is free at time 0, which is at most the deadline 1) and finishes at 5, the
second task is dropped as the first miss, and `scheduleD_EDF` returns 1; the order of the
two equal-deadline tasks does not matter. -/
theorem scenarioB_trace :
    edfStep 1 ⟨[⟨0, [0, 0], 0⟩], 0, false, 0⟩ ⟨1, 1, 5, []⟩
      = some ⟨[⟨0, [5, 0], 5⟩], 0, false, 1⟩ ∧
    edfStep 1 ⟨[⟨0, [5, 0], 5⟩], 0, false, 1⟩ ⟨2, 1, 5, []⟩
      = some ⟨[⟨0, [5, 0], 5⟩], 1, false, 1⟩ ∧
    scheduleD_EDF scenarioB 1 [] = some ⟨1, [⟨0, [5, 0], 5⟩], scenarioB⟩ ∧
    (scheduleD_EDF scenarioB.reverse 1 []).map (fun r => r.count) = some 1 := by
  decide

/-- C3, as stated, fails: on scenario A with one processor it is not the case that each
of the three schedulers returns 1 and leaves processor 0 with finish time 3 and busy
accumulator 3. -/
theorem scenarioA_counterexample :
    ¬ (LeavesProcessorZero (scheduleD_EDF scenarioA 1 []) 1 3 3 ∧
       LeavesProcessorZero (scheduleHEFT scenarioA 1 []) 1 3 3 ∧
       LeavesProcessorZero (scheduleCPOP scenarioA 1 []) 1 3 3) := by
  decide

/-- C3 (amended): on scenario A with one processor each scheduler returns 1 and leaves
processor 0 with busy accumulator 3; the recorded finish time is 3 after `scheduleD_EDF`
and 6 (upward rank 3 plus execution time 3) after `scheduleHEFT` and `scheduleCPOP`. -/
theorem scenarioA_results :
    LeavesProcessorZero (scheduleD_EDF scenarioA 1 []) 1 3 3 ∧
    LeavesProcessorZero (scheduleHEFT scenarioA 1 []) 1 6 3 ∧
    LeavesProcessorZero (scheduleCPOP scenarioA 1 []) 1 6 3 ∧
    scheduleD_EDF scenarioA 1 [] = some ⟨1, [⟨0, [3], 3⟩], scenarioA⟩ ∧
    scheduleHEFT scenarioA 1 [] = some ⟨1, [⟨0, [6], 3⟩], scenarioA⟩ ∧
    scheduleCPOP scenarioA 1 [] = some ⟨1, [⟨0, [6], 3⟩], scenarioA⟩ := by
  decide

/-- C4, as stated, fails: after `scheduleHEFT` on scenario C with two processors the
makespan is not 6. -/
theorem scenarioC_counterexample :
    ¬ ((scheduleHEFT scenarioC 2 []).bind (fun r => parallelExecutionTime r.processors 0)
        = some 6) := by
  decide

/-- C4 (amended): on scenario C with two processors `scheduleHEFT` handles task 1
(execution time 6) first and commits it to processor 0 with finish time 12, then commits
task 0 (execution time 4) to processor 1 with finish time 8: the tasks go to distinct
processors, the count is 2 and the makespan is 12. -/
theorem scenarioC_results :
    heftUpwardRanks scenarioC = some [4, 6] ∧
    heftSortedTasks 2 [4, 6] = [1, 0] ∧
    heftBest 6 6 [⟨0, [0], 0⟩, ⟨1, [0], 0⟩] 0 INT_MAX (-1) = some (12, 0) ∧
    heftStep scenarioC [4, 6] [⟨0, [0], 0⟩, ⟨1, [0], 0⟩] 1
      = some [⟨0, [12], 6⟩, ⟨1, [0], 0⟩] ∧
    heftBest 4 4 [⟨0, [12], 6⟩, ⟨1, [0], 0⟩] 0 INT_MAX (-1) = some (8, 1) ∧
    heftStep scenarioC [4, 6] [⟨0, [12], 6⟩, ⟨1, [0], 0⟩] 0
      = some [⟨0, [12], 6⟩, ⟨1, [8], 4⟩] ∧
    scheduleHEFT scenarioC 2 [] = some ⟨2, [⟨0, [12], 6⟩, ⟨1, [8], 4⟩], scenarioC⟩ ∧
    parallelExecutionTime [⟨0, [12], 6⟩, ⟨1, [8], 4⟩] 0 = some 12 := by
  decide

/-! ## Downward ranks and forward paths -/

/-- C9 fails on the code: on the well-formed two-task list `downwardExample` the path
0, 1 starts at task 0 and weighs 4, but `computeDownwardRanks` returns 3 for task 0, less
than the weight of that path; the inline downward pass of `scheduleHEFT` returns 4. -/
theorem computeDownwardRanks_not_longest_path :
    WellFormed downwardExample ∧
    IsDepPath downwardExample [0, 1] ∧ [0, 1].head? = some 0 ∧
    pathWeight downwardExample [0, 1] = 4 ∧
    computeDownwardRanks downwardExample = some [3, 1] ∧
    heftDownwardRanks downwardExample = some [4, 1] ∧
    ¬ (∃ d, computeDownwardRanks downwardExample = some d ∧
        ∀ p, IsDepPath downwardExample p → p.head? = some 0 →
          pathWeight downwardExample p ≤ d.getD 0 0) := by
  have hpath : IsDepPath downwardExample [0, 1] := by
    unfold IsDepPath
    exact List.chain'_pair.mpr (by decide)
  refine ⟨by decide, hpath, by decide, by decide, by decide, by decide, ?_⟩
  rintro ⟨d, hd, h⟩
  have hd2 : computeDownwardRanks downwardExample = some [3, 1] := by decide
  rw [hd2] at hd
  cases hd
  have := h [0, 1] hpath rfl
  revert this
  decide

/-! ## The sentinel of the processor search -/

/-- C10 fails on the code: both lists are well-formed and every value stays within the
`int` range, yet with one processor the last task's only candidate finish time equals
`INT_MAX`, the test `finishTime < minFinishTime` never succeeds, `bestProcessor` stays -1
and the commit indexes outside the processor vector, so no count is returned. -/
theorem schedule_sentinel_no_count :
    WellFormed heftSentinelExample ∧
    heftStep heftSentinelExample [1073741823, 1] [⟨0, [0], 0⟩] 0
      = some [⟨0, [2147483646], 1073741823⟩] ∧
    heftBest 1 1 [⟨0, [2147483646], 1073741823⟩] 0 INT_MAX (-1) = some (INT_MAX, -1) ∧
    scheduleHEFT heftSentinelExample 1 [] = none ∧
    WellFormed cpopSentinelExample ∧
    cpopStep cpopSentinelExample [715827881, 715827883] [⟨0, [0, 0], 0⟩] 0
      = some [⟨0, [1431655762, 0], 715827881⟩] ∧
    cpopBest 715827883 2 [⟨0, [1431655762, 0], 715827881⟩] 0 INT_MAX (-1)
      = some (INT_MAX, -1) ∧
    scheduleCPOP cpopSentinelExample 1 [] = none := by
  decide

/-! ## The processor search of scheduleHEFT -/

/-- The search loop of `scheduleHEFT` over processors whose time vector is non-empty
always finishes; it either keeps the incoming pair (no candidate is below the incoming
minimum) or returns the first processor that attains the least candidate. -/
theorem heftBest_spec (rank exec : Int) (ps : List Processor) (p : Nat) (m0 b0 : Int)
    (hne : ∀ pr ∈ ps, 0 < pr.availableTime.length) :
    ∃ m b, heftBest rank exec ps p m0 b0 = some (m, b) ∧
      ((m = m0 ∧ b = b0 ∧ ∀ pr ∈ ps, m0 ≤ heftCandidate rank exec pr) ∨
       (∃ k prk, ps[k]? = some prk ∧ b = ((p + k : Nat) : Int) ∧
          m = heftCandidate rank exec prk ∧ m < m0 ∧
          (∀ pr ∈ ps, m ≤ heftCandidate rank exec pr) ∧
          (∀ j prj, j < k → ps[j]? = some prj → m < heftCandidate rank exec prj))) := by
  induction ps generalizing p m0 b0 with
  | nil =>
    exact ⟨m0, b0, rfl, Or.inl ⟨rfl, rfl, fun pr h => by cases h⟩⟩
  | cons pr rest ih =>
    have hpr := hne pr (List.mem_cons_self _ _)
    have hrest : ∀ x ∈ rest, 0 < x.availableTime.length :=
      fun x hx => hne x (List.mem_cons_of_mem _ hx)
    have ha : pr.availableTime[0]? = some (pr.availableTime.getD 0 0) :=
      getElem?_eq_some_getD _ _ hpr
    unfold heftBest
    rw [ha]
    simp only
    have hc : addInt (max (pr.availableTime.getD 0 0) rank) exec
        = heftCandidate rank exec pr := rfl
    rw [hc]
    by_cases hlt : heftCandidate rank exec pr < m0
    · rw [if_pos hlt]
      obtain ⟨m, b, hmb, h⟩ := ih (p + 1) (heftCandidate rank exec pr) (p : Int) hrest
      refine ⟨m, b, hmb, Or.inr ?_⟩
      rcases h with ⟨hm, hb, hall⟩ | ⟨k, prk, hk, hb, hm, hlt2, hall, hfirst⟩
      · refine ⟨0, pr, by simp, by simpa using hb, hm, by rw [hm]; exact hlt, ?_, ?_⟩
        · intro x hx
          rcases List.mem_cons.mp hx with h | h
          · rw [h, hm]
          · rw [hm]; exact hall x h
        · intro j prj hj; omega
      · refine ⟨k + 1, prk, by simpa using hk, ?_, hm, lt_trans hlt2 hlt, ?_, ?_⟩
        · rw [hb]; push_cast; ring
        · intro x hx
          rcases List.mem_cons.mp hx with h | h
          · rw [h]; exact le_of_lt hlt2
          · exact hall x h
        · intro j prj hj hget
          cases j with
          | zero =>
            have : prj = pr := by simpa using hget.symm
            rw [this]; exact hlt2
          | succ j => exact hfirst j prj (by omega) (by simpa using hget)
    · rw [if_neg hlt]
      have hge : m0 ≤ heftCandidate rank exec pr := not_lt.mp hlt
      obtain ⟨m, b, hmb, h⟩ := ih (p + 1) m0 b0 hrest
      refine ⟨m, b, hmb, ?_⟩
      rcases h with ⟨hm, hb, hall⟩ | ⟨k, prk, hk, hb, hm, hlt2, hall, hfirst⟩
      · left
        refine ⟨hm, hb, ?_⟩
        intro x hx
        rcases List.mem_cons.mp hx with h | h
        · rw [h]; exact hge
        · exact hall x h
      · right
        refine ⟨k + 1, prk, by simpa using hk, ?_, hm, hlt2, ?_, ?_⟩
        · rw [hb]; push_cast; ring
        · intro x hx
          rcases List.mem_cons.mp hx with h | h
          · rw [h]; exact le_of_lt (lt_of_lt_of_le hlt2 hge)
          · exact hall x h
        · intro j prj hj hget
          cases j with
          | zero =>
            have : prj = pr := by simpa using hget.symm
            rw [this]; exact lt_of_lt_of_le hlt2 hge
          | succ j => exact hfirst j prj (by omega) (by simpa using hget)

/-! ## The inline rank passes of scheduleHEFT -/

theorem heftMaxPred_eq (up : List Int) (ds : List Nat) (m : Int)
    (hds : ∀ pred ∈ ds, pred < up.length) :
    heftMaxPred up ds m = some (ds.foldl (fun acc x => max acc (up.getD x 0)) m) := by
  induction ds generalizing m with
  | nil => rfl
  | cons pred rest ih =>
    unfold heftMaxPred
    rw [getElem?_eq_some_getD up pred (hds pred (List.mem_cons_self _ _))]
    simp only
    rw [ih _ (fun x hx => hds x (List.mem_cons_of_mem _ hx)), List.foldl_cons]

theorem heftUpRec_fold_congr (tasks : List Task) (hw : DepsBelow tasks) (up : List Int)
    (k i : Nat) (v : Int) (hik : i ≤ k) (hi : i < tasks.length) :
    (depsOf tasks i).foldl (fun acc x => max acc ((up.set k v).getD x 0)) 0 =
      (depsOf tasks i).foldl (fun acc x => max acc (up.getD x 0)) 0 := by
  apply foldl_max_congr (fun x => (up.set k v).getD x 0) (fun x => up.getD x 0)
  intro x hx
  have := hw i hi x hx
  exact getD_set_ne _ _ _ _ (by omega)

/-- When the inline recurrence holds at every task below `k` and the execution times are
non-negative, every inline rank below `k` lies between the task's execution time and the
sum of the execution times up to the task. -/
theorem heftUpRec_bounds (tasks : List Task) (hw : DepsBelow tasks) (hnn : ExecNonneg tasks)
    (up : List Int) (k : Nat) (hk : k ≤ tasks.length)
    (hrec : ∀ i, i < k → HeftUpRec tasks up i) (i : Nat) (hi : i < k) :
    execOf tasks i ≤ up.getD i 0 ∧ up.getD i 0 ≤ execSum tasks i := by
  induction i using Nat.strong_induction_on with
  | _ i ih =>
    have h := hrec i hi
    unfold HeftUpRec at h
    have hge := foldl_max_ge_init (fun x => up.getD x 0) (depsOf tasks i) 0
    refine ⟨by omega, ?_⟩
    rcases foldl_max_attained (fun x => up.getD x 0) (depsOf tasks i) 0 with h0 | ⟨x, hx, hx2⟩
    · have := execOf_le_execSum tasks hnn i (by omega)
      omega
    · have hlt : x < i := hw i (by omega) x hx
      have h1 := (ih x hlt (by omega)).2
      have h2 := execSum_add_le tasks hnn x i hlt (by omega)
      omega

theorem heftUpwardLoop_inv (tasks : List Task) (hw : DepsBelow tasks)
    (hnn : ExecNonneg tasks) (hS : sequentialExecutionTime tasks ≤ INT_MAX) (m k : Nat)
    (up : List Int) (hkm : k + m = tasks.length) (hlen : up.length = tasks.length)
    (hdone : ∀ i, i < k → HeftUpRec tasks up i) :
    ∃ r, heftUpwardLoop tasks (List.range' k m) up = some r ∧ r.length = tasks.length ∧
      ∀ i, i < tasks.length → HeftUpRec tasks r i := by
  induction m generalizing k up with
  | zero =>
    refine ⟨up, by simp [heftUpwardLoop], hlen, ?_⟩
    intro i hi
    exact hdone i (by omega)
  | succ m ih =>
    have hk : k < tasks.length := by omega
    obtain ⟨t, ht⟩ : ∃ t, tasks[k]? = some t := ⟨tasks[k], List.getElem?_eq_getElem hk⟩
    have hdeps : depsOf tasks k = t.dependencies := depsOf_eq tasks k t ht
    have hexec : execOf tasks k = t.executionTime := execOf_eq tasks k t ht
    have hds : ∀ pred ∈ t.dependencies, pred < up.length := by
      intro pred hpred
      have := hw k hk pred (by rw [hdeps]; exact hpred)
      omega
    have hkk : k < up.length := by omega
    rw [List.range'_succ]
    unfold heftUpwardLoop
    rw [ht]
    simp only
    rw [heftMaxPred_eq up t.dependencies 0 hds]
    simp only
    rw [if_pos hkk]
    have hadd : addInt t.executionTime
          (t.dependencies.foldl (fun acc x => max acc (up.getD x 0)) 0)
        = t.executionTime + t.dependencies.foldl (fun acc x => max acc (up.getD x 0)) 0 := by
      have hge := foldl_max_ge_init (fun x => up.getD x 0) t.dependencies 0
      have h2 := execSum_le_total tasks hnn k hk
      have h3 := hnn k hk
      have h4 := execOf_le_execSum tasks hnn k hk
      rw [hexec] at h3 h4
      rcases foldl_max_attained (fun x => up.getD x 0) t.dependencies 0 with h0 | ⟨x, hx, hx2⟩
      · exact addInt_eq _ _ (by omega) (by omega)
      · have hxk : x < k := hw k hk x (by rw [hdeps]; exact hx)
        have hb := heftUpRec_bounds tasks hw hnn up k (by omega) hdone x hxk
        have h1 := execSum_add_le tasks hnn x k hxk hk
        rw [hexec] at h1
        exact addInt_eq _ _ (by omega) (by omega)
    rw [hadd]
    apply ih (k + 1) _ (by omega) (by rw [List.length_set]; exact hlen)
    intro i hi
    unfold HeftUpRec
    rw [heftUpRec_fold_congr tasks hw up k i _ (by omega) (by omega)]
    by_cases hik : i = k
    · subst hik
      rw [getD_set_self _ _ _ hkk, hdeps, hexec]
    · rw [getD_set_ne _ _ _ _ (fun h => hik h.symm)]
      exact hdone i (by omega)

/-- On a task list whose dependency indices lie below the task's own index, whose
execution times are non-negative and sum to at most `INT_MAX`, the inline upward pass of
`scheduleHEFT` returns a vector of the list's length that satisfies its recurrence at
every task. -/
theorem heftUpwardRanks_rec (tasks : List Task) (hw : DepsBelow tasks)
    (hnn : ExecNonneg tasks) (hS : sequentialExecutionTime tasks ≤ INT_MAX) :
    ∃ r, heftUpwardRanks tasks = some r ∧ r.length = tasks.length ∧
      ∀ i, i < tasks.length → HeftUpRec tasks r i := by
  unfold heftUpwardRanks
  rw [List.range_eq_range']
  apply heftUpwardLoop_inv tasks hw hnn hS tasks.length 0 _ (by omega) (by simp)
  intro i hi; omega

theorem heftMaxSucc_some (tasks : List Task) (down : List Int) (i : Nat) (js : List Nat)
    (m : Int) (hlen : down.length = tasks.length) (hjs : ∀ j ∈ js, j < tasks.length) :
    ∃ r, heftMaxSucc tasks down i js m = some r := by
  induction js generalizing m with
  | nil => exact ⟨m, rfl⟩
  | cons j rest ih =>
    have hj := hjs j (List.mem_cons_self _ _)
    have hrest : ∀ x ∈ rest, x < tasks.length := fun x hx => hjs x (List.mem_cons_of_mem _ hx)
    obtain ⟨tj, htj⟩ : ∃ t, tasks[j]? = some t := ⟨tasks[j], List.getElem?_eq_getElem hj⟩
    unfold heftMaxSucc
    rw [htj]
    simp only
    by_cases hmem : i ∈ tj.dependencies
    · rw [if_pos hmem, getElem?_eq_some_getD down j (by omega)]
      exact ih _ hrest
    · rw [if_neg hmem]
      exact ih _ hrest

theorem heftDownwardLoop_some (tasks : List Task) (is : List Nat) (down : List Int)
    (hlen : down.length = tasks.length) (his : ∀ i ∈ is, i < tasks.length) :
    ∃ r, heftDownwardLoop tasks is down = some r := by
  induction is generalizing down with
  | nil => exact ⟨down, rfl⟩
  | cons i rest ih =>
    have hi := his i (List.mem_cons_self _ _)
    obtain ⟨t, ht⟩ : ∃ t, tasks[i]? = some t := ⟨tasks[i], List.getElem?_eq_getElem hi⟩
    obtain ⟨m, hm⟩ := heftMaxSucc_some tasks down i (List.range tasks.length) 0 hlen
      (fun j hj => List.mem_range.mp hj)
    unfold heftDownwardLoop
    rw [ht]
    simp only
    rw [hm]
    simp only
    rw [if_pos (by omega)]
    exact ih _ (by rw [List.length_set]; exact hlen)
      (fun x hx => his x (List.mem_cons_of_mem _ hx))

/-- The inline downward pass of `scheduleHEFT` never reads outside its vectors. -/
theorem heftDownwardRanks_some (tasks : List Task) : ∃ r, heftDownwardRanks tasks = some r := by
  unfold heftDownwardRanks
  apply heftDownwardLoop_some tasks _ _ (by simp)
  intro i hi
  exact List.mem_range.mp (List.mem_reverse.mp hi)

/-! ## The assignment loop of scheduleHEFT -/

theorem heftCommit_eq (ps : List Processor) (k : Nat) (prk : Processor) (m exec : Int)
    (hk : ps[k]? = some prk) (hne : 0 < prk.availableTime.length) :
    heftCommit ps ((k : Nat) : Int) m exec =
      some (ps.set k { prk with availableTime := prk.availableTime.set 0 m,
                                totalExecutionTime := addInt prk.totalExecutionTime exec }) := by
  have hk0 : ¬ ((k : Nat) : Int) < 0 := by omega
  unfold heftCommit procAt
  rw [if_neg hk0, Int.toNat_natCast, hk]
  simp only
  rw [if_pos hne]

/-- One iteration of the assignment loop of `scheduleHEFT`: when every processor has a
non-empty time vector and some candidate finish time is below `INT_MAX`, the task is
committed to the first processor that attains the least candidate. -/
theorem heftStep_spec (tasks : List Task) (up : List Int) (ps : List Processor) (t : Nat)
    (tk : Task) (rank : Int) (htk : tasks[t]? = some tk) (hrank : up[t]? = some rank)
    (hne : ∀ pr ∈ ps, 0 < pr.availableTime.length)
    (hsome : ∃ pr ∈ ps, heftCandidate rank tk.executionTime pr < INT_MAX) :
    ∃ k prk, ps[k]? = some prk ∧
      heftStep tasks up ps t = some (ps.set k
        { prk with availableTime := prk.availableTime.set 0
                     (heftCandidate rank tk.executionTime prk),
                   totalExecutionTime := addInt prk.totalExecutionTime tk.executionTime }) ∧
      heftCandidate rank tk.executionTime prk < INT_MAX ∧
      (∀ pr ∈ ps, heftCandidate rank tk.executionTime prk
        ≤ heftCandidate rank tk.executionTime pr) ∧
      (∀ j prj, j < k → ps[j]? = some prj →
        heftCandidate rank tk.executionTime prk < heftCandidate rank tk.executionTime prj) := by
  obtain ⟨m, b, hmb, h⟩ := heftBest_spec rank tk.executionTime ps 0 INT_MAX (-1) hne
  rcases h with ⟨_, _, hall⟩ | ⟨k, prk, hk, hb, hm, hlt, hall, hfirst⟩
  · obtain ⟨pr, hpr, hlt⟩ := hsome
    have := hall pr hpr
    omega
  · refine ⟨k, prk, hk, ?_, by rw [← hm]; exact hlt, by rw [← hm]; exact hall,
      by rw [← hm]; exact hfirst⟩
    unfold heftStep
    rw [htk, hrank]
    simp only
    rw [hmb]
    simp only
    rw [hb, Nat.zero_add, hm]
    exact heftCommit_eq ps k prk _ _ hk (hne prk (List.getElem?_mem hk))

theorem sum_exec_nonneg (tasks : List Task) (hnn : ExecNonneg tasks) (l : List Nat)
    (hl : ∀ t ∈ l, t < tasks.length) : 0 ≤ (l.map (execOf tasks)).sum := by
  apply List.sum_nonneg
  intro x hx
  obtain ⟨t, ht, rfl⟩ := List.mem_map.mp hx
  exact hnn t (hl t ht)

/-- The assignment loop of `scheduleHEFT` counts every task of the remaining order, as
long as the ranks are non-negative and at most `S`, the remaining execution times sum to
at most `S`, and every next-free time plus the remaining execution times stays within a
budget `B` below `INT_MAX`. -/
theorem heftLoop_count (tasks : List Task) (up : List Int) (S B : Int)
    (hp : ExecPositive tasks) (hlen : up.length = tasks.length)
    (hrank : ∀ t, t < tasks.length → 0 ≤ up.getD t 0 ∧ up.getD t 0 ≤ S) (hSB : S + S ≤ B)
    (hB : B < INT_MAX)
    (rem : List Nat) (ps : List Processor) (count : Int)
    (hrem : ∀ t ∈ rem, t < tasks.length) (hsum : (rem.map (execOf tasks)).sum ≤ S)
    (hps : ps ≠ []) (hne : ∀ pr ∈ ps, 0 < pr.availableTime.length)
    (hbound : ∀ pr ∈ ps, pr.availableTime.getD 0 0 + (rem.map (execOf tasks)).sum ≤ B) :
    ∃ ps1, heftLoop tasks up rem ps count = some (ps1, count + rem.length) := by
  induction rem generalizing ps count with
  | nil => exact ⟨ps, by simp [heftLoop]⟩
  | cons t rest ih =>
    have ht := hrem t (List.mem_cons_self _ _)
    have hrest : ∀ x ∈ rest, x < tasks.length := fun x hx => hrem x (List.mem_cons_of_mem _ hx)
    obtain ⟨tk, htk⟩ : ∃ tk, tasks[t]? = some tk := ⟨tasks[t], List.getElem?_eq_getElem ht⟩
    have hexec : execOf tasks t = tk.executionTime := execOf_eq tasks t tk htk
    have hr : up[t]? = some (up.getD t 0) := getElem?_eq_some_getD up t (by omega)
    have hnn := sum_exec_nonneg tasks (execPositive_nonneg tasks hp) rest hrest
    have hpos := hp t ht
    rw [List.map_cons, List.sum_cons, hexec] at hsum hbound
    rw [hexec] at hpos
    have hcval : ∀ pr ∈ ps, heftCandidate (up.getD t 0) tk.executionTime pr
        = max (pr.availableTime.getD 0 0) (up.getD t 0) + tk.executionTime := by
      intro pr hpr
      have h1 := hbound pr hpr
      have h2 := hrank t ht
      have h3 := le_max_right (pr.availableTime.getD 0 0) (up.getD t 0)
      unfold heftCandidate
      apply addInt_eq
      · omega
      · rcases max_choice (pr.availableTime.getD 0 0) (up.getD t 0) with h | h <;>
          rw [h] <;> omega
    have hcand : ∀ pr ∈ ps, heftCandidate (up.getD t 0) tk.executionTime pr
        + (rest.map (execOf tasks)).sum ≤ B := by
      intro pr hpr
      have h1 := hbound pr hpr
      have h2 := hrank t ht
      rw [hcval pr hpr]
      rcases max_choice (pr.availableTime.getD 0 0) (up.getD t 0) with h | h <;> rw [h] <;> omega
    obtain ⟨pr0, hpr0⟩ := List.exists_mem_of_ne_nil ps hps
    obtain ⟨k, prk, hk, hstep, _, _, _⟩ := heftStep_spec tasks up ps t tk (up.getD t 0) htk hr hne
      ⟨pr0, hpr0, by have := hcand pr0 hpr0; omega⟩
    unfold heftLoop
    rw [hstep]
    simp only
    have hkl : k < ps.length := (List.getElem?_eq_some.mp hk).1
    obtain ⟨ps1, h1⟩ := ih (ps.set k
        { prk with availableTime := prk.availableTime.set 0
                     (heftCandidate (up.getD t 0) tk.executionTime prk),
                   totalExecutionTime := addInt prk.totalExecutionTime tk.executionTime })
      (count + 1) hrest (by omega)
      (by
        intro h
        have := congrArg List.length h
        rw [List.length_set, List.length_nil] at this
        omega)
      (by
        intro pr hpr
        rcases List.mem_or_eq_of_mem_set hpr with h | h
        · exact hne pr h
        · rw [h]
          simp only [List.length_set]
          exact hne prk (List.getElem?_mem hk))
      (by
        intro pr hpr
        rcases List.mem_or_eq_of_mem_set hpr with h | h
        · have := hbound pr h
          omega
        · rw [h]
          simp only
          rw [getD_set_self _ _ _ (hne prk (List.getElem?_mem hk))]
          exact hcand prk (List.getElem?_mem hk))
    refine ⟨ps1, ?_⟩
    rw [h1, List.length_cons]
    push_cast
    congr 2
    ring

theorem pushProcessors_nil_ne_nil (numProcessors : Int) (slots : Nat)
    (h : 1 ≤ numProcessors) : pushProcessors numProcessors slots [] ≠ [] := by
  unfold pushProcessors
  intro hnil
  have := congrArg List.length hnil
  rw [List.nil_append, List.length_map, List.length_range, List.length_nil] at this
  omega

theorem pushProcessors_nil_mem (numProcessors : Int) (slots : Nat) (pr : Processor)
    (h : pr ∈ pushProcessors numProcessors slots []) :
    pr.availableTime = List.replicate slots 0 ∧ pr.totalExecutionTime = 0 := by
  unfold pushProcessors at h
  rw [List.nil_append] at h
  obtain ⟨i, _, rfl⟩ := List.mem_map.mp h
  exact ⟨rfl, rfl⟩

theorem sum_exec_perm_range (tasks : List Task) (l : List Nat)
    (h : l.Perm (List.range tasks.length)) :
    (l.map (execOf tasks)).sum = sequentialExecutionTime tasks := by
  rw [sequentialExecutionTime_eq]
  exact (h.map (execOf tasks)).sum_eq

/-- On a well-formed task list, with at least one processor, an empty incoming processor
collection and twice the summed execution time below `INT_MAX`, `scheduleHEFT` returns
the number of tasks. -/
theorem scheduleHEFT_count_of_bound (tasks : List Task) (numProcessors : Int)
    (hw : WellFormed tasks) (hn : 1 ≤ numProcessors)
    (hb : 2 * sequentialExecutionTime tasks < INT_MAX) :
    ∃ r, scheduleHEFT tasks numProcessors [] = some r ∧ r.count = tasks.length ∧
      r.tasks = tasks := by
  have hnn := execPositive_nonneg tasks hw.2
  have hS0 := sequentialExecutionTime_nonneg tasks hnn
  obtain ⟨up, hup, hlen, hrec⟩ := heftUpwardRanks_rec tasks hw.1 hnn (by omega)
  obtain ⟨down, hdown⟩ := heftDownwardRanks_some tasks
  have hperm : (heftSortedTasks tasks.length up).Perm (List.range tasks.length) :=
    List.perm_insertionSort _ _
  obtain ⟨ps1, h1⟩ := heftLoop_count tasks up (sequentialExecutionTime tasks)
    (2 * sequentialExecutionTime tasks) hw.2 hlen
    (fun t ht =>
      ⟨le_trans (hnn t ht)
        (heftUpRec_bounds tasks hw.1 hnn up tasks.length (le_refl _) hrec t ht).1,
       le_trans (heftUpRec_bounds tasks hw.1 hnn up tasks.length (le_refl _) hrec t ht).2
        (execSum_le_total tasks hnn t ht)⟩)
    (by omega) hb (heftSortedTasks tasks.length up) (pushProcessors numProcessors 1 []) 0
    (fun t ht => List.mem_range.mp (hperm.mem_iff.mp ht))
    (by rw [sum_exec_perm_range tasks _ hperm])
    (pushProcessors_nil_ne_nil numProcessors 1 hn)
    (by
      intro pr hpr
      rw [(pushProcessors_nil_mem numProcessors 1 pr hpr).1]
      simp)
    (by
      intro pr hpr
      rw [(pushProcessors_nil_mem numProcessors 1 pr hpr).1, sum_exec_perm_range tasks _ hperm]
      simp
      omega)
  refine ⟨⟨0 + ((heftSortedTasks tasks.length up).length : Int), ps1, tasks⟩, ?_, ?_, rfl⟩
  · unfold scheduleHEFT
    rw [hup, hdown]
    simp only
    rw [h1]
  · simp only
    rw [hperm.length_eq, List.length_range]
    simp

/-- The hypotheses of `scheduleHEFT_count_of_bound` hold on `rankExample` with two
processors. -/
theorem scheduleHEFT_count_of_bound_witness :
    WellFormed rankExample ∧ (1 : Int) ≤ 2 ∧
    2 * sequentialExecutionTime rankExample < INT_MAX ∧
    ∃ r, scheduleHEFT rankExample 2 [] = some r ∧ r.count = rankExample.length ∧
      r.tasks = rankExample :=
  ⟨by decide, by decide, by decide,
    scheduleHEFT_count_of_bound rankExample 2 (by decide) (by decide) (by decide)⟩

/-! ## The processor search of scheduleCPOP -/

/-- The value of `max_element` on a non-empty vector is an entry of the vector and bounds
every entry. -/
theorem maxElement_spec (l : List Int) (h : 0 < l.length) :
    ∃ w, maxElement l = some w ∧ w ∈ l ∧ ∀ x ∈ l, x ≤ w := by
  cases l with
  | nil => simp at h
  | cons a rest =>
    refine ⟨rest.foldl max a, rfl, ?_, ?_⟩
    · rcases foldl_max_attained (fun x : Int => x) rest a with h1 | ⟨x, hx, h1⟩
      · rw [h1]; exact List.mem_cons_self _ _
      · rw [h1]; exact List.mem_cons_of_mem _ hx
    · intro x hx
      rcases List.mem_cons.mp hx with h1 | h1
      · rw [h1]; exact foldl_max_ge_init (fun x : Int => x) rest a
      · exact foldl_max_ge_mem (fun x : Int => x) rest a x h1

theorem maxElement_eq_some_getD (l : List Int) (h : 0 < l.length) :
    maxElement l = some ((maxElement l).getD 0) := by
  obtain ⟨w, hw, _⟩ := maxElement_spec l h
  rw [hw]; rfl

/-- The search loop of `scheduleCPOP` over processors whose time vector is non-empty
always finishes; it either keeps the incoming pair (no candidate is below the incoming
minimum) or returns the first processor that attains the least candidate. -/
theorem cpopBest_spec (rank exec : Int) (ps : List Processor) (p : Nat) (m0 b0 : Int)
    (hne : ∀ pr ∈ ps, 0 < pr.availableTime.length) :
    ∃ m b, cpopBest rank exec ps p m0 b0 = some (m, b) ∧
      ((m = m0 ∧ b = b0 ∧ ∀ pr ∈ ps, m0 ≤ cpopCandidate rank exec pr) ∨
       (∃ k prk, ps[k]? = some prk ∧ b = ((p + k : Nat) : Int) ∧
          m = cpopCandidate rank exec prk ∧ m < m0 ∧
          (∀ pr ∈ ps, m ≤ cpopCandidate rank exec pr) ∧
          (∀ j prj, j < k → ps[j]? = some prj → m < cpopCandidate rank exec prj))) := by
  induction ps generalizing p m0 b0 with
  | nil =>
    exact ⟨m0, b0, rfl, Or.inl ⟨rfl, rfl, fun pr h => by cases h⟩⟩
  | cons pr rest ih =>
    have hpr := hne pr (List.mem_cons_self _ _)
    have hrest : ∀ x ∈ rest, 0 < x.availableTime.length :=
      fun x hx => hne x (List.mem_cons_of_mem _ hx)
    unfold cpopBest
    rw [maxElement_eq_some_getD _ hpr]
    simp only
    have hc : addInt (addInt ((maxElement pr.availableTime).getD 0) rank) exec
        = cpopCandidate rank exec pr := rfl
    rw [hc]
    by_cases hlt : cpopCandidate rank exec pr < m0
    · rw [if_pos hlt]
      obtain ⟨m, b, hmb, h⟩ := ih (p + 1) (cpopCandidate rank exec pr) (p : Int) hrest
      refine ⟨m, b, hmb, Or.inr ?_⟩
      rcases h with ⟨hm, hb, hall⟩ | ⟨k, prk, hk, hb, hm, hlt2, hall, hfirst⟩
      · refine ⟨0, pr, by simp, by simpa using hb, hm, by rw [hm]; exact hlt, ?_, ?_⟩
        · intro x hx
          rcases List.mem_cons.mp hx with h | h
          · rw [h, hm]
          · rw [hm]; exact hall x h
        · intro j prj hj; omega
      · refine ⟨k + 1, prk, by simpa using hk, ?_, hm, lt_trans hlt2 hlt, ?_, ?_⟩
        · rw [hb]; push_cast; ring
        · intro x hx
          rcases List.mem_cons.mp hx with h | h
          · rw [h]; exact le_of_lt hlt2
          · exact hall x h
        · intro j prj hj hget
          cases j with
          | zero =>
            have : prj = pr := by simpa using hget.symm
            rw [this]; exact hlt2
          | succ j => exact hfirst j prj (by omega) (by simpa using hget)
    · rw [if_neg hlt]
      have hge : m0 ≤ cpopCandidate rank exec pr := not_lt.mp hlt
      obtain ⟨m, b, hmb, h⟩ := ih (p + 1) m0 b0 hrest
      refine ⟨m, b, hmb, ?_⟩
      rcases h with ⟨hm, hb, hall⟩ | ⟨k, prk, hk, hb, hm, hlt2, hall, hfirst⟩
      · left
        refine ⟨hm, hb, ?_⟩
        intro x hx
        rcases List.mem_cons.mp hx with h | h
        · rw [h]; exact hge
        · exact hall x h
      · right
        refine ⟨k + 1, prk, by simpa using hk, ?_, hm, hlt2, ?_, ?_⟩
        · rw [hb]; push_cast; ring
        · intro x hx
          rcases List.mem_cons.mp hx with h | h
          · rw [h]; exact le_of_lt (lt_of_lt_of_le hlt2 hge)
          · exact hall x h
        · intro j prj hj hget
          cases j with
          | zero =>
            have : prj = pr := by simpa using hget.symm
            rw [this]; exact lt_of_lt_of_le hlt2 hge
          | succ j => exact hfirst j prj (by omega) (by simpa using hget)

/-! ## The assignment loop of scheduleCPOP -/

theorem cpopCommit_eq (ps : List Processor) (k : Nat) (prk : Processor) (t : Nat)
    (m exec : Int) (hk : ps[k]? = some prk) (ht : t < prk.availableTime.length) :
    cpopCommit ps ((k : Nat) : Int) t m exec =
      some (ps.set k { prk with availableTime := prk.availableTime.set t m,
                                totalExecutionTime := addInt prk.totalExecutionTime exec }) := by
  have hk0 : ¬ ((k : Nat) : Int) < 0 := by omega
  unfold cpopCommit procAt
  rw [if_neg hk0, Int.toNat_natCast, hk]
  simp only
  rw [if_pos ht]

/-- One iteration of the assignment loop of `scheduleCPOP`: when every processor's time
vector has a slot for the task and some candidate finish time is below `INT_MAX`, the
finish time is written into the task's slot of the first processor that attains the
least candidate. -/
theorem cpopStep_spec (tasks : List Task) (up : List Int) (ps : List Processor) (t : Nat)
    (tk : Task) (rank : Int) (htk : tasks[t]? = some tk) (hrank : up[t]? = some rank)
    (hne : ∀ pr ∈ ps, t < pr.availableTime.length)
    (hsome : ∃ pr ∈ ps, cpopCandidate rank tk.executionTime pr < INT_MAX) :
    ∃ k prk, ps[k]? = some prk ∧
      cpopStep tasks up ps t = some (ps.set k
        { prk with availableTime := prk.availableTime.set t
                     (cpopCandidate rank tk.executionTime prk),
                   totalExecutionTime := addInt prk.totalExecutionTime tk.executionTime }) ∧
      cpopCandidate rank tk.executionTime prk < INT_MAX ∧
      (∀ pr ∈ ps, cpopCandidate rank tk.executionTime prk
        ≤ cpopCandidate rank tk.executionTime pr) ∧
      (∀ j prj, j < k → ps[j]? = some prj →
        cpopCandidate rank tk.executionTime prk < cpopCandidate rank tk.executionTime prj) := by
  obtain ⟨m, b, hmb, h⟩ := cpopBest_spec rank tk.executionTime ps 0 INT_MAX (-1)
    (fun pr hpr => lt_of_le_of_lt (Nat.zero_le _) (hne pr hpr))
  rcases h with ⟨_, _, hall⟩ | ⟨k, prk, hk, hb, hm, hlt, hall, hfirst⟩
  · obtain ⟨pr, hpr, hlt⟩ := hsome
    have := hall pr hpr
    omega
  · refine ⟨k, prk, hk, ?_, by rw [← hm]; exact hlt, by rw [← hm]; exact hall,
      by rw [← hm]; exact hfirst⟩
    unfold cpopStep
    rw [htk, hrank]
    simp only
    rw [hmb]
    simp only
    rw [hb, Nat.zero_add, hm]
    exact cpopCommit_eq ps k prk t _ _ hk (hne prk (List.getElem?_mem hk))

theorem maxElement_set_le (l : List Int) (t : Nat) (v : Int) (ht : t < l.length)
    (hv : (maxElement l).getD 0 ≤ v) : (maxElement (l.set t v)).getD 0 ≤ v := by
  obtain ⟨w, hw, _, hwmax⟩ := maxElement_spec l (by omega)
  obtain ⟨w1, hw1, hmem1, _⟩ := maxElement_spec (l.set t v) (by rw [List.length_set]; omega)
  rw [hw] at hv
  rw [hw1]
  rcases List.mem_or_eq_of_mem_set hmem1 with h | h
  · exact le_trans (hwmax w1 h) hv
  · rw [h]; rfl

theorem maxElement_set_ge (l : List Int) (t : Nat) (v : Int) (ht : t < l.length) :
    v ≤ (maxElement (l.set t v)).getD 0 := by
  obtain ⟨w1, hw1, _, hmax⟩ := maxElement_spec (l.set t v) (by rw [List.length_set]; omega)
  rw [hw1]
  exact hmax v (List.getElem?_mem (List.getElem?_set_self ht))

theorem maxElement_replicate_zero (n : Nat) :
    (maxElement (List.replicate n (0 : Int))).getD 0 = 0 := by
  by_cases hz : n = 0
  · rw [hz]; rfl
  · obtain ⟨w, hw1, hmem, _⟩ := maxElement_spec (List.replicate n (0 : Int))
      (by rw [List.length_replicate]; omega)
    rw [hw1, (List.mem_replicate.mp hmem).2]; rfl

theorem sum_map_add_const (S : Int) (f : Nat → Int) (l : List Nat) :
    (l.map (fun t => S + f t)).sum = l.length * S + (l.map f).sum := by
  induction l with
  | nil => simp
  | cons a rest ih =>
    rw [List.map_cons, List.sum_cons, ih, List.map_cons, List.sum_cons, List.length_cons]
    push_cast
    ring

/-- The candidate finish time of `scheduleCPOP` is the mathematical sum when the
processor's largest recorded time and the rank are non-negative, the execution time is
positive and the sum is at most `INT_MAX`. -/
theorem cpopCandidate_eq (rank exec : Int) (pr : Processor)
    (hw : 0 ≤ (maxElement pr.availableTime).getD 0) (hr : 0 ≤ rank) (he : 0 ≤ exec)
    (hle : (maxElement pr.availableTime).getD 0 + rank + exec ≤ INT_MAX) :
    cpopCandidate rank exec pr = (maxElement pr.availableTime).getD 0 + rank + exec := by
  unfold cpopCandidate
  rw [addInt_eq _ rank (by omega) (by omega)]
  exact addInt_eq _ _ (by omega) (by omega)

/-- The assignment loop of `scheduleCPOP` counts every task of the remaining order and
leaves every processor's largest recorded time between 0 and the budget `B`, as long as
the ranks are positive and at most `S`, and every processor's largest recorded time is
non-negative and, increased by `S + executionTime` for each remaining task, stays within
`B`, which is below `INT_MAX`. -/
theorem cpopLoop_count (tasks : List Task) (up : List Int) (S B : Int)
    (hp : ExecPositive tasks) (hlen : up.length = tasks.length)
    (hrank : ∀ t, t < tasks.length → 0 < up.getD t 0 ∧ up.getD t 0 ≤ S) (hS : 0 ≤ S)
    (hB : B < INT_MAX)
    (rem : List Nat) (ps : List Processor) (count : Int)
    (hrem : ∀ t ∈ rem, t < tasks.length)
    (hps : ps ≠ []) (hne : ∀ pr ∈ ps, pr.availableTime.length = tasks.length)
    (hlow : ∀ pr ∈ ps, 0 ≤ (maxElement pr.availableTime).getD 0)
    (hbound : ∀ pr ∈ ps, (maxElement pr.availableTime).getD 0
      + (rem.map (fun t => S + execOf tasks t)).sum ≤ B) :
    ∃ ps1, cpopLoop tasks up rem ps count = some (ps1, count + rem.length) ∧ ps1 ≠ [] ∧
      ∀ pr ∈ ps1, pr.availableTime.length = tasks.length ∧
        0 ≤ (maxElement pr.availableTime).getD 0 ∧
        (maxElement pr.availableTime).getD 0 ≤ B := by
  induction rem generalizing ps count with
  | nil =>
    refine ⟨ps, by simp [cpopLoop], hps, ?_⟩
    intro pr hpr
    have := hbound pr hpr
    rw [List.map_nil, List.sum_nil] at this
    exact ⟨hne pr hpr, hlow pr hpr, by omega⟩
  | cons t rest ih =>
    have ht := hrem t (List.mem_cons_self _ _)
    have hrest : ∀ x ∈ rest, x < tasks.length := fun x hx => hrem x (List.mem_cons_of_mem _ hx)
    obtain ⟨tk, htk⟩ : ∃ tk, tasks[t]? = some tk := ⟨tasks[t], List.getElem?_eq_getElem ht⟩
    have hexec : execOf tasks t = tk.executionTime := execOf_eq tasks t tk htk
    have hr : up[t]? = some (up.getD t 0) := getElem?_eq_some_getD up t (by omega)
    have hnn : 0 ≤ (rest.map (fun t => S + execOf tasks t)).sum := by
      apply List.sum_nonneg
      intro x hx
      obtain ⟨y, hy, rfl⟩ := List.mem_map.mp hx
      have := hp y (hrest y hy)
      omega
    have hpos := hp t ht
    rw [List.map_cons, List.sum_cons, hexec] at hbound
    rw [hexec] at hpos
    have hrk := hrank t ht
    have hslot : ∀ pr ∈ ps, t < pr.availableTime.length := by
      intro pr hpr
      rw [hne pr hpr]; exact ht
    have hcval : ∀ pr ∈ ps, cpopCandidate (up.getD t 0) tk.executionTime pr
        = (maxElement pr.availableTime).getD 0 + up.getD t 0 + tk.executionTime := by
      intro pr hpr
      have h1 := hbound pr hpr
      have h2 := hlow pr hpr
      exact cpopCandidate_eq _ _ pr h2 (by omega) (by omega) (by omega)
    have hcand : ∀ pr ∈ ps, cpopCandidate (up.getD t 0) tk.executionTime pr
        + (rest.map (fun t => S + execOf tasks t)).sum ≤ B := by
      intro pr hpr
      have h1 := hbound pr hpr
      rw [hcval pr hpr]
      omega
    obtain ⟨pr0, hpr0⟩ := List.exists_mem_of_ne_nil ps hps
    obtain ⟨k, prk, hk, hstep, _, _, _⟩ := cpopStep_spec tasks up ps t tk (up.getD t 0) htk hr
      hslot ⟨pr0, hpr0, by have := hcand pr0 hpr0; omega⟩
    unfold cpopLoop
    rw [hstep]
    simp only
    have hkmem : prk ∈ ps := List.getElem?_mem hk
    obtain ⟨ps1, h1, h2, h3⟩ := ih (ps.set k
        { prk with availableTime := prk.availableTime.set t
                     (cpopCandidate (up.getD t 0) tk.executionTime prk),
                   totalExecutionTime := addInt prk.totalExecutionTime tk.executionTime })
      (count + 1) hrest
      (by
        intro h
        have hkl : k < ps.length := (List.getElem?_eq_some.mp hk).1
        have := congrArg List.length h
        rw [List.length_set, List.length_nil] at this
        omega)
      (by
        intro pr hpr
        rcases List.mem_or_eq_of_mem_set hpr with h | h
        · exact hne pr h
        · rw [h]
          simp only [List.length_set]
          exact hne prk hkmem)
      (by
        intro pr hpr
        rcases List.mem_or_eq_of_mem_set hpr with h | h
        · exact hlow pr h
        · rw [h]
          simp only
          have hge := maxElement_set_ge prk.availableTime t
            (cpopCandidate (up.getD t 0) tk.executionTime prk) (hslot prk hkmem)
          have := hcval prk hkmem
          have := hlow prk hkmem
          omega)
      (by
        intro pr hpr
        rcases List.mem_or_eq_of_mem_set hpr with h | h
        · have := hbound pr h
          omega
        · rw [h]
          simp only
          have hle := maxElement_set_le prk.availableTime t
            (cpopCandidate (up.getD t 0) tk.executionTime prk) (hslot prk hkmem)
            (by rw [hcval prk hkmem]; omega)
          have := hcand prk hkmem
          omega)
    refine ⟨ps1, ?_, h2, h3⟩
    rw [h1, List.length_cons]
    push_cast
    congr 2
    ring

/-- On a well-formed task list, with at least one processor, an empty incoming processor
collection and `(number of tasks + 1)` times the summed execution time below `INT_MAX`,
`scheduleCPOP` returns the number of tasks. -/
theorem scheduleCPOP_count_of_bound (tasks : List Task) (numProcessors : Int)
    (hw : WellFormed tasks) (hn : 1 ≤ numProcessors)
    (hb : (tasks.length + 1) * sequentialExecutionTime tasks < INT_MAX) :
    ∃ r, scheduleCPOP tasks numProcessors [] = some r ∧ r.count = tasks.length ∧
      r.tasks = tasks := by
  have hnn := execPositive_nonneg tasks hw.2
  have hS0 := sequentialExecutionTime_nonneg tasks hnn
  have hSle : sequentialExecutionTime tasks ≤ INT_MAX := by
    have h1 : 0 ≤ (tasks.length : Int) * sequentialExecutionTime tasks :=
      mul_nonneg (Int.ofNat_nonneg _) hS0
    have h2 : ((tasks.length : Int) + 1) * sequentialExecutionTime tasks
        = (tasks.length : Int) * sequentialExecutionTime tasks
          + sequentialExecutionTime tasks := by ring
    omega
  obtain ⟨up, hup, hlen, hrec⟩ := computeUpwardRanks_rec tasks hw.1 hnn hSle
  obtain ⟨down, hdown, _⟩ := computeDownwardRanks_some tasks
  have hperm : (cpopSortedTasks tasks.length up down).Perm (List.range tasks.length) :=
    List.perm_insertionSort _ _
  have hsum : ((cpopSortedTasks tasks.length up down).map
      (fun t => sequentialExecutionTime tasks + execOf tasks t)).sum
      = (tasks.length + 1) * sequentialExecutionTime tasks := by
    rw [sum_map_add_const, sum_exec_perm_range tasks _ hperm, hperm.length_eq,
      List.length_range]
    ring
  obtain ⟨ps1, h1, _, _⟩ := cpopLoop_count tasks up (sequentialExecutionTime tasks)
    ((tasks.length + 1) * sequentialExecutionTime tasks) hw.2 hlen
    (fun t ht =>
      ⟨lt_of_lt_of_le (hw.2 t ht)
        (upRec_bounds tasks hw.1 hnn up tasks.length (le_refl _) hrec t ht).1,
       le_trans (upRec_bounds tasks hw.1 hnn up tasks.length (le_refl _) hrec t ht).2
        (execSum_le_total tasks hnn t ht)⟩)
    hS0 hb (cpopSortedTasks tasks.length up down)
    (pushProcessors numProcessors tasks.length []) 0
    (fun t ht => List.mem_range.mp (hperm.mem_iff.mp ht))
    (pushProcessors_nil_ne_nil numProcessors tasks.length hn)
    (by
      intro pr hpr
      rw [(pushProcessors_nil_mem numProcessors tasks.length pr hpr).1]
      simp)
    (by
      intro pr hpr
      rw [(pushProcessors_nil_mem numProcessors tasks.length pr hpr).1,
        maxElement_replicate_zero])
    (by
      intro pr hpr
      rw [(pushProcessors_nil_mem numProcessors tasks.length pr hpr).1, hsum,
        maxElement_replicate_zero]
      omega)
  refine ⟨⟨0 + ((cpopSortedTasks tasks.length up down).length : Int), ps1, tasks⟩, ?_, ?_, rfl⟩
  · unfold scheduleCPOP
    rw [hup, hdown]
    simp only
    rw [h1]
  · simp only
    rw [hperm.length_eq, List.length_range]
    simp

/-- The hypotheses of `scheduleCPOP_count_of_bound` hold on `rankExample` with two
processors. -/
theorem scheduleCPOP_count_of_bound_witness :
    WellFormed rankExample ∧ (1 : Int) ≤ 2 ∧
    ((rankExample.length : Int) + 1) * sequentialExecutionTime rankExample < INT_MAX ∧
    ∃ r, scheduleCPOP rankExample 2 [] = some r ∧ r.count = rankExample.length ∧
      r.tasks = rankExample :=
  ⟨by decide, by decide, by decide,
    scheduleCPOP_count_of_bound rankExample 2 (by decide) (by decide) (by decide)⟩

/-! ## The two upward-rank computations agree -/

theorem upRec_eq_fold (tasks : List Task) (u : List Int) (i : Nat) (h : UpRec tasks u i) :
    u.getD i 0 =
      execOf tasks i + (depsOf tasks i).foldl (fun acc x => max acc (u.getD x 0)) 0 := by
  obtain ⟨h1, h2, h3⟩ := h
  have hf := foldl_max_unique (fun x => u.getD x 0) (depsOf tasks i) 0
    (u.getD i 0 - execOf tasks i) (by omega)
    (fun x hx => by have := h2 x hx; simp only; omega)
    (by
      rcases h3 with h | ⟨x, hx, h⟩
      · left; omega
      · right; exact ⟨x, hx, by simp only; omega⟩)
  rw [hf]
  omega

theorem heftUpRec_eq_upRec (tasks : List Task) (hw : DepsBelow tasks) (h u : List Int)
    (hh : ∀ i, i < tasks.length → HeftUpRec tasks h i)
    (hu : ∀ i, i < tasks.length → UpRec tasks u i) (i : Nat) (hi : i < tasks.length) :
    h.getD i 0 = u.getD i 0 := by
  induction i using Nat.strong_induction_on with
  | _ i ih =>
    have h1 := hh i hi
    unfold HeftUpRec at h1
    rw [h1, upRec_eq_fold tasks u i (hu i hi)]
    congr 1
    apply foldl_max_congr (fun x => h.getD x 0) (fun x => u.getD x 0)
    intro x hx
    have hlt : x < i := hw i hi x hx
    exact ih x hlt (by omega)

theorem list_eq_of_getD (a b : List Int) (hlen : a.length = b.length)
    (h : ∀ i, i < a.length → a.getD i 0 = b.getD i 0) : a = b := by
  apply List.ext_getElem?
  intro i
  by_cases hi : i < a.length
  · rw [getElem?_eq_some_getD a i hi, getElem?_eq_some_getD b i (by omega), h i hi]
  · rw [List.getElem?_eq_none (by omega), List.getElem?_eq_none (by omega)]

/-- C16, as stated, fails: on `overflowChain` (dependency indices below the task's own
index, positive execution times) the sum 2000000000 + 2000000000 wraps to -294967296;
the inline pass of `scheduleHEFT` stores the wrapped sum as the rank of task 1 (line 144),
whereas `computeUpwardRanks` discards it under `max` and keeps 2000000000 (line 39), so
the two vectors differ. -/
theorem heftUpwardRanks_eq_computeUpwardRanks_counterexample :
    DepsBelow overflowChain ∧ ExecPositive overflowChain ∧
    heftUpwardRanks overflowChain = some [2000000000, -294967296] ∧
    computeUpwardRanks overflowChain = some [2000000000, 2000000000] ∧
    ¬ (∃ r, heftUpwardRanks overflowChain = some r ∧
        computeUpwardRanks overflowChain = some r) := by
  refine ⟨by decide, by decide, by decide, by decide, ?_⟩
  rintro ⟨r, h1, h2⟩
  have h3 : heftUpwardRanks overflowChain = some [2000000000, -294967296] := by decide
  have h4 : computeUpwardRanks overflowChain = some [2000000000, 2000000000] := by decide
  rw [h3] at h1
  rw [h4] at h2
  cases h1
  revert h2
  decide

/-- C16 (amended): on a task list whose dependency indices all lie strictly below the
task's own index, whose execution times are non-negative and whose summed execution time
is at most `INT_MAX`, the upward-rank vector that `scheduleHEFT` computes inline
(execution time plus the largest predecessor rank, 0 when there is none) and the vector
returned by `computeUpwardRanks` are both produced and are the same vector. -/
theorem heftUpwardRanks_eq_computeUpwardRanks (tasks : List Task) (hw : DepsBelow tasks)
    (hnn : ExecNonneg tasks) (hS : sequentialExecutionTime tasks ≤ INT_MAX) :
    ∃ r, heftUpwardRanks tasks = some r ∧ computeUpwardRanks tasks = some r ∧
      r.length = tasks.length := by
  obtain ⟨h, hh, hlenh, hrech⟩ := heftUpwardRanks_rec tasks hw hnn hS
  obtain ⟨u, hu, hlenu, hrecu⟩ := computeUpwardRanks_rec tasks hw hnn hS
  have heq : h = u := list_eq_of_getD h u (by omega)
    (fun i hi => heftUpRec_eq_upRec tasks hw h u hrech hrecu i (by omega))
  refine ⟨h, hh, ?_, hlenh⟩
  rw [heq]
  exact hu

/-- The hypotheses of the amended C16 hold on `rankExample`, and the theorem applies
there. -/
theorem heftUpwardRanks_eq_computeUpwardRanks_witness :
    DepsBelow rankExample ∧ ExecNonneg rankExample ∧
    sequentialExecutionTime rankExample ≤ INT_MAX ∧
    ∃ r, heftUpwardRanks rankExample = some r ∧ computeUpwardRanks rankExample = some r ∧
      r.length = rankExample.length :=
  ⟨by decide, by decide, by decide,
    heftUpwardRanks_eq_computeUpwardRanks rankExample (by decide) (by decide) (by decide)⟩

/-! ## The priority order of scheduleHEFT -/

theorem edfLoop_cons (np : Int) (t : Task) (rest : List Task) (s : EdfState) :
    edfLoop np (t :: rest) s = (edfStep np s t).bind (edfLoop np rest) := by
  rw [edfLoop]
  cases edfStep np s t <;> rfl

theorem edfLoop_append (np : Int) (a b : List Task) (s : EdfState) :
    edfLoop np (a ++ b) s = (edfLoop np a s).bind (edfLoop np b) := by
  induction a generalizing s with
  | nil => rfl
  | cons t rest ih =>
    rw [List.cons_append, edfLoop_cons, edfLoop_cons]
    cases edfStep np s t with
    | none => rfl
    | some s1 => exact ih s1

theorem edfLoop_singleton (np : Int) (t : Task) (s : EdfState) :
    edfLoop np [t] s = edfStep np s t := by
  unfold edfLoop
  cases edfStep np s t with
  | none => rfl
  | some s1 => rfl

theorem sortByDeadline_length (tasks : List Task) :
    (sortByDeadline tasks).length = tasks.length :=
  List.length_insertionSort _ _

theorem edfStateAfter_succ (tasks : List Task) (np : Int) (k : Nat) (t : Task)
    (ht : (sortByDeadline tasks)[k]? = some t) :
    edfStateAfter tasks np (k + 1) =
      (edfStateAfter tasks np k).bind (fun s => edfStep np s t) := by
  unfold edfStateAfter
  rw [List.take_succ, ht, edfLoop_append]
  congr 1
  funext s
  exact edfLoop_singleton np t s

theorem edfStateAfter_zero (tasks : List Task) (np : Int) :
    edfStateAfter tasks np 0 = some (edfInitial tasks np) := rfl

theorem scheduleD_EDF_eq (tasks : List Task) (np : Int) :
    scheduleD_EDF tasks np [] =
      (edfStateAfter tasks np tasks.length).map (fun s =>
        { count := s.successfullyScheduledTasks, processors := s.processors,
          tasks := sortByDeadline tasks }) := by
  unfold scheduleD_EDF edfStateAfter edfInitial
  rw [List.take_of_length_le (by rw [sortByDeadline_length])]
  simp only
  cases edfLoop np (sortByDeadline tasks) _ with
  | none => rfl
  | some s => rfl

theorem procsOk_set (ps : List Processor) (p : Nat) (pr : Processor) (h : ProcsOk ps)
    (hpr : 0 < pr.availableTime.length) : ProcsOk (ps.set p pr) := by
  refine ⟨?_, ?_⟩
  · intro hnil
    have := congrArg List.length hnil
    rw [List.length_set, List.length_nil] at this
    exact h.1 (List.length_eq_zero.mp this)
  · intro x hx
    rcases List.mem_or_eq_of_mem_set hx with h1 | h1
    · exact h.2 x h1
    · rw [h1]; exact hpr

theorem assignTo_eq (ps : List Processor) (p : Nat) (pr : Processor) (exec : Int)
    (hp : ps[p]? = some pr) (hpr : 0 < pr.availableTime.length) :
    assignTo ps p exec = some (ps.set p
      { pr with availableTime := pr.availableTime.set 0
                  (addInt (pr.availableTime.getD 0 0) exec),
                totalExecutionTime := addInt pr.totalExecutionTime exec }) := by
  unfold assignTo
  rw [hp]
  simp only
  rw [getElem?_eq_some_getD _ _ hpr]

theorem assignTo_procsOk (ps ps1 : List Processor) (p : Nat) (exec : Int) (h : ProcsOk ps)
    (ha : assignTo ps p exec = some ps1) : ProcsOk ps1 := by
  unfold assignTo at ha
  cases hp : ps[p]? with
  | none => rw [hp] at ha; cases ha
  | some pr =>
    rw [hp] at ha
    simp only at ha
    cases ha0 : pr.availableTime[0]? with
    | none => rw [ha0] at ha; cases ha
    | some a =>
      rw [ha0] at ha
      simp only at ha
      cases ha
      apply procsOk_set ps p _ h
      simp only [List.length_set]
      exact h.2 pr (List.getElem?_mem hp)

theorem minElementFrom_some (rest : List Processor) (p best : Nat) (smallest : Processor)
    (hrest : ∀ pr ∈ rest, 0 < pr.availableTime.length)
    (hs : 0 < smallest.availableTime.length) :
    ∃ b, minElementFrom rest p best smallest = some b ∧
      (b = best ∨ (p ≤ b ∧ b < p + rest.length)) := by
  induction rest generalizing p best smallest with
  | nil => exact ⟨best, rfl, Or.inl rfl⟩
  | cons pr rest ih =>
    have hpr := hrest pr (List.mem_cons_self _ _)
    have hr : ∀ x ∈ rest, 0 < x.availableTime.length :=
      fun x hx => hrest x (List.mem_cons_of_mem _ hx)
    unfold minElementFrom
    rw [getElem?_eq_some_getD _ _ hpr, getElem?_eq_some_getD _ _ hs]
    simp only
    by_cases hlt : pr.availableTime.getD 0 0 < smallest.availableTime.getD 0 0
    · rw [if_pos hlt]
      obtain ⟨b, hb, h⟩ := ih (p + 1) p pr hr hpr
      refine ⟨b, hb, Or.inr ?_⟩
      rw [List.length_cons]
      rcases h with h | h <;> omega
    · rw [if_neg hlt]
      obtain ⟨b, hb, h⟩ := ih (p + 1) best smallest hr hs
      refine ⟨b, hb, ?_⟩
      rw [List.length_cons]
      rcases h with h | h
      · exact Or.inl h
      · right; omega

theorem minElement_some (ps : List Processor) (h : ProcsOk ps) :
    ∃ b, minElement ps = some b ∧ b < ps.length := by
  cases ps with
  | nil => exact absurd rfl h.1
  | cons pr rest =>
    obtain ⟨b, hb, hb2⟩ := minElementFrom_some rest 1 0 pr
      (fun x hx => h.2 x (List.mem_cons_of_mem _ hx)) (h.2 pr (List.mem_cons_self _ _))
    refine ⟨b, hb, ?_⟩
    rw [List.length_cons]
    rcases hb2 with h1 | h1 <;> omega

/-- In the `useDM` branch an iteration of the task loop never fails on an indexable
processor collection: the task is committed to the processor `min_element` selects and
counted, and the branch is kept. -/
theorem edfStep_dm (np : Int) (s : EdfState) (task : Task) (hdm : s.useDM = true)
    (hok : ProcsOk s.processors) :
    ∃ p ps, minElement s.processors = some p ∧
      assignTo s.processors p task.executionTime = some ps ∧
      edfStep np s task =
        some { s with processors := ps,
                      successfullyScheduledTasks := s.successfullyScheduledTasks + 1 } ∧
      ProcsOk ps := by
  obtain ⟨p, hp, hlt⟩ := minElement_some s.processors hok
  have hget : s.processors[p]? = some s.processors[p] := List.getElem?_eq_getElem hlt
  have ha := assignTo_eq s.processors p _ task.executionTime hget
    (hok.2 _ (List.getElem?_mem hget))
  refine ⟨p, _, hp, ha, ?_, assignTo_procsOk _ _ _ _ hok ha⟩
  unfold edfStep
  rw [if_pos hdm, hp]
  simp only
  rw [ha]

/-- An iteration of the task loop in the deadline-checking branch either assigns and
counts the task, leaving the counter alone, or drops it, leaving processors and count
alone and either switching to `useDM` (counter reaches 2, reset to 0) or incrementing the
counter. -/
theorem edfStep_adaptive (np : Int) (s s1 : EdfState) (task : Task)
    (hdm : s.useDM = false) (h : edfStep np s task = some s1) :
    (s1.successfullyScheduledTasks = s.successfullyScheduledTasks + 1 ∧
      s1.missedDeadlines = s.missedDeadlines ∧ s1.useDM = false ∧
      ∃ idx, assignTo s.processors idx task.executionTime = some s1.processors) ∨
    (s1.processors = s.processors ∧
      s1.successfullyScheduledTasks = s.successfullyScheduledTasks ∧
      ((2 ≤ s.missedDeadlines + 1 ∧ s1.useDM = true ∧ s1.missedDeadlines = 0) ∨
       (s.missedDeadlines + 1 < 2 ∧ s1.useDM = false ∧
         s1.missedDeadlines = s.missedDeadlines + 1))) := by
  unfold edfStep at h
  have hne : ¬ (s.useDM = true) := by rw [hdm]; decide
  rw [if_neg hne] at h
  cases he : edfEarliest (s.processors.take np.toNat) 0 (-1) INT_MAX with
  | none => rw [he] at h; cases h
  | some pe =>
    obtain ⟨idx, e⟩ := pe
    rw [he] at h
    simp only at h
    by_cases hd : e ≤ task.deadline
    · rw [if_pos hd] at h
      by_cases hneg : idx < 0
      · rw [if_pos hneg] at h; cases h
      · rw [if_neg hneg] at h
        cases ha : assignTo s.processors idx.toNat task.executionTime with
        | none => rw [ha] at h; cases h
        | some ps =>
          rw [ha] at h
          simp only at h
          cases h
          exact Or.inl ⟨rfl, rfl, hdm, idx.toNat, ha⟩
    · rw [if_neg hd] at h
      right
      by_cases h2 : s.missedDeadlines + 1 ≥ 2
      · rw [if_pos h2] at h
        cases h
        exact ⟨rfl, rfl, Or.inl ⟨h2, rfl, rfl⟩⟩
      · rw [if_neg h2] at h
        cases h
        exact ⟨rfl, rfl, Or.inr ⟨by omega, hdm, rfl⟩⟩

/-- An iteration of the task loop in the `useDM` branch, when it succeeds, counts the
task and keeps the branch and the counter. -/
theorem edfStep_dm_count (np : Int) (s s1 : EdfState) (task : Task)
    (hdm : s.useDM = true) (h : edfStep np s task = some s1) :
    s1.successfullyScheduledTasks = s.successfullyScheduledTasks + 1 ∧
      s1.useDM = true ∧ s1.missedDeadlines = s.missedDeadlines ∧
      ∃ p, assignTo s.processors p task.executionTime = some s1.processors := by
  unfold edfStep at h
  rw [if_pos hdm] at h
  cases hm : minElement s.processors with
  | none => rw [hm] at h; cases h
  | some p =>
    rw [hm] at h
    simp only at h
    cases ha : assignTo s.processors p task.executionTime with
    | none => rw [ha] at h; cases h
    | some ps =>
      rw [ha] at h
      simp only at h
      cases h
      exact ⟨rfl, hdm, rfl, p, ha⟩

theorem edfInv_step (np : Int) (k : Nat) (s s1 : EdfState) (task : Task)
    (hinv : EdfInv k s) (h : edfStep np s task = some s1) : EdfInv (k + 1) s1 := by
  obtain ⟨hok, hcase⟩ := hinv
  rcases hcase with ⟨hdm, h0, h1, hk⟩ | ⟨hdm, hk⟩
  · rcases edfStep_adaptive np s s1 task hdm h with
      ⟨hc, hm, hd, idx, ha⟩ | ⟨hp, hc, ⟨h2, hd, hm⟩ | ⟨h2, hd, hm⟩⟩
    · refine ⟨assignTo_procsOk _ _ _ _ hok ha, Or.inl ⟨hd, ?_, ?_, ?_⟩⟩
      · omega
      · omega
      · rw [hc, hm]; push_cast; omega
    · refine ⟨by rw [hp]; exact hok, Or.inr ⟨hd, ?_⟩⟩
      rw [hc]; push_cast; omega
    · refine ⟨by rw [hp]; exact hok, Or.inl ⟨hd, ?_, ?_, ?_⟩⟩
      · omega
      · omega
      · rw [hc, hm]; push_cast; omega
  · obtain ⟨hc, hd, _, p, ha⟩ := edfStep_dm_count np s s1 task hdm h
    refine ⟨assignTo_procsOk _ _ _ _ hok ha, Or.inr ⟨hd, ?_⟩⟩
    rw [hc]; push_cast; omega

theorem edfInitial_procsOk (tasks : List Task) (np : Int) (hn : 1 ≤ np)
    (hlen : 0 < tasks.length) : ProcsOk (edfInitial tasks np).processors := by
  refine ⟨pushProcessors_nil_ne_nil np tasks.length hn, ?_⟩
  intro pr hpr
  have := (pushProcessors_nil_mem np tasks.length pr hpr).1
  rw [this, List.length_replicate]
  exact hlen

theorem sortByDeadline_getElem? (tasks : List Task) (k : Nat) (hk : k < tasks.length) :
    ∃ t, (sortByDeadline tasks)[k]? = some t := by
  have h : k < (sortByDeadline tasks).length := by rw [sortByDeadline_length]; exact hk
  exact ⟨(sortByDeadline tasks)[k], List.getElem?_eq_getElem h⟩

/-- Every state that the task loop of `scheduleD_EDF` reaches satisfies the loop
invariant. -/
theorem edfInv_reach (tasks : List Task) (np : Int) (hn : 1 ≤ np) (k : Nat)
    (hk : k ≤ tasks.length) (hlen : 0 < tasks.length) (s : EdfState)
    (hs : edfStateAfter tasks np k = some s) : EdfInv k s := by
  induction k generalizing s with
  | zero =>
    rw [edfStateAfter_zero] at hs
    cases hs
    exact ⟨edfInitial_procsOk tasks np hn hlen, Or.inl ⟨rfl, le_refl _,
      (by show (0 : Int) ≤ 1; decide), rfl⟩⟩
  | succ k ih =>
    obtain ⟨t, ht⟩ := sortByDeadline_getElem? tasks k (by omega)
    rw [edfStateAfter_succ tasks np k t ht] at hs
    cases hprev : edfStateAfter tasks np k with
    | none => rw [hprev] at hs; cases hs
    | some s0 =>
      rw [hprev] at hs
      exact edfInv_step np k s0 s t (ih (by omega) s0 hprev) hs

theorem edf_dm_from (tasks : List Task) (np : Int) (k : Nat) (s0 : EdfState)
    (hs0 : edfStateAfter tasks np k = some s0) (hdm0 : s0.useDM = true)
    (hok0 : ProcsOk s0.processors) (j : Nat) (hkj : k ≤ j) (hj : j ≤ tasks.length) :
    ∃ s, edfStateAfter tasks np j = some s ∧ s.useDM = true ∧ ProcsOk s.processors := by
  induction j, hkj using Nat.le_induction with
  | base => exact ⟨s0, hs0, hdm0, hok0⟩
  | succ j hkj ih =>
    obtain ⟨s, hs, hdm, hok⟩ := ih (by omega)
    obtain ⟨t, ht⟩ := sortByDeadline_getElem? tasks j (by omega)
    obtain ⟨p, ps, _, _, hstep, hok1⟩ := edfStep_dm np s t hdm hok
    refine ⟨{ s with processors := ps,
                     successfullyScheduledTasks := s.successfullyScheduledTasks + 1 },
      ?_, hdm, hok1⟩
    rw [edfStateAfter_succ tasks np j t ht, hs]
    exact hstep

/-- C11: in the driver's call of `scheduleD_EDF` with at least one processor, if the
tasks at two consecutive positions `k` and `k + 1` of the deadline-sorted order are both
dropped, then every task at a later position is assigned in the `useDM` branch (no
deadline check) and counted, every later state is in the `useDM` branch, and the call
returns, with all tasks but those two counted. -/
theorem edf_two_consecutive_drops (tasks : List Task) (np : Int) (k : Nat) (hn : 1 ≤ np)
    (h1 : DroppedAt tasks np k) (h2 : DroppedAt tasks np (k + 1)) :
    (∀ j, k + 2 ≤ j → j < tasks.length → AssignedUncheckedAt tasks np j) ∧
    (∀ j, k + 2 ≤ j → j ≤ tasks.length →
      ∃ s, edfStateAfter tasks np j = some s ∧ s.useDM = true) ∧
    (∃ r, scheduleD_EDF tasks np [] = some r ∧ r.count = (tasks.length : Int) - 2) := by
  obtain ⟨hk, sk, sk1, hsk, hsk1, hc1⟩ := h1
  obtain ⟨hk1, sk1b, sk2, hsk1b, hsk2, hc2⟩ := h2
  rw [hsk1] at hsk1b
  cases hsk1b
  obtain ⟨tk, htk⟩ := sortByDeadline_getElem? tasks k hk
  obtain ⟨tk1, htk1⟩ := sortByDeadline_getElem? tasks (k + 1) hk1
  have hstep1 : edfStep np sk tk = some sk1 := by
    have := edfStateAfter_succ tasks np k tk htk
    rw [hsk, hsk1] at this
    exact this.symm
  have hstep2 : edfStep np sk1 tk1 = some sk2 := by
    have := edfStateAfter_succ tasks np (k + 1) tk1 htk1
    rw [hsk1, hsk2] at this
    exact this.symm
  have hinv := edfInv_reach tasks np hn k (by omega) (by omega) sk hsk
  have hinv2 := edfInv_reach tasks np hn (k + 2) (by omega) (by omega) sk2 hsk2
  -- the state after position k + 1 is in the `useDM` branch
  have hdm2 : sk2.useDM = true := by
    cases hdm : sk.useDM with
    | true =>
      have := (edfStep_dm_count np sk sk1 tk hdm hstep1).1
      omega
    | false =>
      have hm0 : 0 ≤ sk.missedDeadlines := by
        rcases hinv.2 with ⟨_, h0, _, _⟩ | ⟨hd, _⟩
        · exact h0
        · rw [hdm] at hd; cases hd
      rcases edfStep_adaptive np sk sk1 tk hdm hstep1 with
        ⟨hc, _⟩ | ⟨_, _, ⟨_, hd1, _⟩ | ⟨_, hd1, hm1⟩⟩
      · omega
      · have := (edfStep_dm_count np sk1 sk2 tk1 hd1 hstep2).1
        omega
      · rcases edfStep_adaptive np sk1 sk2 tk1 hd1 hstep2 with
          ⟨hc, _⟩ | ⟨_, _, ⟨_, hd2, _⟩ | ⟨hlt, _, _⟩⟩
        · omega
        · exact hd2
        · omega
  have hfrom := edf_dm_from tasks np (k + 2) sk2 hsk2 hdm2 hinv2.1
  refine ⟨?_, ?_, ?_⟩
  · intro j hkj hj
    obtain ⟨s, hs, hdm, hok⟩ := hfrom j hkj (by omega)
    obtain ⟨t, ht⟩ := sortByDeadline_getElem? tasks j hj
    obtain ⟨p, ps, hp, ha, hstep, _⟩ := edfStep_dm np s t hdm hok
    refine ⟨s, t, p, ps, hs, ht, hdm, hp, ha, ?_⟩
    rw [edfStateAfter_succ tasks np j t ht, hs]
    exact hstep
  · intro j hkj hj
    obtain ⟨s, hs, hdm, _⟩ := hfrom j hkj hj
    exact ⟨s, hs, hdm⟩
  · obtain ⟨s, hs, hdm, _⟩ := hfrom tasks.length (by omega) (le_refl _)
    have hinvn := edfInv_reach tasks np hn tasks.length (le_refl _) (by omega) s hs
    refine ⟨_, by rw [scheduleD_EDF_eq, hs]; rfl, ?_⟩
    simp only
    rcases hinvn.2 with ⟨hd, _⟩ | ⟨_, hcount⟩
    · rw [hdm] at hd; cases hd
    · omega

/-- The hypotheses of C11 hold on `twoDropsExample` with one processor at positions 1 and
2, and the theorem applies there. -/
theorem edf_two_consecutive_drops_witness :
    (1 : Int) ≤ 1 ∧ DroppedAt twoDropsExample 1 1 ∧ DroppedAt twoDropsExample 1 2 ∧
    (∀ j, 1 + 2 ≤ j → j < twoDropsExample.length → AssignedUncheckedAt twoDropsExample 1 j) ∧
    (∀ j, 1 + 2 ≤ j → j ≤ twoDropsExample.length →
      ∃ s, edfStateAfter twoDropsExample 1 j = some s ∧ s.useDM = true) ∧
    (∃ r, scheduleD_EDF twoDropsExample 1 [] = some r ∧
      r.count = (twoDropsExample.length : Int) - 2) :=
  have hd1 : DroppedAt twoDropsExample 1 1 :=
    ⟨by decide, ⟨[⟨0, [5, 0, 0, 0], 5⟩], 0, false, 1⟩, ⟨[⟨0, [5, 0, 0, 0], 5⟩], 1, false, 1⟩,
      by decide, by decide, by decide⟩
  have hd2 : DroppedAt twoDropsExample 1 2 :=
    ⟨by decide, ⟨[⟨0, [5, 0, 0, 0], 5⟩], 1, false, 1⟩, ⟨[⟨0, [5, 0, 0, 0], 5⟩], 0, true, 1⟩,
      by decide, by decide, by decide⟩
  ⟨by decide, hd1, hd2, edf_two_consecutive_drops twoDropsExample 1 1 (by decide) hd1 hd2⟩

/-! ## The task vector after scheduleD_EDF -/

/-- The schedulers `scheduleHEFT` and `scheduleCPOP` hand back the task vector they were
given; `scheduleD_EDF` hands back the vector sorted by deadline. -/
theorem scheduler_tasks (tasks : List Task) (np : Int) (ps : List Processor)
    (r : SchedResult) :
    (scheduleD_EDF tasks np ps = some r → r.tasks = sortByDeadline tasks) ∧
    (scheduleHEFT tasks np ps = some r → r.tasks = tasks) ∧
    (scheduleCPOP tasks np ps = some r → r.tasks = tasks) := by
  refine ⟨?_, ?_, ?_⟩
  · intro h
    unfold scheduleD_EDF at h
    simp only at h
    split at h
    · cases h
    · cases h; rfl
  · intro h
    unfold scheduleHEFT at h
    split at h
    · split at h
      · cases h
      · cases h; rfl
    · cases h
  · intro h
    unfold scheduleCPOP at h
    split at h
    · split at h
      · cases h
      · cases h; rfl
    · cases h

/-- C12 fails on the code: `reorderExample` satisfies the dependency-index invariant, but
`scheduleD_EDF` sorts the caller's vector in place, so afterwards the dependent task
stands at index 0 with its dependency list `[0]` unchanged; the vector differs from the
input, violates the invariant, and `computeUpwardRanks`, `scheduleHEFT` and
`scheduleCPOP` give other results on it than on the input. -/
theorem scheduleD_EDF_reorders_tasks :
    DepsBelow reorderExample ∧
    (scheduleD_EDF reorderExample 2 []).map (fun r => r.tasks)
      = some [⟨2, 5, 1, [0]⟩, ⟨1, 10, 3, []⟩] ∧
    (scheduleD_EDF reorderExample 2 []).map (fun r => r.tasks) ≠ some reorderExample ∧
    ¬ DepsBelow [⟨2, 5, 1, [0]⟩, ⟨1, 10, 3, []⟩] ∧
    computeUpwardRanks reorderExample = some [3, 4] ∧
    computeUpwardRanks [⟨2, 5, 1, [0]⟩, ⟨1, 10, 3, []⟩] = some [2, 3] ∧
    (scheduleHEFT reorderExample 2 []).map (fun r => r.processors)
      = some [⟨0, [5], 1⟩, ⟨1, [6], 3⟩] ∧
    (scheduleHEFT [⟨2, 5, 1, [0]⟩, ⟨1, 10, 3, []⟩] 2 []).map (fun r => r.processors)
      = some [⟨0, [6], 3⟩, ⟨1, [2], 1⟩] ∧
    (scheduleCPOP reorderExample 2 []).map (fun r => r.processors)
      = some [⟨0, [6, 0], 3⟩, ⟨1, [0, 5], 1⟩] ∧
    (scheduleCPOP [⟨2, 5, 1, [0]⟩, ⟨1, 10, 3, []⟩] 2 []).map (fun r => r.processors)
      = some [⟨0, [0, 6], 3⟩, ⟨1, [3, 0], 1⟩] := by
  decide

/-! ## The driver's makespan for the CPOP run -/

/-- C15 fails on the code: after `scheduleCPOP` on `makespanExample` with two processors
the time vectors are `[0, 12]` and `[2, 0]`; the driver's loop reads slot 0 of each
processor only and obtains 2, while the largest recorded entry is 12. -/
theorem cpop_driver_makespan_slot_zero :
    (scheduleCPOP makespanExample 2 []).map (fun r => r.processors)
      = some [⟨0, [0, 12], 6⟩, ⟨1, [2, 0], 1⟩] ∧
    (scheduleCPOP makespanExample 2 []).bind (fun r => parallelExecutionTime r.processors 0)
      = some 2 ∧
    (scheduleCPOP makespanExample 2 []).bind (fun r => maxRecordedFinish r.processors)
      = some 12 ∧
    (scheduleCPOP makespanExample 2 []).bind (fun r => parallelExecutionTime r.processors 0)
      ≠ (scheduleCPOP makespanExample 2 []).bind (fun r => maxRecordedFinish r.processors) := by
  decide

/-! ## Zero processors -/

theorem pushProcessors_zero (slots : Nat) : pushProcessors 0 slots [] = [] := rfl

theorem heftStep_nil (tasks : List Task) (up : List Int) (t : Nat) :
    heftStep tasks up [] t = none := by
  unfold heftStep
  split
  · rfl
  · rfl

theorem cpopStep_nil (tasks : List Task) (up : List Int) (t : Nat) :
    cpopStep tasks up [] t = none := by
  unfold cpopStep
  split
  · rfl
  · rfl

theorem scheduleHEFT_zero (tasks : List Task) (hne : tasks ≠ []) :
    scheduleHEFT tasks 0 [] = none := by
  unfold scheduleHEFT
  split
  · rename_i up _ _ _
    rw [pushProcessors_zero]
    cases hs : heftSortedTasks tasks.length up with
    | nil =>
      have := congrArg List.length hs
      unfold heftSortedTasks at this
      rw [List.length_insertionSort, List.length_range, List.length_nil] at this
      exact absurd (List.length_eq_zero.mp this) hne
    | cons t rest =>
      rw [heftLoop, heftStep_nil]
  · rfl

theorem scheduleCPOP_zero (tasks : List Task) (hne : tasks ≠ []) :
    scheduleCPOP tasks 0 [] = none := by
  unfold scheduleCPOP
  split
  · rename_i up down _ _
    rw [pushProcessors_zero]
    cases hs : cpopSortedTasks tasks.length up down with
    | nil =>
      have := congrArg List.length hs
      unfold cpopSortedTasks at this
      rw [List.length_insertionSort, List.length_range, List.length_nil] at this
      exact absurd (List.length_eq_zero.mp this) hne
    | cons t rest =>
      rw [cpopLoop, cpopStep_nil]
  · rfl

theorem edfStep_zero_adaptive (m c : Int) (t : Task) :
    edfStep 0 ⟨[], m, false, c⟩ t =
      if INT_MAX ≤ t.deadline then none
      else if m + 1 ≥ 2 then some ⟨[], 0, true, c⟩ else some ⟨[], m + 1, false, c⟩ := by
  unfold edfStep
  simp only [Bool.false_eq_true, if_false]
  have he : edfEarliest (List.take (0 : Int).toNat ([] : List Processor)) 0 (-1) INT_MAX
      = some (-1, INT_MAX) := rfl
  rw [he]
  simp only
  by_cases h : INT_MAX ≤ t.deadline
  · rw [if_pos h, if_pos h]
    rfl
  · rw [if_neg h, if_neg h]

theorem edfStep_zero_dm (m c : Int) (t : Task) :
    edfStep 0 ⟨[], m, true, c⟩ t = none := rfl

theorem edfLoop_zero_some (l : List Task) (hlen : l.length ≤ 2)
    (hd : ∀ t ∈ l, t.deadline < INT_MAX) :
    ∃ s, edfLoop 0 l ⟨[], 0, false, 0⟩ = some s ∧ s.successfullyScheduledTasks = 0 ∧
      s.processors = [] := by
  have h1 : ¬ ((0 : Int) + 1 ≥ 2) := by decide
  have h2 : (0 : Int) + 1 + 1 ≥ 2 := by decide
  match l, hlen, hd with
  | [], _, _ => exact ⟨_, rfl, rfl, rfl⟩
  | [a], _, hd =>
    have ha : ¬ INT_MAX ≤ a.deadline := not_le.mpr (hd a (List.mem_cons_self _ _))
    rw [edfLoop_singleton, edfStep_zero_adaptive, if_neg ha, if_neg h1]
    exact ⟨_, rfl, rfl, rfl⟩
  | [a, b], _, hd =>
    have ha : ¬ INT_MAX ≤ a.deadline := not_le.mpr (hd a (List.mem_cons_self _ _))
    have hb : ¬ INT_MAX ≤ b.deadline :=
      not_le.mpr (hd b (List.mem_cons_of_mem _ (List.mem_cons_self _ _)))
    rw [edfLoop_cons, edfStep_zero_adaptive, if_neg ha, if_neg h1, Option.some_bind,
      edfLoop_singleton, edfStep_zero_adaptive, if_neg hb, if_pos h2]
    exact ⟨_, rfl, rfl, rfl⟩
  | _ :: _ :: _ :: _, hlen, _ => simp at hlen

theorem edfLoop_zero_none (l : List Task)
    (h : ¬ (l.length ≤ 2 ∧ ∀ t ∈ l, t.deadline < INT_MAX)) :
    edfLoop 0 l ⟨[], 0, false, 0⟩ = none := by
  have h1 : ¬ ((0 : Int) + 1 ≥ 2) := by decide
  have h2 : (0 : Int) + 1 + 1 ≥ 2 := by decide
  match l, h with
  | [], h => exact absurd ⟨by simp, fun t ht => by cases ht⟩ h
  | [a], h =>
    rw [edfLoop_singleton, edfStep_zero_adaptive]
    by_cases ha : INT_MAX ≤ a.deadline
    · rw [if_pos ha]
    · exfalso
      apply h
      refine ⟨by simp, ?_⟩
      intro t ht
      rw [List.mem_singleton.mp ht]
      exact not_le.mp ha
  | [a, b], h =>
    rw [edfLoop_cons, edfStep_zero_adaptive]
    by_cases ha : INT_MAX ≤ a.deadline
    · rw [if_pos ha, Option.none_bind]
    · rw [if_neg ha, if_neg h1, Option.some_bind, edfLoop_singleton, edfStep_zero_adaptive]
      by_cases hb : INT_MAX ≤ b.deadline
      · rw [if_pos hb]
      · exfalso
        apply h
        refine ⟨by simp, ?_⟩
        intro t ht
        rcases List.mem_cons.mp ht with h3 | h3
        · rw [h3]; exact not_le.mp ha
        · rw [List.mem_singleton.mp h3]; exact not_le.mp hb
  | a :: b :: c :: rest, _ =>
    rw [edfLoop_cons, edfStep_zero_adaptive]
    by_cases ha : INT_MAX ≤ a.deadline
    · rw [if_pos ha, Option.none_bind]
    · rw [if_neg ha, if_neg h1, Option.some_bind, edfLoop_cons, edfStep_zero_adaptive]
      by_cases hb : INT_MAX ≤ b.deadline
      · rw [if_pos hb, Option.none_bind]
      · rw [if_neg hb, if_pos h2, Option.some_bind, edfLoop_cons, edfStep_zero_dm,
          Option.none_bind]

theorem scheduleD_EDF_zero (tasks : List Task) :
    (scheduleD_EDF tasks 0 []).map (fun r => (r.count, r.processors)) =
      if tasks.length ≤ 2 ∧ ∀ t ∈ tasks, t.deadline < INT_MAX then some (0, [])
      else none := by
  have hmem : ∀ t, t ∈ sortByDeadline tasks ↔ t ∈ tasks :=
    fun t => (List.perm_insertionSort _ tasks).mem_iff
  have hinit : EdfState.mk (pushProcessors 0 tasks.length []) 0 false 0
      = ⟨[], 0, false, 0⟩ := rfl
  unfold scheduleD_EDF
  simp only
  rw [hinit]
  by_cases h : tasks.length ≤ 2 ∧ ∀ t ∈ tasks, t.deadline < INT_MAX
  · rw [if_pos h]
    obtain ⟨s, hs, hc, hp⟩ := edfLoop_zero_some (sortByDeadline tasks)
      (by rw [sortByDeadline_length]; exact h.1) (fun t ht => h.2 t ((hmem t).mp ht))
    rw [hs]
    simp only [Option.map]
    rw [hc, hp]
  · rw [if_neg h]
    rw [edfLoop_zero_none (sortByDeadline tasks)
      (fun hh => h ⟨by rw [← sortByDeadline_length]; exact hh.1,
        fun t ht => hh.2 t ((hmem t).mpr ht)⟩)]
    rfl

/-- C13, as stated, fails: with 0 processors `scheduleD_EDF` returns the count 0 on a
single task and all three schedulers return the count 0 on the empty task list, so they
do return a count; on the single task `scheduleHEFT` and `scheduleCPOP` reach the commit
with `bestProcessor = -1` and index outside the empty processor collection. -/
theorem zero_processors_counterexample :
    scheduleD_EDF singleTaskExample 0 [] = some ⟨0, [], singleTaskExample⟩ ∧
    scheduleD_EDF [] 0 [] = some ⟨0, [], []⟩ ∧
    scheduleHEFT [] 0 [] = some ⟨0, [], []⟩ ∧
    scheduleCPOP [] 0 [] = some ⟨0, [], []⟩ ∧
    heftBest 3 3 [] 0 INT_MAX (-1) = some (INT_MAX, -1) ∧
    heftCommit [] (-1) INT_MAX 3 = none ∧
    scheduleHEFT singleTaskExample 0 [] = none ∧
    cpopBest 3 3 [] 0 INT_MAX (-1) = some (INT_MAX, -1) ∧
    cpopCommit [] (-1) 0 INT_MAX 3 = none ∧
    scheduleCPOP singleTaskExample 0 [] = none := by
  decide

/-- C13 (amended): with 0 processors and the driver's empty processor collection no
scheduler reports a condition of its own.  `scheduleHEFT` and `scheduleCPOP` return the
count 0 on the empty task list and index outside the empty processor collection on every
other list.  `scheduleD_EDF` returns the count 0 with no processors when there are at
most two tasks and every deadline is below `INT_MAX` (each task is dropped), and indexes
outside the empty processor collection on every other list. -/
theorem zero_processors_behaviour (tasks : List Task) :
    scheduleHEFT tasks 0 [] = (if tasks = [] then some ⟨0, [], []⟩ else none) ∧
    scheduleCPOP tasks 0 [] = (if tasks = [] then some ⟨0, [], []⟩ else none) ∧
    (scheduleD_EDF tasks 0 []).map (fun r => (r.count, r.processors)) =
      (if tasks.length ≤ 2 ∧ ∀ t ∈ tasks, t.deadline < INT_MAX then some (0, [])
       else none) := by
  refine ⟨?_, ?_, scheduleD_EDF_zero tasks⟩
  · by_cases h : tasks = []
    · rw [if_pos h, h]; rfl
    · rw [if_neg h]; exact scheduleHEFT_zero tasks h
  · by_cases h : tasks = []
    · rw [if_pos h, h]; rfl
    · rw [if_neg h]; exact scheduleCPOP_zero tasks h

/-! ## The count returned by scheduleD_EDF -/

/-- The search loop of the deadline-checking branch over processors whose time vector is
non-empty always finishes; it either keeps the incoming pair or returns a processor of the
range together with its slot-0 time, which is below the incoming minimum. -/
theorem edfEarliest_spec (l : List Processor) (i : Nat) (idx0 e0 : Int)
    (hne : ∀ pr ∈ l, 0 < pr.availableTime.length) :
    ∃ idx e, edfEarliest l i idx0 e0 = some (idx, e) ∧
      ((idx = idx0 ∧ e = e0) ∨
       (∃ j pr, l[j]? = some pr ∧ idx = ((i + j : Nat) : Int) ∧
          e = pr.availableTime.getD 0 0 ∧ e < e0)) := by
  induction l generalizing i idx0 e0 with
  | nil => exact ⟨idx0, e0, rfl, Or.inl ⟨rfl, rfl⟩⟩
  | cons pr rest ih =>
    have hpr := hne pr (List.mem_cons_self _ _)
    have hrest : ∀ x ∈ rest, 0 < x.availableTime.length :=
      fun x hx => hne x (List.mem_cons_of_mem _ hx)
    unfold edfEarliest
    rw [getElem?_eq_some_getD _ _ hpr]
    simp only
    by_cases hlt : pr.availableTime.getD 0 0 < e0
    · rw [if_pos hlt]
      obtain ⟨idx, e, he, h⟩ := ih (i + 1) (i : Int) (pr.availableTime.getD 0 0) hrest
      refine ⟨idx, e, he, Or.inr ?_⟩
      rcases h with ⟨h1, h2⟩ | ⟨j, prj, hj, h1, h2, h3⟩
      · exact ⟨0, pr, by simp, by simpa using h1, h2, by rw [h2]; exact hlt⟩
      · exact ⟨j + 1, prj, by simpa using hj, by rw [h1]; push_cast; ring, h2,
          lt_trans h3 hlt⟩
    · rw [if_neg hlt]
      obtain ⟨idx, e, he, h⟩ := ih (i + 1) idx0 e0 hrest
      refine ⟨idx, e, he, ?_⟩
      rcases h with h | ⟨j, prj, hj, h1, h2, h3⟩
      · exact Or.inl h
      · exact Or.inr ⟨j + 1, prj, by simpa using hj, by rw [h1]; push_cast; ring, h2, h3⟩

/-- In the deadline-checking branch an iteration of the task loop cannot fail on an
indexable processor collection when the task's deadline is below `INT_MAX`. -/
theorem edfStep_adaptive_some (np : Int) (s : EdfState) (task : Task)
    (hdm : s.useDM = false) (hok : ProcsOk s.processors)
    (hd : task.deadline < INT_MAX) : ∃ s1, edfStep np s task = some s1 := by
  have hne : ¬ (s.useDM = true) := by rw [hdm]; decide
  obtain ⟨idx, e, he, h⟩ := edfEarliest_spec (s.processors.take np.toNat) 0 (-1) INT_MAX
    (fun pr hpr => hok.2 pr (List.mem_of_mem_take hpr))
  unfold edfStep
  rw [if_neg hne, he]
  simp only
  by_cases hle : e ≤ task.deadline
  · rw [if_pos hle]
    rcases h with ⟨_, h2⟩ | ⟨j, pr, hj, h1, _, _⟩
    · omega
    · have hidx : ¬ idx < 0 := by omega
      rw [if_neg hidx]
      have hget : s.processors[j]? = some pr := by
        rw [List.getElem?_take] at hj
        by_cases hjn : j < np.toNat
        · rw [if_pos hjn] at hj; exact hj
        · rw [if_neg hjn] at hj; cases hj
      have hjt : idx.toNat = j := by omega
      rw [hjt, assignTo_eq s.processors j pr task.executionTime hget
        (hok.2 pr (List.getElem?_mem hget))]
      exact ⟨_, rfl⟩
  · rw [if_neg hle]
    by_cases h2 : s.missedDeadlines + 1 ≥ 2
    · rw [if_pos h2]; exact ⟨_, rfl⟩
    · rw [if_neg h2]; exact ⟨_, rfl⟩

theorem edfStateAfter_some (tasks : List Task) (np : Int) (hn : 1 ≤ np)
    (hd : ∀ t ∈ tasks, t.deadline < INT_MAX) (hlen : 0 < tasks.length) (k : Nat)
    (hk : k ≤ tasks.length) : ∃ s, edfStateAfter tasks np k = some s := by
  induction k with
  | zero => exact ⟨_, edfStateAfter_zero tasks np⟩
  | succ k ih =>
    obtain ⟨s, hs⟩ := ih (by omega)
    obtain ⟨t, ht⟩ := sortByDeadline_getElem? tasks k (by omega)
    have hinv := edfInv_reach tasks np hn k (by omega) hlen s hs
    have htd : t.deadline < INT_MAX :=
      hd t ((List.perm_insertionSort _ tasks).mem_iff.mp (List.getElem?_mem ht))
    rw [edfStateAfter_succ tasks np k t ht, hs, Option.some_bind]
    cases hdm : s.useDM with
    | true =>
      obtain ⟨p, ps, _, _, hstep, _⟩ := edfStep_dm np s t hdm hinv.1
      exact ⟨_, hstep⟩
    | false => exact edfStep_adaptive_some np s t hdm hinv.1 htd

/-- With at least one processor, the driver's empty processor collection and every
deadline below `INT_MAX`, `scheduleD_EDF` returns a count `r` with `n - 2 ≤ r ≤ n`. -/
theorem scheduleD_EDF_count_bounds (tasks : List Task) (np : Int) (hn : 1 ≤ np)
    (hd : ∀ t ∈ tasks, t.deadline < INT_MAX) :
    ∃ r, scheduleD_EDF tasks np [] = some r ∧
      (tasks.length : Int) - 2 ≤ r.count ∧ r.count ≤ tasks.length := by
  by_cases hlen : 0 < tasks.length
  · obtain ⟨s, hs⟩ := edfStateAfter_some tasks np hn hd hlen tasks.length (le_refl _)
    have hinv := edfInv_reach tasks np hn tasks.length (le_refl _) hlen s hs
    refine ⟨_, by rw [scheduleD_EDF_eq, hs]; rfl, ?_⟩
    simp only
    rcases hinv.2 with ⟨_, h0, h1, hc⟩ | ⟨_, hc⟩ <;> omega
  · have hnil : tasks = [] := List.length_eq_zero.mp (by omega)
    rw [hnil]
    refine ⟨⟨0, pushProcessors np 0 [], []⟩, rfl, ?_, ?_⟩
    · show ((0 : Nat) : Int) - 2 ≤ 0
      decide
    · show (0 : Int) ≤ ((0 : Nat) : Int)
      decide

/-- The hypotheses of `scheduleD_EDF_count_bounds` hold on `twoDropsExample` with one
processor. -/
theorem scheduleD_EDF_count_bounds_witness :
    (1 : Int) ≤ 1 ∧ (∀ t ∈ twoDropsExample, t.deadline < INT_MAX) ∧
    ∃ r, scheduleD_EDF twoDropsExample 1 [] = some r ∧
      (twoDropsExample.length : Int) - 2 ≤ r.count ∧ r.count ≤ twoDropsExample.length :=
  ⟨by decide, by decide, scheduleD_EDF_count_bounds twoDropsExample 1 (by decide) (by decide)⟩

/-- C19 fails on the code: on `edfSentinelExample` with one processor the first task is
assigned and leaves the processor's next-free time at `INT_MAX`; for the second task the
search `availableTime[0] < earliestAvailableTime` never succeeds, `processorIndex` stays
-1, the deadline `INT_MAX` passes the check against the untouched sentinel and the commit
indexes outside the processor vector, so no count is returned. -/
theorem scheduleD_EDF_sentinel_no_count :
    edfStep 1 ⟨[⟨0, [0, 0], 0⟩], 0, false, 0⟩ ⟨1, 0, 2147483647, []⟩
      = some ⟨[⟨0, [2147483647, 0], 2147483647⟩], 0, false, 1⟩ ∧
    edfEarliest [⟨0, [2147483647, 0], 2147483647⟩] 0 (-1) INT_MAX = some (-1, INT_MAX) ∧
    edfStep 1 ⟨[⟨0, [2147483647, 0], 2147483647⟩], 0, false, 1⟩ ⟨2, 2147483647, 1, []⟩
      = none ∧
    scheduleD_EDF edfSentinelExample 1 [] = none := by
  decide

/-! ## Every commit of scheduleHEFT -/

theorem heftCommit_neg_one (ps : List Processor) (m exec : Int) :
    heftCommit ps (-1) m exec = none := rfl

/-- Every iteration of the assignment loop of `scheduleHEFT` that gets past its commit
has committed the task to the first processor that attains the least candidate finish
time, and that least candidate is below `INT_MAX`. -/
theorem heftStep_commit (tasks : List Task) (up : List Int) (ps ps1 : List Processor)
    (t : Nat) (tk : Task) (rank : Int) (htk : tasks[t]? = some tk)
    (hrank : up[t]? = some rank) (hne : ∀ pr ∈ ps, 0 < pr.availableTime.length)
    (h : heftStep tasks up ps t = some ps1) :
    ∃ k prk, ps[k]? = some prk ∧
      ps1 = ps.set k
        { prk with availableTime := prk.availableTime.set 0
                     (heftCandidate rank tk.executionTime prk),
                   totalExecutionTime := addInt prk.totalExecutionTime tk.executionTime } ∧
      heftCandidate rank tk.executionTime prk < INT_MAX ∧
      (∀ pr ∈ ps, heftCandidate rank tk.executionTime prk
        ≤ heftCandidate rank tk.executionTime pr) ∧
      (∀ j prj, j < k → ps[j]? = some prj →
        heftCandidate rank tk.executionTime prk < heftCandidate rank tk.executionTime prj) := by
  by_cases hsome : ∃ pr ∈ ps, heftCandidate rank tk.executionTime pr < INT_MAX
  · obtain ⟨k, prk, hk, hstep, h1, h2, h3⟩ :=
      heftStep_spec tasks up ps t tk rank htk hrank hne hsome
    rw [hstep] at h
    exact ⟨k, prk, hk, (Option.some.inj h).symm, h1, h2, h3⟩
  · exfalso
    obtain ⟨m, b, hmb, hcase⟩ := heftBest_spec rank tk.executionTime ps 0 INT_MAX (-1) hne
    rcases hcase with ⟨hm, hb, _⟩ | ⟨k, prk, hk, _, hm, hlt, _, _⟩
    · unfold heftStep at h
      rw [htk, hrank] at h
      simp only at h
      rw [hmb] at h
      simp only at h
      rw [hb, heftCommit_neg_one] at h
      cases h
    · exact hsome ⟨prk, List.getElem?_mem hk, by rw [← hm]; exact hlt⟩

theorem busySum_set (ps : List Processor) (k : Nat) (prk new : Processor)
    (hk : ps[k]? = some prk) :
    busySum (ps.set k new) =
      busySum ps - prk.totalExecutionTime + new.totalExecutionTime := by
  unfold busySum
  induction ps generalizing k with
  | nil => simp at hk
  | cons pr rest ih =>
    cases k with
    | zero =>
      have : pr = prk := by simpa using hk
      rw [this, List.set_cons_zero, List.map_cons, List.map_cons, List.sum_cons,
        List.sum_cons]
      omega
    | succ k =>
      have hk2 : rest[k]? = some prk := by simpa using hk
      rw [List.set_cons_succ, List.map_cons, List.map_cons, List.sum_cons, List.sum_cons,
        ih k hk2]
      omega

theorem busySum_bounds (ps : List Processor) (h : ∀ pr ∈ ps, 0 ≤ pr.totalExecutionTime) :
    0 ≤ busySum ps ∧ ∀ pr ∈ ps, pr.totalExecutionTime ≤ busySum ps := by
  induction ps with
  | nil => exact ⟨le_refl _, fun pr hpr => by cases hpr⟩
  | cons a rest ih =>
    obtain ⟨h1, h2⟩ := ih (fun pr hpr => h pr (List.mem_cons_of_mem _ hpr))
    have ha := h a (List.mem_cons_self _ _)
    have hs : busySum (a :: rest) = a.totalExecutionTime + busySum rest := by
      unfold busySum
      rw [List.map_cons, List.sum_cons]
    rw [hs]
    refine ⟨by omega, ?_⟩
    intro pr hpr
    rcases List.mem_cons.mp hpr with h3 | h3
    · rw [h3]; omega
    · have := h2 pr h3
      omega

/-- Adding an execution time to one busy accumulator, as an `int` sum, adds it to the sum
of the accumulators when the accumulators are non-negative and the new sum is at most
`INT_MAX`. -/
theorem busySum_commit (ps : List Processor) (k : Nat) (prk : Processor) (avail : List Int)
    (exec : Int) (hk : ps[k]? = some prk) (htot : ∀ pr ∈ ps, 0 ≤ pr.totalExecutionTime)
    (he : 0 ≤ exec) (hfit : busySum ps + exec ≤ INT_MAX) :
    addInt prk.totalExecutionTime exec = prk.totalExecutionTime + exec ∧
    busySum (ps.set k { prk with availableTime := avail,
                                 totalExecutionTime := addInt prk.totalExecutionTime exec })
      = busySum ps + exec := by
  have hkmem : prk ∈ ps := List.getElem?_mem hk
  have h1 := htot prk hkmem
  have h2 := (busySum_bounds ps htot).2 prk hkmem
  have hadd : addInt prk.totalExecutionTime exec = prk.totalExecutionTime + exec :=
    addInt_eq _ _ (by omega) (by omega)
  refine ⟨hadd, ?_⟩
  rw [busySum_set ps k prk _ hk]
  simp only
  omega

/-- Whenever the assignment loop of `scheduleHEFT` runs through the remaining order, it
has counted every task and, when the busy accumulators are non-negative and their sum
plus the remaining execution times is at most `INT_MAX`, added every execution time to
exactly one busy accumulator. -/
theorem heftLoop_busy (tasks : List Task) (up : List Int) (hnn : ExecNonneg tasks)
    (hlen : up.length = tasks.length)
    (rem : List Nat) (ps ps1 : List Processor) (c c1 : Int)
    (hrem : ∀ t ∈ rem, t < tasks.length) (hne : ∀ pr ∈ ps, 0 < pr.availableTime.length)
    (htot : ∀ pr ∈ ps, 0 ≤ pr.totalExecutionTime)
    (hfit : busySum ps + (rem.map (execOf tasks)).sum ≤ INT_MAX)
    (h : heftLoop tasks up rem ps c = some (ps1, c1)) :
    busySum ps1 = busySum ps + (rem.map (execOf tasks)).sum ∧ c1 = c + rem.length ∧
      ps1.length = ps.length := by
  induction rem generalizing ps c with
  | nil =>
    rw [heftLoop] at h
    cases h
    simp
  | cons t rest ih =>
    have ht := hrem t (List.mem_cons_self _ _)
    have hrest : ∀ x ∈ rest, x < tasks.length := fun x hx => hrem x (List.mem_cons_of_mem _ hx)
    obtain ⟨tk, htk⟩ : ∃ tk, tasks[t]? = some tk := ⟨tasks[t], List.getElem?_eq_getElem ht⟩
    have hexec : execOf tasks t = tk.executionTime := execOf_eq tasks t tk htk
    have hr : up[t]? = some (up.getD t 0) := getElem?_eq_some_getD up t (by omega)
    have hsum := sum_exec_nonneg tasks hnn rest hrest
    have he := hnn t ht
    rw [List.map_cons, List.sum_cons, hexec] at hfit
    rw [hexec] at he
    rw [heftLoop] at h
    cases hstep : heftStep tasks up ps t with
    | none => rw [hstep] at h; cases h
    | some ps2 =>
      rw [hstep] at h
      simp only at h
      obtain ⟨k, prk, hk, hps2, _, _, _⟩ :=
        heftStep_commit tasks up ps ps2 t tk (up.getD t 0) htk hr hne hstep
      obtain ⟨hadd, hbs⟩ := busySum_commit ps k prk
        (prk.availableTime.set 0 (heftCandidate (up.getD t 0) tk.executionTime prk))
        tk.executionTime hk htot he (by omega)
      rw [← hps2] at hbs
      have hne2 : ∀ pr ∈ ps2, 0 < pr.availableTime.length := by
        intro pr hpr
        rw [hps2] at hpr
        rcases List.mem_or_eq_of_mem_set hpr with h1 | h1
        · exact hne pr h1
        · rw [h1]
          simp only [List.length_set]
          exact hne prk (List.getElem?_mem hk)
      have htot2 : ∀ pr ∈ ps2, 0 ≤ pr.totalExecutionTime := by
        intro pr hpr
        rw [hps2] at hpr
        rcases List.mem_or_eq_of_mem_set hpr with h1 | h1
        · exact htot pr h1
        · rw [h1]
          simp only
          have := htot prk (List.getElem?_mem hk)
          omega
      obtain ⟨hb, hc, hl⟩ := ih ps2 (c + 1) hrest hne2 htot2 (by omega) h
      refine ⟨?_, ?_, ?_⟩
      · rw [hb, hbs, List.map_cons, List.sum_cons, hexec]
        omega
      · rw [hc, List.length_cons]
        push_cast
        omega
      · rw [hl, hps2, List.length_set]

theorem busySum_pushProcessors (np : Int) (slots : Nat) :
    busySum (pushProcessors np slots []) = 0 := by
  unfold busySum
  apply List.sum_eq_zero
  intro x hx
  obtain ⟨pr, hpr, rfl⟩ := List.mem_map.mp hx
  exact (pushProcessors_nil_mem np slots pr hpr).2

/-- Whenever `scheduleHEFT`, called with the driver's empty processor collection on a
task list whose dependency indices lie below the task's own index, whose execution times
are non-negative and sum to at most `INT_MAX`, returns, the count is the number of tasks
and the busy accumulators sum to the summed execution time. -/
theorem scheduleHEFT_busy (tasks : List Task) (np : Int) (r : SchedResult)
    (hw : DepsBelow tasks) (hnn : ExecNonneg tasks)
    (hS : sequentialExecutionTime tasks ≤ INT_MAX)
    (h : scheduleHEFT tasks np [] = some r) :
    busySum r.processors = sequentialExecutionTime tasks ∧ r.count = tasks.length := by
  obtain ⟨up, hup, hlen, _⟩ := heftUpwardRanks_rec tasks hw hnn hS
  obtain ⟨down, hdown⟩ := heftDownwardRanks_some tasks
  have hperm : (heftSortedTasks tasks.length up).Perm (List.range tasks.length) :=
    List.perm_insertionSort _ _
  unfold scheduleHEFT at h
  rw [hup, hdown] at h
  simp only at h
  cases hl : heftLoop tasks up (heftSortedTasks tasks.length up)
      (pushProcessors np 1 []) 0 with
  | none => rw [hl] at h; cases h
  | some pc =>
    obtain ⟨ps1, c1⟩ := pc
    rw [hl] at h
    simp only at h
    cases h
    obtain ⟨hb, hc, _⟩ := heftLoop_busy tasks up hnn hlen _ _ ps1 0 c1
      (fun t ht => List.mem_range.mp (hperm.mem_iff.mp ht))
      (by
        intro pr hpr
        rw [(pushProcessors_nil_mem np 1 pr hpr).1]
        simp)
      (by
        intro pr hpr
        rw [(pushProcessors_nil_mem np 1 pr hpr).2])
      (by
        rw [busySum_pushProcessors, sum_exec_perm_range tasks _ hperm]
        omega)
      hl
    simp only
    rw [hb, hc, busySum_pushProcessors, sum_exec_perm_range tasks _ hperm, hperm.length_eq,
      List.length_range]
    omega

/-! ## Every commit of scheduleCPOP -/

theorem cpopCommit_neg_one (ps : List Processor) (t : Nat) (m exec : Int) :
    cpopCommit ps (-1) t m exec = none := rfl

/-- Every iteration of the assignment loop of `scheduleCPOP` that gets past its commit
has written the least candidate finish time, which is below `INT_MAX`, into the task's
slot of the first processor that attains it. -/
theorem cpopStep_commit (tasks : List Task) (up : List Int) (ps ps1 : List Processor)
    (t : Nat) (tk : Task) (rank : Int) (htk : tasks[t]? = some tk)
    (hrank : up[t]? = some rank) (hne : ∀ pr ∈ ps, t < pr.availableTime.length)
    (h : cpopStep tasks up ps t = some ps1) :
    ∃ k prk, ps[k]? = some prk ∧
      ps1 = ps.set k
        { prk with availableTime := prk.availableTime.set t
                     (cpopCandidate rank tk.executionTime prk),
                   totalExecutionTime := addInt prk.totalExecutionTime tk.executionTime } ∧
      cpopCandidate rank tk.executionTime prk < INT_MAX ∧
      (∀ pr ∈ ps, cpopCandidate rank tk.executionTime prk
        ≤ cpopCandidate rank tk.executionTime pr) ∧
      (∀ j prj, j < k → ps[j]? = some prj →
        cpopCandidate rank tk.executionTime prk < cpopCandidate rank tk.executionTime prj) := by
  by_cases hsome : ∃ pr ∈ ps, cpopCandidate rank tk.executionTime pr < INT_MAX
  · obtain ⟨k, prk, hk, hstep, h1, h2, h3⟩ :=
      cpopStep_spec tasks up ps t tk rank htk hrank hne hsome
    rw [hstep] at h
    exact ⟨k, prk, hk, (Option.some.inj h).symm, h1, h2, h3⟩
  · exfalso
    obtain ⟨m, b, hmb, hcase⟩ := cpopBest_spec rank tk.executionTime ps 0 INT_MAX (-1)
      (fun pr hpr => lt_of_le_of_lt (Nat.zero_le _) (hne pr hpr))
    rcases hcase with ⟨hm, hb, _⟩ | ⟨k, prk, hk, _, hm, hlt, _, _⟩
    · unfold cpopStep at h
      rw [htk, hrank] at h
      simp only at h
      rw [hmb] at h
      simp only at h
      rw [hb, cpopCommit_neg_one] at h
      cases h
    · exact hsome ⟨prk, List.getElem?_mem hk, by rw [← hm]; exact hlt⟩

/-- Whenever the assignment loop of `scheduleCPOP` runs through the remaining order, it
has counted every task, kept the number of processors and the size of every time vector
and left the slots of all other tasks as they were. -/
theorem cpopLoop_run (tasks : List Task) (up : List Int) (hlen : up.length = tasks.length)
    (rem : List Nat) (ps ps1 : List Processor) (c c1 : Int)
    (hrem : ∀ t ∈ rem, t < tasks.length)
    (hshape : ∀ pr ∈ ps, pr.availableTime.length = tasks.length)
    (h : cpopLoop tasks up rem ps c = some (ps1, c1)) :
    c1 = c + rem.length ∧
      ps1.length = ps.length ∧ (∀ pr ∈ ps1, pr.availableTime.length = tasks.length) ∧
      (∀ s, s ∉ rem → (∀ pr ∈ ps, pr.availableTime.getD s 0 = 0) →
        ∀ pr ∈ ps1, pr.availableTime.getD s 0 = 0) := by
  induction rem generalizing ps c with
  | nil =>
    rw [cpopLoop] at h
    cases h
    exact ⟨by simp, rfl, hshape, fun s _ hz => hz⟩
  | cons t rest ih =>
    have ht := hrem t (List.mem_cons_self _ _)
    obtain ⟨tk, htk⟩ : ∃ tk, tasks[t]? = some tk := ⟨tasks[t], List.getElem?_eq_getElem ht⟩
    have hr : up[t]? = some (up.getD t 0) := getElem?_eq_some_getD up t (by omega)
    rw [cpopLoop] at h
    cases hstep : cpopStep tasks up ps t with
    | none => rw [hstep] at h; cases h
    | some ps2 =>
      rw [hstep] at h
      simp only at h
      obtain ⟨k, prk, hk, hps2, _, _, _⟩ :=
        cpopStep_commit tasks up ps ps2 t tk (up.getD t 0) htk hr
          (fun pr hpr => by rw [hshape pr hpr]; exact ht) hstep
      have hshape2 : ∀ pr ∈ ps2, pr.availableTime.length = tasks.length := by
        intro pr hpr
        rw [hps2] at hpr
        rcases List.mem_or_eq_of_mem_set hpr with h1 | h1
        · exact hshape pr h1
        · rw [h1]
          simp only [List.length_set]
          exact hshape prk (List.getElem?_mem hk)
      obtain ⟨hc, hl, hsh, hz⟩ := ih ps2 (c + 1)
        (fun x hx => hrem x (List.mem_cons_of_mem _ hx)) hshape2 h
      refine ⟨?_, ?_, hsh, ?_⟩
      · rw [hc, List.length_cons]
        push_cast
        omega
      · rw [hl, hps2, List.length_set]
      · intro s hs hzero
        have hst : t ≠ s := fun e => hs (by rw [← e]; exact List.mem_cons_self _ _)
        apply hz s (fun hx => hs (List.mem_cons_of_mem _ hx))
        intro pr hpr
        rw [hps2] at hpr
        rcases List.mem_or_eq_of_mem_set hpr with h1 | h1
        · exact hzero pr h1
        · rw [h1]
          simp only
          rw [getD_set_ne _ _ _ _ hst]
          exact hzero prk (List.getElem?_mem hk)

/-- Whenever the assignment loop of `scheduleCPOP` runs through the remaining order, with
busy accumulators that are non-negative and whose sum plus the remaining execution times
is at most `INT_MAX`, it has added every execution time to exactly one busy
accumulator, and the accumulators are still non-negative. -/
theorem cpopLoop_busy (tasks : List Task) (up : List Int) (hnn : ExecNonneg tasks)
    (hlen : up.length = tasks.length)
    (rem : List Nat) (ps ps1 : List Processor) (c c1 : Int)
    (hrem : ∀ t ∈ rem, t < tasks.length)
    (hshape : ∀ pr ∈ ps, pr.availableTime.length = tasks.length)
    (htot : ∀ pr ∈ ps, 0 ≤ pr.totalExecutionTime)
    (hfit : busySum ps + (rem.map (execOf tasks)).sum ≤ INT_MAX)
    (h : cpopLoop tasks up rem ps c = some (ps1, c1)) :
    busySum ps1 = busySum ps + (rem.map (execOf tasks)).sum ∧
      ∀ pr ∈ ps1, 0 ≤ pr.totalExecutionTime := by
  induction rem generalizing ps c with
  | nil =>
    rw [cpopLoop] at h
    cases h
    exact ⟨by simp, htot⟩
  | cons t rest ih =>
    have ht := hrem t (List.mem_cons_self _ _)
    have hrest : ∀ x ∈ rest, x < tasks.length := fun x hx => hrem x (List.mem_cons_of_mem _ hx)
    obtain ⟨tk, htk⟩ : ∃ tk, tasks[t]? = some tk := ⟨tasks[t], List.getElem?_eq_getElem ht⟩
    have hexec : execOf tasks t = tk.executionTime := execOf_eq tasks t tk htk
    have hr : up[t]? = some (up.getD t 0) := getElem?_eq_some_getD up t (by omega)
    have hsum := sum_exec_nonneg tasks hnn rest hrest
    have he := hnn t ht
    rw [List.map_cons, List.sum_cons, hexec] at hfit
    rw [hexec] at he
    rw [cpopLoop] at h
    cases hstep : cpopStep tasks up ps t with
    | none => rw [hstep] at h; cases h
    | some ps2 =>
      rw [hstep] at h
      simp only at h
      obtain ⟨k, prk, hk, hps2, _, _, _⟩ :=
        cpopStep_commit tasks up ps ps2 t tk (up.getD t 0) htk hr
          (fun pr hpr => by rw [hshape pr hpr]; exact ht) hstep
      obtain ⟨hadd, hbs⟩ := busySum_commit ps k prk
        (prk.availableTime.set t (cpopCandidate (up.getD t 0) tk.executionTime prk))
        tk.executionTime hk htot he (by omega)
      rw [← hps2] at hbs
      have hshape2 : ∀ pr ∈ ps2, pr.availableTime.length = tasks.length := by
        intro pr hpr
        rw [hps2] at hpr
        rcases List.mem_or_eq_of_mem_set hpr with h1 | h1
        · exact hshape pr h1
        · rw [h1]
          simp only [List.length_set]
          exact hshape prk (List.getElem?_mem hk)
      have htot2 : ∀ pr ∈ ps2, 0 ≤ pr.totalExecutionTime := by
        intro pr hpr
        rw [hps2] at hpr
        rcases List.mem_or_eq_of_mem_set hpr with h1 | h1
        · exact htot pr h1
        · rw [h1]
          simp only
          have := htot prk (List.getElem?_mem hk)
          omega
      obtain ⟨hb, ht2⟩ := ih ps2 (c + 1) hrest hshape2 htot2 (by omega) h
      refine ⟨?_, ht2⟩
      rw [hb, hbs, List.map_cons, List.sum_cons, hexec]
      omega

/-- Whenever `scheduleCPOP`, called with the driver's empty processor collection on a
task list whose dependency indices lie below the task's own index, whose execution times
are non-negative and sum to at most `INT_MAX`, returns, the count is the number of tasks
and the busy accumulators sum to the summed execution time. -/
theorem scheduleCPOP_busy (tasks : List Task) (np : Int) (r : SchedResult)
    (hw : DepsBelow tasks) (hnn : ExecNonneg tasks)
    (hS : sequentialExecutionTime tasks ≤ INT_MAX)
    (h : scheduleCPOP tasks np [] = some r) :
    busySum r.processors = sequentialExecutionTime tasks ∧ r.count = tasks.length := by
  obtain ⟨up, hup, hlen, _⟩ := computeUpwardRanks_rec tasks hw hnn hS
  obtain ⟨down, hdown, _⟩ := computeDownwardRanks_some tasks
  have hperm : (cpopSortedTasks tasks.length up down).Perm (List.range tasks.length) :=
    List.perm_insertionSort _ _
  unfold scheduleCPOP at h
  rw [hup, hdown] at h
  simp only at h
  cases hl : cpopLoop tasks up (cpopSortedTasks tasks.length up down)
      (pushProcessors np tasks.length []) 0 with
  | none => rw [hl] at h; cases h
  | some pc =>
    obtain ⟨ps1, c1⟩ := pc
    rw [hl] at h
    simp only at h
    cases h
    have hshape : ∀ pr ∈ pushProcessors np tasks.length [],
        pr.availableTime.length = tasks.length := by
      intro pr hpr
      rw [(pushProcessors_nil_mem np tasks.length pr hpr).1]
      simp
    obtain ⟨hc, _, _, _⟩ := cpopLoop_run tasks up hlen _ _ ps1 0 c1
      (fun t ht => List.mem_range.mp (hperm.mem_iff.mp ht)) hshape hl
    obtain ⟨hb, _⟩ := cpopLoop_busy tasks up hnn hlen _ _ ps1 0 c1
      (fun t ht => List.mem_range.mp (hperm.mem_iff.mp ht)) hshape
      (by
        intro pr hpr
        rw [(pushProcessors_nil_mem np tasks.length pr hpr).2])
      (by
        rw [busySum_pushProcessors, sum_exec_perm_range tasks _ hperm]
        omega)
      hl
    simp only
    rw [hb, hc, busySum_pushProcessors, sum_exec_perm_range tasks _ hperm, hperm.length_eq,
      List.length_range]
    omega

/-! ## The load watermark of scheduleCPOP -/

theorem getD_replicate_zero (n s : Nat) : (List.replicate n (0 : Int)).getD s 0 = 0 := by
  rw [List.getD_eq_getElem?_getD, List.getElem?_replicate]
  split <;> rfl

theorem maxElement_set_eq (l : List Int) (t : Nat) (f : Int) (ht : t < l.length)
    (hlt : ∀ x ∈ l, x < f) : maxElement (l.set t f) = some f := by
  obtain ⟨w, hw, hmem, hmax⟩ := maxElement_spec (l.set t f) (by rw [List.length_set]; omega)
  have hf : f ∈ l.set t f := List.getElem?_mem (List.getElem?_set_self ht)
  have h1 := hmax f hf
  rcases List.mem_or_eq_of_mem_set hmem with h | h
  · have := hlt w h
    omega
  · rw [hw, h]

/-- C18, as stated, fails.  On the well-formed list `twoLongTasks` with one processor the
first commit records 2000000000 in slot 0; for the second task the `int` sum at line 232
wraps, the finish time -294967296 passes the test at line 233 and is written into slot 1:
the written finish time is below an entry recorded before and the maximum of the vector
afterwards is not the finish time just written.  On the well-formed list
`singleLongTask` the only commit writes the wrapped finish time -1294967296 over the
initial 0, so the maximum of the vector decreases. -/
theorem cpop_commit_watermark_counterexample :
    WellFormed twoLongTasks ∧
    computeUpwardRanks twoLongTasks = some [1000000000, 1000000000] ∧
    computeDownwardRanks twoLongTasks = some [1000000000, 1000000000] ∧
    cpopSortedTasks twoLongTasks.length [1000000000, 1000000000] [1000000000, 1000000000]
      = [0, 1] ∧
    cpopLoop twoLongTasks [1000000000, 1000000000] [0] (pushProcessors 1 2 []) 0
      = some ([⟨0, [2000000000, 0], 1000000000⟩], 1) ∧
    cpopCandidate 1000000000 1000000000 ⟨0, [2000000000, 0], 1000000000⟩ = -294967296 ∧
    cpopStep twoLongTasks [1000000000, 1000000000] [⟨0, [2000000000, 0], 1000000000⟩] 1
      = some [⟨0, [2000000000, -294967296], 2000000000⟩] ∧
    ¬ (∀ x ∈ [(2000000000 : Int), 0], x < -294967296) ∧
    maxElement [2000000000, -294967296] ≠ some (-294967296) ∧
    WellFormed singleLongTask ∧
    cpopStep singleLongTask [1500000000] (pushProcessors 1 1 []) 0
      = some [⟨0, [-1294967296], 1500000000⟩] ∧
    scheduleCPOP singleLongTask 1 []
      = some ⟨1, [⟨0, [-1294967296], 1500000000⟩], singleLongTask⟩ ∧
    ¬ ((maxElement [(0 : Int)]).getD 0 ≤ (maxElement [(-1294967296 : Int)]).getD 0) := by
  decide

/-- C18 (amended): in the driver's call of `scheduleCPOP` with at least one processor on a
well-formed task list for which `(number of tasks + 1)` times the summed execution time
is below `INT_MAX`, every iteration of the assignment loop is reached and commits: `pre`
is the part of the priority order handled before, `t` the task of this iteration.  The
task index `t` occurs nowhere else in the order, so its slot is written in this iteration
only and still holds the initial 0; the finish time `f`, the unwrapped sum of the
processor's maximum, the task's upward rank and its execution time, is written into slot
`t` of one processor, `f` is strictly greater than every entry of that processor's
vector, the maximum of the vector after the write is `f`, and no processor's maximum
decreases. -/
theorem cpop_commit_watermark (tasks : List Task) (np : Int) (hw : WellFormed tasks)
    (hn : 1 ≤ np) (hb : (tasks.length + 1) * sequentialExecutionTime tasks < INT_MAX)
    (up down : List Int) (hup : computeUpwardRanks tasks = some up)
    (pre post : List Nat) (t : Nat)
    (horder : cpopSortedTasks tasks.length up down = pre ++ t :: post) :
    t ∉ pre ∧ t ∉ post ∧
    ∃ ps c ps1 k prk f,
      cpopLoop tasks up pre (pushProcessors np tasks.length []) 0 = some (ps, c) ∧
      cpopStep tasks up ps t = some ps1 ∧
      ps[k]? = some prk ∧
      ps1 = ps.set k
        { prk with availableTime := prk.availableTime.set t f,
                   totalExecutionTime := prk.totalExecutionTime + execOf tasks t } ∧
      f = (maxElement prk.availableTime).getD 0 + up.getD t 0 + execOf tasks t ∧
      prk.availableTime.getD t 0 = 0 ∧
      (∀ x ∈ prk.availableTime, x < f) ∧
      maxElement (prk.availableTime.set t f) = some f ∧
      (∀ (j : Nat) (pr pr1 : Processor), ps[j]? = some pr → ps1[j]? = some pr1 →
        (maxElement pr.availableTime).getD 0 ≤ (maxElement pr1.availableTime).getD 0) := by
  have hnn := execPositive_nonneg tasks hw.2
  have hS0 := sequentialExecutionTime_nonneg tasks hnn
  have hSle : sequentialExecutionTime tasks ≤ INT_MAX := by
    have h1 : 0 ≤ (tasks.length : Int) * sequentialExecutionTime tasks :=
      mul_nonneg (Int.ofNat_nonneg _) hS0
    have h2 : ((tasks.length : Int) + 1) * sequentialExecutionTime tasks
        = (tasks.length : Int) * sequentialExecutionTime tasks
          + sequentialExecutionTime tasks := by ring
    omega
  obtain ⟨r, hr, hlen, hrec⟩ := computeUpwardRanks_rec tasks hw.1 hnn hSle
  rw [hup] at hr
  cases hr
  have hperm : (cpopSortedTasks tasks.length up down).Perm (List.range tasks.length) :=
    List.perm_insertionSort _ _
  have hnd : (pre ++ t :: post).Nodup := by
    rw [← horder]
    exact hperm.nodup_iff.mpr (List.nodup_range _)
  have hmem : ∀ x, x ∈ pre ++ t :: post → x < tasks.length := by
    intro x hx
    rw [← horder] at hx
    exact List.mem_range.mp (hperm.mem_iff.mp hx)
  have ht : t < tasks.length :=
    hmem t (List.mem_append_right _ (List.mem_cons_self _ _))
  have htpre : t ∉ pre := by
    intro h
    exact (List.nodup_append.mp hnd).2.2 h (List.mem_cons_self _ _)
  have htpost : t ∉ post := (List.nodup_cons.mp (List.nodup_append.mp hnd).2.1).1
  have hprelt : ∀ x ∈ pre, x < tasks.length := fun x hx => hmem x (List.mem_append_left _ hx)
  -- the budget that the iterations before `t` may use
  have hsumall : ((pre ++ t :: post).map
      (fun x => sequentialExecutionTime tasks + execOf tasks x)).sum
      = ((tasks.length : Int) + 1) * sequentialExecutionTime tasks := by
    rw [← horder, sum_map_add_const, sum_exec_perm_range tasks _ hperm, hperm.length_eq,
      List.length_range]
    ring
  rw [List.map_append, List.sum_append, List.map_cons, List.sum_cons] at hsumall
  have hpostnn : 0 ≤ (post.map
      (fun x => sequentialExecutionTime tasks + execOf tasks x)).sum := by
    apply List.sum_nonneg
    intro x hx
    obtain ⟨y, hy, rfl⟩ := List.mem_map.mp hx
    have := hnn y (hmem y (List.mem_append_right _ (List.mem_cons_of_mem _ hy)))
    omega
  have hrankb : ∀ x, x < tasks.length →
      0 < up.getD x 0 ∧ up.getD x 0 ≤ sequentialExecutionTime tasks := fun x hx =>
    ⟨lt_of_lt_of_le (hw.2 x hx)
      (upRec_bounds tasks hw.1 hnn up tasks.length (le_refl _) hrec x hx).1,
     le_trans (upRec_bounds tasks hw.1 hnn up tasks.length (le_refl _) hrec x hx).2
      (execSum_le_total tasks hnn x hx)⟩
  have hshape0 : ∀ pr ∈ pushProcessors np tasks.length [],
      pr.availableTime.length = tasks.length := by
    intro pr hpr
    rw [(pushProcessors_nil_mem np tasks.length pr hpr).1]
    simp
  have hetpos := hw.2 t ht
  obtain ⟨ps, hpre, hpsne, hinv⟩ := cpopLoop_count tasks up (sequentialExecutionTime tasks)
    (((tasks.length : Int) + 1) * sequentialExecutionTime tasks
      - (sequentialExecutionTime tasks + execOf tasks t
        + (post.map (fun x => sequentialExecutionTime tasks + execOf tasks x)).sum))
    hw.2 hlen hrankb hS0 (by omega) pre (pushProcessors np tasks.length []) 0 hprelt
    (pushProcessors_nil_ne_nil np tasks.length hn) hshape0
    (by
      intro pr hpr
      rw [(pushProcessors_nil_mem np tasks.length pr hpr).1, maxElement_replicate_zero])
    (by
      intro pr hpr
      rw [(pushProcessors_nil_mem np tasks.length pr hpr).1, maxElement_replicate_zero]
      omega)
  obtain ⟨_, _, hshape, hzero⟩ := cpopLoop_run tasks up hlen pre _ ps 0 _ hprelt hshape0 hpre
  have hexecsum : (pre.map (execOf tasks)).sum
      + (execOf tasks t + (post.map (execOf tasks)).sum) = sequentialExecutionTime tasks := by
    rw [← sum_exec_perm_range tasks _ hperm, horder, List.map_append, List.sum_append,
      List.map_cons, List.sum_cons]
  have hpostsum := sum_exec_nonneg tasks hnn post
    (fun x hx => hmem x (List.mem_append_right _ (List.mem_cons_of_mem _ hx)))
  obtain ⟨hbusy, htotps⟩ := cpopLoop_busy tasks up hnn hlen pre _ ps 0 _ hprelt hshape0
    (by
      intro pr hpr
      rw [(pushProcessors_nil_mem np tasks.length pr hpr).2])
    (by
      rw [busySum_pushProcessors]
      omega)
    hpre
  rw [busySum_pushProcessors] at hbusy
  have hz : ∀ pr ∈ ps, pr.availableTime.getD t 0 = 0 := by
    apply hzero t htpre
    intro pr hpr
    rw [(pushProcessors_nil_mem np tasks.length pr hpr).1]
    exact getD_replicate_zero _ _
  obtain ⟨tk, htk⟩ : ∃ tk, tasks[t]? = some tk := ⟨tasks[t], List.getElem?_eq_getElem ht⟩
  have hexec : execOf tasks t = tk.executionTime := execOf_eq tasks t tk htk
  have hrk : up[t]? = some (up.getD t 0) := getElem?_eq_some_getD up t (by omega)
  have hrt := hrankb t ht
  rw [hexec] at hetpos hsumall hexecsum
  have hcval : ∀ pr ∈ ps, cpopCandidate (up.getD t 0) tk.executionTime pr
      = (maxElement pr.availableTime).getD 0 + up.getD t 0 + tk.executionTime := by
    intro pr hpr
    have h1 := (hinv pr hpr).2.2
    rw [hexec] at h1
    exact cpopCandidate_eq _ _ pr (hinv pr hpr).2.1 (by omega) (by omega) (by omega)
  have hslots : ∀ pr ∈ ps, t < pr.availableTime.length := by
    intro pr hpr
    rw [hshape pr hpr]; exact ht
  obtain ⟨pr0, hpr0⟩ := List.exists_mem_of_ne_nil ps hpsne
  obtain ⟨k, prk, hk, hstep, _, _, _⟩ := cpopStep_spec tasks up ps t tk (up.getD t 0) htk hrk
    hslots ⟨pr0, hpr0, by
      have h1 := (hinv pr0 hpr0).2.2
      rw [hexec] at h1
      rw [hcval pr0 hpr0]
      omega⟩
  have hkmem : prk ∈ ps := List.getElem?_mem hk
  have hslot : t < prk.availableTime.length := hslots prk hkmem
  obtain ⟨w, hwe, _, hwmax⟩ := maxElement_spec prk.availableTime (by omega)
  have hcand := hcval prk hkmem
  have hwval : (maxElement prk.availableTime).getD 0 = w := by rw [hwe]; rfl
  have hgt : ∀ x ∈ prk.availableTime,
      x < cpopCandidate (up.getD t 0) tk.executionTime prk := by
    intro x hx
    have := hwmax x hx
    omega
  have hnew := maxElement_set_eq prk.availableTime t _ hslot hgt
  obtain ⟨hadd, _⟩ := busySum_commit ps k prk
    (prk.availableTime.set t (cpopCandidate (up.getD t 0) tk.executionTime prk))
    tk.executionTime hk htotps (by omega) (by omega)
  rw [hadd] at hstep
  refine ⟨htpre, htpost, ps, _, _, k, prk, cpopCandidate (up.getD t 0) tk.executionTime prk,
    hpre, by rw [hexec]; exact hstep, hk, rfl, by rw [hexec]; exact hcand, hz prk hkmem, hgt,
    hnew, ?_⟩
  intro j pr pr1 hj hj1
  rw [List.getElem?_set] at hj1
  by_cases hkj : k = j
  · rw [if_pos hkj] at hj1
    have hkl : k < ps.length := (List.getElem?_eq_some.mp hk).1
    rw [if_pos hkl] at hj1
    cases hj1
    rw [← hkj, hk] at hj
    cases hj
    simp only
    rw [hnew, hwval]
    simp only [Option.getD]
    omega
  · rw [if_neg hkj, hj] at hj1
    cases hj1
    exact le_refl _

/-- The hypotheses of the amended C18 hold on `rankExample` with two processors at the
second iteration, and the theorem applies there. -/
theorem cpop_commit_watermark_witness :
    WellFormed rankExample ∧ (1 : Int) ≤ 2 ∧
    ((rankExample.length : Int) + 1) * sequentialExecutionTime rankExample < INT_MAX ∧
    computeUpwardRanks rankExample = some [3, 4, 6] ∧
    cpopSortedTasks rankExample.length [3, 4, 6] [5, 4, 2] = [0] ++ 1 :: [2] ∧
    (1 ∉ [0] ∧ 1 ∉ [2] ∧
      ∃ ps c ps1 k prk f,
        cpopLoop rankExample [3, 4, 6] [0] (pushProcessors 2 rankExample.length []) 0
          = some (ps, c) ∧
        cpopStep rankExample [3, 4, 6] ps 1 = some ps1 ∧
        ps[k]? = some prk ∧
        ps1 = ps.set k
          { prk with availableTime := prk.availableTime.set 1 f,
                     totalExecutionTime := prk.totalExecutionTime + execOf rankExample 1 } ∧
        f = (maxElement prk.availableTime).getD 0 + ([3, 4, 6] : List Int).getD 1 0
              + execOf rankExample 1 ∧
        prk.availableTime.getD 1 0 = 0 ∧
        (∀ x ∈ prk.availableTime, x < f) ∧
        maxElement (prk.availableTime.set 1 f) = some f ∧
        (∀ (j : Nat) (pr pr1 : Processor), ps[j]? = some pr → ps1[j]? = some pr1 →
          (maxElement pr.availableTime).getD 0 ≤ (maxElement pr1.availableTime).getD 0)) :=
  ⟨by decide, by decide, by decide, by decide, by decide,
    cpop_commit_watermark rankExample 2 (by decide) (by decide) (by decide) [3, 4, 6]
      [5, 4, 2] (by decide) [0] [2] 1 (by decide)⟩

/-! ## The sentinel and the later claims -/

/-- On a well-formed task list, with at least one processor, the driver's empty processor
collection and the magnitude bounds of `scheduleHEFT_count_of_bound` and
`scheduleCPOP_count_of_bound`, both schedulers return and leave busy accumulators that
sum to the summed execution time. -/
theorem busySum_of_bound (tasks : List Task) (np : Int) (hw : WellFormed tasks)
    (hn : 1 ≤ np) :
    (2 * sequentialExecutionTime tasks < INT_MAX →
      ∃ r, scheduleHEFT tasks np [] = some r ∧
        busySum r.processors = sequentialExecutionTime tasks) ∧
    ((tasks.length + 1) * sequentialExecutionTime tasks < INT_MAX →
      ∃ r, scheduleCPOP tasks np [] = some r ∧
        busySum r.processors = sequentialExecutionTime tasks) := by
  have hnn := execPositive_nonneg tasks hw.2
  have hS0 := sequentialExecutionTime_nonneg tasks hnn
  constructor
  · intro hb
    obtain ⟨r, hr, _⟩ := scheduleHEFT_count_of_bound tasks np hw hn hb
    exact ⟨r, hr, (scheduleHEFT_busy tasks np r hw.1 hnn (by omega) hr).1⟩
  · intro hb
    have hSle : sequentialExecutionTime tasks ≤ INT_MAX := by
      have h1 : 0 ≤ (tasks.length : Int) * sequentialExecutionTime tasks :=
        mul_nonneg (Int.ofNat_nonneg _) hS0
      have h2 : ((tasks.length : Int) + 1) * sequentialExecutionTime tasks
          = (tasks.length : Int) * sequentialExecutionTime tasks
            + sequentialExecutionTime tasks := by ring
      omega
    obtain ⟨r, hr, _⟩ := scheduleCPOP_count_of_bound tasks np hw hn hb
    exact ⟨r, hr, (scheduleCPOP_busy tasks np r hw.1 hnn hSle hr).1⟩

/-- The hypotheses of `busySum_of_bound` hold on `rankExample` with two processors. -/
theorem busySum_of_bound_witness :
    WellFormed rankExample ∧ (1 : Int) ≤ 2 ∧
    2 * sequentialExecutionTime rankExample < INT_MAX ∧
    ((rankExample.length : Int) + 1) * sequentialExecutionTime rankExample < INT_MAX ∧
    (∃ r, scheduleHEFT rankExample 2 [] = some r ∧
      busySum r.processors = sequentialExecutionTime rankExample) ∧
    (∃ r, scheduleCPOP rankExample 2 [] = some r ∧
      busySum r.processors = sequentialExecutionTime rankExample) :=
  ⟨by decide, by decide, by decide, by decide,
    (busySum_of_bound rankExample 2 (by decide) (by decide)).1 (by decide),
    (busySum_of_bound rankExample 2 (by decide) (by decide)).2 (by decide)⟩

/-- C14 fails on the code: on the well-formed lists `heftSentinelExample` and
`cpopSentinelExample` with one processor the assignment loop commits the first task of
the order (busy sum 1073741823, respectively 715827881) and then reaches the commit with
`bestProcessor = -1`, because the only candidate finish time equals `INT_MAX`; the last
execution time is added to no processor and no final processor collection with busy sum
1073741824, respectively 715827883, is produced. -/
theorem busySum_sentinel :
    WellFormed heftSentinelExample ∧
    sequentialExecutionTime heftSentinelExample = 1073741824 ∧
    heftLoop heftSentinelExample [1073741823, 1] [0] (pushProcessors 1 1 []) 0
      = some ([⟨0, [2147483646], 1073741823⟩], 1) ∧
    busySum [⟨0, [2147483646], 1073741823⟩] = 1073741823 ∧
    heftLoop heftSentinelExample [1073741823, 1] [0, 1] (pushProcessors 1 1 []) 0 = none ∧
    (scheduleHEFT heftSentinelExample 1 []).map (fun r => busySum r.processors)
      ≠ some (sequentialExecutionTime heftSentinelExample) ∧
    WellFormed cpopSentinelExample ∧
    sequentialExecutionTime cpopSentinelExample = 715827883 ∧
    cpopLoop cpopSentinelExample [715827881, 715827883] [0] (pushProcessors 1 2 []) 0
      = some ([⟨0, [1431655762, 0], 715827881⟩], 1) ∧
    busySum [⟨0, [1431655762, 0], 715827881⟩] = 715827881 ∧
    cpopLoop cpopSentinelExample [715827881, 715827883] [0, 1] (pushProcessors 1 2 []) 0
      = none ∧
    (scheduleCPOP cpopSentinelExample 1 []).map (fun r => busySum r.processors)
      ≠ some (sequentialExecutionTime cpopSentinelExample) := by
  decide

/-- An iteration of the assignment loop of `scheduleHEFT` over processors with non-empty
time vectors gets past its commit exactly when some candidate finish time is below
`INT_MAX`. -/
theorem heftStep_some_iff (tasks : List Task) (up : List Int) (ps : List Processor)
    (t : Nat) (tk : Task) (rank : Int) (htk : tasks[t]? = some tk)
    (hrank : up[t]? = some rank) (hne : ∀ pr ∈ ps, 0 < pr.availableTime.length) :
    (∃ ps1, heftStep tasks up ps t = some ps1) ↔
      ∃ pr ∈ ps, heftCandidate rank tk.executionTime pr < INT_MAX := by
  constructor
  · rintro ⟨ps1, h⟩
    obtain ⟨k, prk, hk, _, hlt, _, _⟩ := heftStep_commit tasks up ps ps1 t tk rank htk hrank hne h
    exact ⟨prk, List.getElem?_mem hk, hlt⟩
  · intro h
    obtain ⟨k, prk, _, hstep, _⟩ := heftStep_spec tasks up ps t tk rank htk hrank hne h
    exact ⟨_, hstep⟩

/-- C17 fails on the code: in the run of `scheduleHEFT` on `heftSentinelExample` with one
processor the second iteration starts with next-free time 2147483646; the only candidate
finish time is `max(2147483646, 1) + 1 = INT_MAX`, which is no overflow, yet the search
returns `bestProcessor = -1` and the task is committed to no processor. -/
theorem heftStep_sentinel_no_commit :
    heftUpwardRanks heftSentinelExample = some [1073741823, 1] ∧
    heftSortedTasks 2 [1073741823, 1] = [0, 1] ∧
    heftStep heftSentinelExample [1073741823, 1] (pushProcessors 1 1 []) 0
      = some [⟨0, [2147483646], 1073741823⟩] ∧
    heftCandidate 1 1 ⟨0, [2147483646], 1073741823⟩ = INT_MAX ∧
    (∀ pr ∈ [(⟨0, [2147483646], 1073741823⟩ : Processor)],
      heftCandidate 1 1 pr ≤ INT_MAX ∧ pr.totalExecutionTime + 1 ≤ INT_MAX) ∧
    heftBest 1 1 [⟨0, [2147483646], 1073741823⟩] 0 INT_MAX (-1) = some (INT_MAX, -1) ∧
    heftStep heftSentinelExample [1073741823, 1] [⟨0, [2147483646], 1073741823⟩] 1 = none := by
  decide

end SchedulingAlgo
